import Mathlib

/-!
# GradedReaderBooks: text-to-document converters

A shallow embedding of the Go converters

* `ApostolicFathers/Clement/ii_clement/convert.go`  (`parseTextToJSON`),
* `ApostolicFathers/Ignatius/trallians/convert.go`  (`parseTextToJSON`, `processSection`),
* `StoffleEpitome/convert.go`                        (`parseTextToJSON`, `processSection`),

and theorems about them.

Modelling conventions.

* A Go `string` is a `List Char`: the input is taken to be valid UTF-8, so that a
  string is its sequence of runes.
* `int` is the 64-bit Go `int`, embedded in `Int`; the only place where the width
  matters is `strconv.Atoi`, modelled by `atoi`.
* `parseTextToJSON` reads a file and marshals a `Book`; the embedding takes the file
  content and returns the `Book` that is handed to `json.MarshalIndent`.
* `[]*Chapter` is a `List Chapter`: chapter pointers are non-nil and pairwise distinct,
  as they are in every book these programs build.
* `fmt.Printf` of a warning is recorded in a list of emitted diagnostics; a Go panic
  is recorded in the outcome of the call.
-/

namespace GradedReader

/-! ## Data model (identical in the three source files) -/

structure Title where
  Display : List Char
  Gloss : List Char
deriving DecidableEq, Repr

structure VocabItem where
  Word : List Char
  Gloss : List Char
  Image : List Char
deriving DecidableEq, Repr

structure Question where
  Question : List Char
  Answer : List Char
deriving DecidableEq, Repr

structure Word where
  Word : List Char
  Gloss : List Char
deriving DecidableEq, Repr

structure Paragraph where
  VerseID : Int
  Words : List Word
deriving DecidableEq, Repr

structure ContentItem where
  Subtitle : List Char
  Image : List Char
  Paragraph : List Paragraph
deriving DecidableEq, Repr

structure Chapter where
  Slug : List Char
  Title : Title
  TitleImage : List Char
  Vocab : List VocabItem
  Questions : List Question
  Content : List ContentItem
deriving DecidableEq, Repr

structure Book where
  Title : List Char
  Slug : List Char
  Author : List Char
  Language : List Char
  Description : List Char
  CoverImage : List Char
  Chapters : List Chapter
deriving DecidableEq, Repr

/-! ## Go standard library: `unicode`, `strings`, `strconv`, `fmt` -/

/-- Go `unicode.IsSpace`: the Unicode White_Space property. -/
def unicodeIsSpace (c : Char) : Bool :=
  let n := c.toNat
  n == 0x09 || n == 0x0A || n == 0x0B || n == 0x0C || n == 0x0D || n == 0x20 ||
  n == 0x85 || n == 0xA0 || n == 0x1680 || (0x2000 ≤ n && n ≤ 0x200A) ||
  n == 0x2028 || n == 0x2029 || n == 0x202F || n == 0x205F || n == 0x3000

/-- Go `strings.TrimSpace`: drop leading and trailing `unicode.IsSpace` runes. -/
def trimSpace (s : List Char) : List Char :=
  (s.dropWhile unicodeIsSpace).rdropWhile unicodeIsSpace

/-- Go `strings.Fields`: the maximal runs of runes that are not `unicode.IsSpace`. -/
def fields (s : List Char) : List (List Char) :=
  (s.splitOnP unicodeIsSpace).filter (fun w => !w.isEmpty)

/-- Go `strings.Split(s, sep)` for a one-rune separator `sep`. -/
def split (s : List Char) (sep : Char) : List (List Char) :=
  s.splitOnP (· == sep)

/-- Go `strings.SplitN(s, sep, 2)` for a one-rune separator: cut at the first `sep`. -/
def splitN2 (s : List Char) (sep : Char) : List (List Char) :=
  match s.dropWhile (· != sep) with
  | [] => [s]
  | _ :: after => [s.takeWhile (· != sep), after]

/-- The largest value of the 64-bit Go `int`. -/
def maxInt : Int := 2 ^ 63 - 1

/-- The smallest value of the 64-bit Go `int`. -/
def minInt : Int := -(2 ^ 63)

/-- The digit loop of `strconv.Atoi`/`ParseUint`: `n = n*10 + (ch - 48)`. -/
def digitsValue (ds : List Char) : Nat :=
  ds.foldl (fun n ch => n * 10 + (ch.toNat - 48)) 0

/-- Go `strconv.Atoi` on a 64-bit platform: the value and whether `err == nil`.
An optional sign followed by one or more decimal digits; anything else is a syntax
error with value 0; a value out of range is an error with the nearest bound as value. -/
def atoi (s : List Char) : Int × Bool :=
  let (neg, ds) :=
    match s with
    | '+' :: t => (false, t)
    | '-' :: t => (true, t)
    | _ => (false, s)
  if ds.isEmpty || !ds.all Char.isDigit then (0, false)
  else
    let n : Int := digitsValue ds
    if neg then
      if n > 2 ^ 63 then (minInt, false) else (-n, true)
    else
      if n > maxInt then (maxInt, false) else (n, true)

/-- Go `fmt.Sprintf("%d", n)`. -/
def fmtInt (n : Int) : List Char :=
  match n with
  | Int.ofNat k => Nat.toDigits 10 k
  | Int.negSucc k => '-' :: Nat.toDigits 10 (k + 1)

/-! ## Go `regexp`: the constructs the converters use

Go's `regexp` returns the match a backtracking search finds first (leftmost-first,
greedy repetition). `Re` holds the operators that occur in the patterns of the
source; every pattern there starts with `^`, so a match is attempted at the start of
the text only. -/

/-- Regular expressions: a literal text, the greedy repetitions `*` and `+` of a character
class, concatenation, a capturing group, and the end-of-text anchor `$`. -/
inductive Re where
  | lit (s : List Char)
  | star (p : Char → Bool)
  | plus (p : Char → Bool)
  | seq (a b : Re)
  | group (r : Re)
  | eot

/-- Greedy repetition of a character class: the longest run first, then shorter ones. -/
def starRun {γ : Type} (p : Char → Bool) :
    List Char → List Char → (List Char → List Char → Option γ) → Option γ
  | acc, [], k => k acc []
  | acc, c :: cs, k =>
    if p c then (starRun p (acc ++ [c]) cs k).orElse (fun _ => k acc (c :: cs))
    else k acc (c :: cs)

/-- Backtracking matcher: `r.run s k` matches `r` at the head of `s` and hands the matched
text, the rest of the input and the submatches of the capturing groups to `k`; when `k`
fails the next alternative of `r` is tried. -/
def Re.run {γ : Type} :
    Re → List Char → (List Char → List Char → List (List Char) → Option γ) → Option γ
  | .lit t, s, k => if t.isPrefixOf s then k t (s.drop t.length) [] else none
  | .star p, s, k => starRun p [] s (fun m r => k m r [])
  | .plus p, s, k =>
    match s with
    | c :: cs => if p c then starRun p [c] cs (fun m r => k m r []) else none
    | [] => none
  | .seq a b, s, k =>
    a.run s (fun m₁ r₁ g₁ => b.run r₁ (fun m₂ r₂ g₂ => k (m₁ ++ m₂) r₂ (g₁ ++ g₂)))
  | .group r, s, k => r.run s (fun m rest g => k m rest (m :: g))
  | .eot, s, k => if s.isEmpty then k [] [] [] else none

/-- Go `(*Regexp).FindStringSubmatch` for a pattern `^r`: the whole match followed by the
submatches, or the empty (nil) slice when there is no match. -/
def findStringSubmatch (r : Re) (s : List Char) : List (List Char) :=
  (r.run s (fun m _ g => some (m :: g))).getD []

/-- Go `(*Regexp).MatchString` for a pattern `^r`. -/
def matchString (r : Re) (s : List Char) : Bool :=
  (r.run s (fun _ _ _ => some ())).isSome

/-- Regexp class `[0-9]`. -/
def reDigit (c : Char) : Bool := '0' ≤ c && c ≤ '9'

/-- Regexp class `\s`, which in Go is `[\t\n\f\r ]`. -/
def reSpace (c : Char) : Bool :=
  c == '\t' || c == '\n' || c == '\x0c' || c == '\r' || c == ' '

/-- Regexp class `.` (without the `s` flag): any rune but the newline. -/
def reAny (c : Char) : Bool := c != '\n'

/-- Go `regexp/syntax` `(*parser).parsePerlFlags`, as a predicate: does the parser accept
the group opener `(?...` at the head of the pattern. After `(?` it accepts a named group
`P<name>` or `<name>`, which needs a closing `>` and a non-empty alphanumeric name, or a
run of the flags `i m s U -` ended by `:` or `)`. Every other opener, the look-behind
`(?<=` among them, is an error (Go releases before 1.22 reject `<` as an unknown flag,
later ones as an unterminated named group). -/
def parsePerlFlags (s : List Char) : Bool :=
  match s with
  | '(' :: '?' :: t =>
    let named : Option (List Char) :=
      match t with
      | 'P' :: '<' :: u => if u.length > 0 then some u else none
      | '<' :: u => if u.length > 0 then some u else none
      | _ => none
    match named with
    | some u =>
      let name := u.takeWhile (· != '>')
      u.contains '>' && !name.isEmpty && name.all (fun c => c == '_' || c.isAlphanum)
    | none =>
      let flags := t.takeWhile (fun c => c == 'i' || c == 'm' || c == 's' || c == 'U')
      match t.drop flags.length with
      | ':' :: _ => true
      | ')' :: _ => true
      | '-' :: u =>
        let neg := u.takeWhile (fun c => c == 'i' || c == 'm' || c == 's' || c == 'U')
        match u.drop neg.length with
        | ':' :: _ => !neg.isEmpty
        | ')' :: _ => !neg.isEmpty
        | _ => false
      | _ => false
  | _ => false

/-! ## Mode A: `parseTextToJSON` of `ii_clement` and `trallians`

The two functions differ in the metadata constants only. -/

namespace ModeA

/-- The pattern `^([0-9]+\.[0-9]+)\s+(.*)$` (ii_clement line 87, trallians line 87). -/
def verseRegex : Re :=
  .seq (.group (.seq (.plus reDigit) (.seq (.lit ['.']) (.plus reDigit))))
    (.seq (.plus reSpace) (.seq (.group (.star reAny)) .eot))

/-- The body of `for _, line := range lines` (lines 88-117), as a function of
`chapter.Content`. -/
def loopBody (content : List ContentItem) (line : List Char) : List ContentItem :=
  let line := trimSpace line
  if line.isEmpty then content
  else
    let submatches := findStringSubmatch verseRegex line
    if submatches.length = 3 then
      let verseID := submatches.getD 1 []
      let text := submatches.getD 2 []
      let words := (fields text).map (fun w => Word.mk w [])
      let parts := split verseID '.'
      let v : Int :=
        if parts.length = 2 then
          let r := atoi (parts.getD 0 [] ++ parts.getD 1 [])
          if r.2 then r.1 else 0
        else 0
      content ++ [ContentItem.mk [] [] [Paragraph.mk v words]]
    else content

/-- The function `parseTextToJSON` up to the call of `json.MarshalIndent`, with the
metadata constants of the book as parameters. -/
def parseTextToJSON (title slug author : List Char) (content : List Char) : Book :=
  let lines := split content '\n'
  let chapter : Chapter :=
    { Slug := "chapter-1".toList
      Title := Title.mk title []
      TitleImage := []
      Vocab := []
      Questions := []
      Content := lines.foldl loopBody [] }
  { Title := title
    Slug := slug
    Author := author
    Language := "Greek".toList
    Description := []
    CoverImage := []
    Chapters := [] ++ [chapter] }

end ModeA

namespace IIClement

/-- The function `parseTextToJSON` of `ApostolicFathers/Clement/ii_clement/convert.go`. -/
def parseTextToJSON (content : List Char) : Book :=
  ModeA.parseTextToJSON "Second Epistle of Clement to the Corinthians".toList
    "ii_clement".toList "Clement of Rome".toList content

end IIClement

namespace Trallians

/-- The function `parseTextToJSON` of `ApostolicFathers/Ignatius/trallians/convert.go`. -/
def parseTextToJSON (content : List Char) : Book :=
  ModeA.parseTextToJSON "trallians".toList "trallians".toList "Clement of Rome".toList content

end Trallians

/-! ## Mode C: `parseTextToJSON` of `StoffleEpitome` -/

/-- Go `m[k]` on a `map[int]T` kept as an association list. -/
def mapGet {α : Type} (m : List (Int × α)) (k : Int) : Option α :=
  match m with
  | [] => none
  | (k', v) :: t => if k' = k then some v else mapGet t k

/-- Go `m[k] = v` on a `map[int]T` kept as an association list. -/
def mapSet {α : Type} (m : List (Int × α)) (k : Int) (v : α) : List (Int × α) :=
  match m with
  | [] => [(k, v)]
  | (k', v') :: t => if k' = k then (k, v) :: t else (k', v') :: mapSet t k v

namespace StoffleEpitome

/-- The pattern `^([0-9]+)\.([0-9]+)\s+(.*)$` (line 83). -/
def verseRegex : Re :=
  .seq (.group (.plus reDigit)) (.seq (.lit ['.']) (.seq (.group (.plus reDigit))
    (.seq (.plus reSpace) (.seq (.group (.star reAny)) .eot))))

/-- The pattern `^([0-9]+)\.title\s+(.+)$` (line 84). -/
def titleRegex : Re :=
  .seq (.group (.plus reDigit)) (.seq (.lit ".title".toList)
    (.seq (.plus reSpace) (.seq (.group (.plus reAny)) .eot)))

/-- The pattern `^0\.0\s+(.+)$` (line 85). -/
def partMarker : Re :=
  .seq (.lit "0.0".toList) (.seq (.plus reSpace) (.seq (.group (.plus reAny)) .eot))

/-- The variables the loop of `parseTextToJSON` updates. -/
structure LoopState where
  chapterMap : List (Int × Chapter)
  chapterTitles : List (Int × List Char)
  pendingPartMarker : List Char
deriving DecidableEq, Repr

/-- The body of `for _, line := range lines` (lines 88-147). -/
def loopBody (st : LoopState) (line : List Char) : LoopState :=
  let line := trimSpace line
  if line.isEmpty then st
  else if matchString partMarker line then
    let submatches := findStringSubmatch partMarker line
    { st with pendingPartMarker := submatches.getD 1 [] }
  else if matchString titleRegex line then
    let submatches := findStringSubmatch titleRegex line
    let chapterNum := (atoi (submatches.getD 1 [])).1
    { st with chapterTitles := mapSet st.chapterTitles chapterNum (submatches.getD 2 []) }
  else
    let submatches := findStringSubmatch verseRegex line
    if submatches.length = 4 then
      let chapterNum := (atoi (submatches.getD 1 [])).1
      let paraNum := (atoi (submatches.getD 2 [])).1
      let text := submatches.getD 3 []
      let words := (fields text).map (fun w => Word.mk w [])
      let contentItem := ContentItem.mk [] [] [Paragraph.mk paraNum words]
      match mapGet st.chapterMap chapterNum with
      | none =>
        let chapter : Chapter :=
          { Slug := "chapter-".toList ++ fmtInt chapterNum
            Title := Title.mk ((mapGet st.chapterTitles chapterNum).getD []) []
            TitleImage := []
            Vocab := []
            Questions := []
            Content := [] }
        if st.pendingPartMarker ≠ [] then
          let partParagraph := Paragraph.mk 0 [Word.mk st.pendingPartMarker []]
          let chapter :=
            { chapter with Content := chapter.Content ++ [ContentItem.mk [] [] [partParagraph]] }
          { st with
            chapterMap := mapSet st.chapterMap chapterNum
              { chapter with Content := chapter.Content ++ [contentItem] }
            pendingPartMarker := [] }
        else
          { st with
            chapterMap := mapSet st.chapterMap chapterNum
              { chapter with Content := chapter.Content ++ [contentItem] } }
      | some chapter =>
        { st with
          chapterMap := mapSet st.chapterMap chapterNum
            { chapter with Content := chapter.Content ++ [contentItem] } }
    else st

/-- The function `parseTextToJSON` of `StoffleEpitome/convert.go` up to the call of
`json.MarshalIndent`. The order in which `for num := range chapterMap` visits the keys
is not specified by Go; `rangeOrder` gives it, as a rearrangement of the key list. -/
def parseTextToJSON (rangeOrder : List Int → List Int) (content : List Char) : Book :=
  let lines := split content '\n'
  let st := lines.foldl loopBody (LoopState.mk [] [] [])
  let chapterNums := rangeOrder (st.chapterMap.map Prod.fst)
  let sorted := chapterNums.insertionSort (· ≤ ·)
  { Title := "Stoffel Epitome".toList
    Slug := "stoffel-epitome".toList
    Author := "Stoffel".toList
    Language := "Greek".toList
    Description := ("A Greek epitome of the life of Jesus, structured in narrative " ++
      "chapters and verses, attributed to Stoffel.").toList
    CoverImage := []
    Chapters := [] ++ sorted.filterMap (mapGet st.chapterMap) }

end StoffleEpitome

/-! ## The section assembler: `processSection` of `trallians` and `StoffleEpitome`

The two copies of the function are the same text. -/

/-- What a call of `processSection` leaves behind: the book it updated in place, the
lines it printed with `fmt.Printf`, and whether it ended in a panic. -/
structure Outcome where
  book : Book
  printed : List (List Char)
  panicked : Bool
deriving DecidableEq, Repr

/-- The pattern of `sentenceRegex` (trallians line 233, StoffleEpitome line 270). -/
def sentencePattern : List Char := "(?<=[.!?;])\\s+".toList

/-- Replace the chapter `book.Chapters[len(book.Chapters)-1]` points to. -/
def setCurrentChapter (book : Book) (chapter : Chapter) : Book :=
  { book with Chapters := book.Chapters.dropLast ++ [chapter] }

/-- The body of the loop of the `"Chapter"` case, acting on the new chapter. -/
def chapterLine (ch : Chapter) (line : List Char) : Chapter :=
  let line := trimSpace line
  if line.isEmpty then ch
  else if "Title:".toList.isPrefixOf line then
    { ch with Title := { ch.Title with Display := trimSpace ((splitN2 line ':').getD 1 []) } }
  else if "Gloss:".toList.isPrefixOf line then
    { ch with Title := { ch.Title with Gloss := trimSpace ((splitN2 line ':').getD 1 []) } }
  else if "TitleImage:".toList.isPrefixOf line then
    { ch with TitleImage := trimSpace ((splitN2 line ':').getD 1 []) }
  else ch

/-- The body of the loop of the `"Vocab"` case, acting on `currentChapter.Vocab` and
`hasContent`. -/
def vocabLine (acc : List VocabItem × Bool) (line : List Char) : List VocabItem × Bool :=
  let line := trimSpace line
  if line.isEmpty then acc
  else
    let parts := split line '|'
    if parts.length = 3 then
      (acc.1 ++ [VocabItem.mk (trimSpace (parts.getD 0 [])) (trimSpace (parts.getD 1 []))
        (trimSpace (parts.getD 2 []))], true)
    else acc

/-- The body of the loop of the `"Questions"` case, acting on `currentChapter.Questions`
and `hasContent`. -/
def questionLine (acc : List Question × Bool) (line : List Char) : List Question × Bool :=
  let line := trimSpace line
  if line.isEmpty then acc
  else
    let parts := split line '|'
    if parts.length = 2 then
      (acc.1 ++ [Question.mk (trimSpace (parts.getD 0 [])) (trimSpace (parts.getD 1 []))], true)
    else acc

/-- The local variables of the `"Content"` case. -/
structure ContentState where
  content : List ContentItem
  verseCounter : Int
  pendingSubtitle : List Char
  pendingImage : List Char
deriving DecidableEq, Repr

/-- The loop of the `"Content"` case; the flag tells whether it ended in a panic.
A line that is neither blank nor a `Subtitle:`/`Image:` directive reaches
`regexp.MustCompile(sentencePattern)`, which panics when the pattern does not parse.
The pattern opens with `(?<=`, so the statements after that call (the sentence split,
the word/gloss scan and the append to `currentChapter.Content`) are never reached. -/
def contentLoop : List (List Char) → ContentState → ContentState × Bool
  | [], st => (st, false)
  | line :: rest, st =>
    let line := trimSpace line
    if line.isEmpty then contentLoop rest st
    else if "Subtitle:".toList.isPrefixOf line then
      contentLoop rest { st with pendingSubtitle := trimSpace ((splitN2 line ':').getD 1 []) }
    else if "Image:".toList.isPrefixOf line then
      contentLoop rest { st with pendingImage := trimSpace ((splitN2 line ':').getD 1 []) }
    else if !parsePerlFlags sentencePattern then (st, true)
    else contentLoop rest st -- never taken: the pattern does not parse

/-- The function `processSection` (trallians lines 129-275, StoffleEpitome lines 166-312). -/
def processSection (book : Book) (sectionTitle sectionContent : List Char) : Outcome :=
  let currentChapter := book.Chapters.getLast?
  if sectionTitle = "Chapter".toList then
    let chapterNumber : Int := book.Chapters.length + 1
    let newChapter : Chapter :=
      { Slug := "chapter-".toList ++ fmtInt chapterNumber
        Title := Title.mk [] []
        TitleImage := []
        Vocab := []
        Questions := []
        Content := [] }
    let book := { book with Chapters := book.Chapters ++ [newChapter] }
    ⟨setCurrentChapter book ((split sectionContent '\n').foldl chapterLine newChapter), [], false⟩
  else if sectionTitle = "Vocab".toList then
    match currentChapter with
    | none => ⟨book, ["Warning: [Vocab] section found without a chapter\n".toList], false⟩
    | some ch =>
      let r := (split sectionContent '\n').foldl vocabLine (ch.Vocab, false)
      let book := setCurrentChapter book { ch with Vocab := r.1 }
      if !r.2 then
        let chapterNum : Int := book.Chapters.length
        ⟨book, ["Warning: Empty [Vocab] section in chapter ".toList ++ fmtInt chapterNum ++
          ['\n']], false⟩
      else ⟨book, [], false⟩
  else if sectionTitle = "Questions".toList then
    match currentChapter with
    | none => ⟨book, ["Warning: [Questions] section found without a chapter\n".toList], false⟩
    | some ch =>
      let r := (split sectionContent '\n').foldl questionLine (ch.Questions, false)
      let book := setCurrentChapter book { ch with Questions := r.1 }
      if !r.2 then
        let chapterNum : Int := book.Chapters.length
        ⟨book, ["Warning: Empty [Questions] section in chapter ".toList ++ fmtInt chapterNum ++
          ['\n']], false⟩
      else ⟨book, [], false⟩
  else if sectionTitle = "Content".toList then
    match currentChapter with
    | none => ⟨book, ["Warning: [Content] section found without a chapter\n".toList], false⟩
    | some ch =>
      let r := contentLoop (split sectionContent '\n') ⟨ch.Content, 1, [], []⟩
      ⟨setCurrentChapter book { ch with Content := r.1.content }, [], r.2⟩
  else ⟨book, [], false⟩

/-! ## Specification-level notions used in the statements -/

/-- A line of the form `<digits>.<digits><whitespace><text>`, where `<digits>` is a
non-empty run of `0`-`9` and `<whitespace>` a non-empty run of the regexp class `\s`
(space, tab, newline, form feed, carriage return): the two digit strings and the text
that follows the whitespace; `none` for a line of any other form. -/
def verseLineParts (l : List Char) : Option (List Char × List Char × List Char) :=
  let c := l.takeWhile reDigit
  let r := (l.dropWhile reDigit).drop 1
  let v := r.takeWhile reDigit
  let w := r.dropWhile reDigit
  if c ≠ [] ∧ (l.dropWhile reDigit).head? = some '.' ∧ v ≠ [] ∧ w.takeWhile reSpace ≠ [] then
    some (c, v, w.dropWhile reSpace)
  else none


/-- The decomposition of a line of the form `<digits>.<digits><whitespace><text>` into the
chapter digits `c`, the verse digits `v`, the whitespace `ws` and the text `t`. -/
def IsVerseLine (l c v ws t : List Char) : Prop :=
  l = c ++ '.' :: (v ++ (ws ++ t)) ∧
  c ≠ [] ∧ (∀ x ∈ c, reDigit x = true) ∧
  v ≠ [] ∧ (∀ x ∈ v, reDigit x = true) ∧
  ws ≠ [] ∧ (∀ x ∈ ws, reSpace x = true)

/-- The natural number whose decimal digits, most significant first, are `ds`. -/
def decimal (ds : List Char) : Nat :=
  Nat.ofDigits 10 (ds.reverse.map (fun ch => ch.toNat - '0'.toNat))


instance (l c v ws t : List Char) : Decidable (IsVerseLine l c v ws t) := by
  unfold IsVerseLine; infer_instance

/-- The content item of a Mode A verse line with text `text`: no subtitle, no image,
one paragraph whose words are the whitespace-delimited tokens of the text, each with
an empty gloss. -/
def IsVerseItem (text : List Char) (item : ContentItem) : Prop :=
  item.Subtitle = [] ∧ item.Image = [] ∧
  ∃ id, item.Paragraph = [Paragraph.mk id ((fields text).map (fun w => Word.mk w []))]

/-- What one input line contributes in Mode A: a line whose trimmed form is
`<digits>.<digits><whitespace><text>` contributes one item for `<text>`, every other
line contributes nothing. -/
def LineYields (l : List Char) (o : Option ContentItem) : Prop :=
  (∀ c v ws t, IsVerseLine (trimSpace l) c v ws t → ∃ item, o = some item ∧ IsVerseItem t item) ∧
  ((∀ c v ws t, ¬ IsVerseLine (trimSpace l) c v ws t) → o = none)

/-- The book with no chapters. -/
def emptyBook : Book := Book.mk [] [] [] [] [] [] []

/-- The chapter a `"Chapter"` section with no directive adds to the empty book. -/
def emptyChapter : Chapter := Chapter.mk "chapter-1".toList (Title.mk [] []) [] [] [] []

/-- The book with the single chapter `emptyChapter`. -/
def oneChapterBook : Book := { emptyBook with Chapters := [emptyChapter] }

/-- The fields of a `|`-delimited record: `l` is the fields `fs` joined by `|`, and no
field contains a `|`. -/
def IsRecord (l : List Char) (fs : List (List Char)) : Prop :=
  l = ['|'].intercalate fs ∧ fs ≠ [] ∧ ∀ f ∈ fs, '|' ∉ f

/-- What one line of a `"Vocab"` section contributes: a line whose trimmed form splits on
`|` into exactly three fields contributes the item of the three trimmed fields, every
other line contributes nothing. -/
def VocabLineYields (l : List Char) (o : Option VocabItem) : Prop :=
  (∀ a b c, IsRecord (trimSpace l) [a, b, c] →
    o = some (VocabItem.mk (trimSpace a) (trimSpace b) (trimSpace c))) ∧
  ((∀ a b c, ¬ IsRecord (trimSpace l) [a, b, c]) → o = none)

/-- What one line of a `"Questions"` section contributes: a line whose trimmed form splits
on `|` into exactly two fields contributes the question of the two trimmed fields, every
other line contributes nothing. -/
def QuestionLineYields (l : List Char) (o : Option Question) : Prop :=
  (∀ a b, IsRecord (trimSpace l) [a, b] →
    o = some (Question.mk (trimSpace a) (trimSpace b))) ∧
  ((∀ a b, ¬ IsRecord (trimSpace l) [a, b]) → o = none)

/-- A part-marker line `0.0<whitespace><text>`: its non-empty text. -/
def partLineText (l : List Char) : Option (List Char) :=
  let r := l.drop 3
  if "0.0".toList.isPrefixOf l ∧ r.takeWhile reSpace ≠ [] ∧ r.dropWhile reSpace ≠ [] then
    some (r.dropWhile reSpace)
  else none

/-- A title line `<digits>.title<whitespace><text>`: its digit string and non-empty text. -/
def titleLineParts (l : List Char) : Option (List Char × List Char) :=
  let c := l.takeWhile reDigit
  let r := (l.dropWhile reDigit).drop 6
  if c ≠ [] ∧ ".title".toList.isPrefixOf (l.dropWhile reDigit) ∧ r.takeWhile reSpace ≠ [] ∧
      r.dropWhile reSpace ≠ [] then
    some (c, r.dropWhile reSpace)
  else none


/-- A text ends in no `\s` rune. -/
def EndsClean (s : List Char) : Prop := ∀ x, s.getLast? = some x → reSpace x = false


/-- The number a digit string denotes, as the 64-bit `int` the code holds: its decimal
value, or the largest `int` when that value does not fit (`strconv.Atoi` then returns
the largest `int` together with an error, which the callers discard). -/
def intOfDigits (ds : List Char) : Int := min (decimal ds : Int) maxInt

/-- The kinds of input line of Mode C. -/
inductive LineKind where
  | part (text : List Char)
  | title (chapter : Int) (title : List Char)
  | verse (chapter : Int) (para : Int) (text : List Char)
  | other
deriving DecidableEq, Repr

/-- The line classifier of Mode C, the first matching pattern winning: part marker
`0.0 <text>`, then title marker `<int>.title <text>`, then verse line
`<int>.<int> <text>`; the line is trimmed first. -/
def classify (l : List Char) : LineKind :=
  match partLineText (trimSpace l) with
  | some x => .part x
  | none =>
    match titleLineParts (trimSpace l) with
    | some (c, x) => .title (intOfDigits c) x
    | none =>
      match verseLineParts (trimSpace l) with
      | some (c, v, x) => .verse (intOfDigits c) (intOfDigits v) x
      | none => .other

/-- The content item of a Mode C verse line: one paragraph with the explicit number `p`
and the whitespace-delimited tokens of the text, each with an empty gloss. -/
def verseItem (p : Int) (text : List Char) : ContentItem :=
  ContentItem.mk [] [] [Paragraph.mk p ((fields text).map (fun w => Word.mk w []))]

/-- The synthetic content item of a part marker: one VerseID-0 paragraph whose single
word is the part-marker text. -/
def partItem (part : List Char) : ContentItem :=
  ContentItem.mk [] [] [Paragraph.mk 0 [Word.mk part []]]

/-- The slug `chapter-<n>`. -/
def chapterSlug (n : Int) : List Char := "chapter-".toList ++ fmtInt n

/-- The effect of a classified line on the loop variables of Mode C. -/
def applyKind (st : StoffleEpitome.LoopState) : LineKind → StoffleEpitome.LoopState
  | .part x => { st with pendingPartMarker := x }
  | .title n x => { st with chapterTitles := mapSet st.chapterTitles n x }
  | .verse n p x =>
    match mapGet st.chapterMap n with
    | some ch =>
      { st with
        chapterMap := mapSet st.chapterMap n { ch with Content := ch.Content ++ [verseItem p x] } }
    | none =>
      { st with
        chapterMap := mapSet st.chapterMap n
          (Chapter.mk (chapterSlug n) (Title.mk ((mapGet st.chapterTitles n).getD []) []) [] [] []
            ((if st.pendingPartMarker ≠ [] then [partItem st.pendingPartMarker] else []) ++
              [verseItem p x]))
        pendingPartMarker := [] }
  | .other => st


/-- The content items of the verse lines of chapter `n` among classified lines, in order. -/
def versesOf (n : Int) (ks : List LineKind) : List ContentItem :=
  ks.filterMap fun k =>
    match k with
    | .verse m p t => if m = n then some (verseItem p t) else none
    | _ => none

/-- Chapter `n` has a verse line among the classified lines. -/
def HasVerse (n : Int) (ks : List LineKind) : Prop :=
  ∃ p t, LineKind.verse n p t ∈ ks

/-- The calls a driver makes one after the other, each on the book the call before left;
a call that panics ends the program, so there is no book after it. -/
def runSections (book : Book) : List (List Char × List Char) → Option Book
  | [] => some book
  | call :: rest =>
    if (processSection book call.1 call.2).panicked then none
    else runSections (processSection book call.1 call.2).book rest

/-- The slugs `chapter-1`, ..., `chapter-k`. -/
def slugsUpTo (k : Nat) : List (List Char) :=
  (List.range k).map (fun i => chapterSlug ((i : Int) + 1))

/-! ## The chapter-keyed converter: `main` of `JustinMartyr/1-apology` -/

/-- Go `m[k]` on a `map[string]T` kept as an association list. -/
def strMapGet {α : Type} (m : List (List Char × α)) (k : List Char) : Option α :=
  match m with
  | [] => none
  | (k', v) :: t => if k' = k then some v else strMapGet t k

/-- Go `m[k] = v` on a `map[string]T` kept as an association list. -/
def strMapSet {α : Type} (m : List (List Char × α)) (k : List Char) (v : α) :
    List (List Char × α) :=
  match m with
  | [] => [(k, v)]
  | (k', v') :: t => if k' = k then (k, v) :: t else (k', v') :: strMapSet t k v

/-- The number of bytes of the UTF-8 encoding of a string. -/
def byteLen (s : List Char) : Nat := (s.map Char.utf8Size).sum

/-- Go `bufio` `dropCR`: drop one terminal carriage return. -/
def dropCR (l : List Char) : List Char :=
  if l.getLast? = some '\r' then l.dropLast else l

/-- The tokens `for scanner.Scan()` delivers for a `bufio.NewScanner` (split function
`ScanLines`, token limit `MaxScanTokenSize` = 64 KiB): the newline-separated lines,
without a final empty one, each without its terminal carriage return; a line of 65536
bytes or more makes `Scan` return false (`ErrTooLong`), which ends the loop. -/
def scanLines (content : List Char) : List (List Char) :=
  let pieces := split content '\n'
  let pieces := if pieces.getLast? = some [] then pieces.dropLast else pieces
  (pieces.takeWhile (fun l => byteLen l < 65536)).map dropCR

/-- Go `fmt.Sscanf(s, "%d", &v)` for `s` a non-empty run of decimal digits (what the
second group of `verseRe` captures): the value of `v` afterwards, `old` being its value
before. The number is stored when it fits in the 64-bit `int`; otherwise the scan fails
and `v` keeps its value. Other strings do not reach the call and are not modelled. -/
def sscanfInt (s : List Char) (old : Int) : Int :=
  if !s.isEmpty && s.all Char.isDigit && decide ((digitsValue s : Int) ≤ maxInt) then
    (digitsValue s : Int)
  else old

namespace Apology

structure Content where
  Subtitle : List Char
  Paragraph : List Paragraph
deriving DecidableEq, Repr

structure Chapter where
  Slug : List Char
  Title : Title
  TitleImage : List Char
  Vocab : List (List Char)
  Questions : List (List Char)
  Content : List Content
deriving DecidableEq, Repr

structure Book where
  ID : List Char
  Title : List Char
  Slug : List Char
  Author : List Char
  Language : List Char
  Description : List Char
  CoverImage : List Char
  Restricted : Bool
  Chapters : List Chapter
deriving DecidableEq, Repr

/-- The pattern `^(\d+)\.(\d+)\s+(.*)$` (line 78); `\d` is `[0-9]`. -/
def verseRe : Re :=
  .seq (.group (.plus reDigit)) (.seq (.lit ['.']) (.seq (.group (.plus reDigit))
    (.seq (.plus reSpace) (.seq (.group (.star reAny)) .eot))))

/-- The variables the loop of `main` updates. -/
structure LoopState where
  chapterMap : List (List Char × Chapter)
  chapterOrder : List (List Char)
deriving DecidableEq, Repr

/-- The body of `for scanner.Scan()` (lines 80-117), on the text of the scanned line. -/
def loopBody (st : LoopState) (text : List Char) : LoopState :=
  let line := trimSpace text
  if line.isEmpty then st
  else
    let submatches := findStringSubmatch verseRe line
    if submatches.length = 4 then
      let chapterNum := submatches.getD 1 []
      let verseNum := submatches.getD 2 []
      let text := submatches.getD 3 []
      let chapterSlug := "chapter-".toList ++ chapterNum
      let verseID := sscanfInt verseNum 0
      let st :=
        if (strMapGet st.chapterMap chapterSlug).isNone then
          { chapterMap := strMapSet st.chapterMap chapterSlug
              { Slug := chapterSlug
                Title := Title.mk ("Chapter ".toList ++ chapterNum) []
                TitleImage := []
                Vocab := []
                Questions := []
                Content := [] }
            chapterOrder := st.chapterOrder ++ [chapterSlug] }
        else st
      let words := (fields text).map (fun w => Word.mk w [])
      let content := Content.mk [] [Paragraph.mk verseID words]
      match strMapGet st.chapterMap chapterSlug with
      | some chapter =>
        { st with
          chapterMap := strMapSet st.chapterMap chapterSlug
            { chapter with Content := chapter.Content ++ [content] } }
      | none => st
    else st

/-- The function `main` of `JustinMartyr/1-apology/convert.go` from the content of the
input file to the book handed to the JSON encoder. -/
def convert (content : List Char) : Book :=
  let st := (scanLines content).foldl loopBody (LoopState.mk [] [])
  { ID := "1-apology".toList
    Title := "1 Apology".toList
    Slug := "1-apology".toList
    Author := "Justin Martyr".toList
    Language := "greek".toList
    Description := "The First Apology of Justin Martyr.".toList
    CoverImage := "1-apology.png".toList
    Restricted := false
    Chapters := [] ++ st.chapterOrder.filterMap (strMapGet st.chapterMap) }

end Apology

/-- A list without the later occurrences of its elements: the elements in the order in
which they first appear. -/
def firstOccurrences {α : Type} [DecidableEq α] : List α → List α
  | [] => []
  | x :: xs => x :: (firstOccurrences xs).filter (fun y => y ≠ x)

/-- The slug of the chapter of a verse line `<digits>.<digits><whitespace><text>` of
1-apology: `chapter-` followed by the chapter digits as written. -/
def apologySlug (l : List Char) : Option (List Char) :=
  (verseLineParts (trimSpace l)).map (fun r => "chapter-".toList ++ r.1)

/-- The invariant of the loop of 1-apology over the slugs `xs` of the verse lines read so
far: `chapterOrder` is `xs` without repetitions, the keys of `chapterMap` are the elements
of `xs`, and each chapter is stored under its own slug. -/
def ApologyInv (st : Apology.LoopState) (xs : List (List Char)) : Prop :=
  st.chapterOrder = firstOccurrences xs ∧
  (∀ k, (strMapGet st.chapterMap k).isSome = true ↔ k ∈ xs) ∧
  (∀ k ch, strMapGet st.chapterMap k = some ch → ch.Slug = k)

/-! ## The `"Content"` case of `processSection` in full -/

/-- Regexp class `[^()\s]`. -/
def reWordRune (c : Char) : Bool := !(c == '(' || c == ')' || reSpace c)

/-- The pattern of `wordGlossRegex` (trallians line 240, StoffleEpitome line 277),
`([^()\s]+)(?:\s*\(([^)]+)\))?`, matched at the head of `s`: the whole match and the two
submatches, and the rest of the text. The first group takes the longest run of runes
other than parentheses and `\s`; the optional group is taken when that run is followed
by optional `\s`, `(`, a non-empty run of runes other than `)`, and `)`; a group that
takes no part in the match has the empty string as its submatch. -/
def wordGlossAt (s : List Char) : Option (List (List Char) × List Char) :=
  let word := s.takeWhile reWordRune
  let r := s.dropWhile reWordRune
  if word.isEmpty then none
  else
    match r.dropWhile reSpace with
    | '(' :: r₂ =>
      match r₂.dropWhile (· != ')') with
      | ')' :: r₃ =>
        if (r₂.takeWhile (· != ')')).isEmpty then some ([word, word, []], r)
        else
          some ([word ++ r.takeWhile reSpace ++ '(' :: r₂.takeWhile (· != ')') ++ [')'], word,
            r₂.takeWhile (· != ')')], r₃)
      | _ => some ([word, word, []], r)
    | _ => some ([word, word, []], r)

/-- Go `wordGlossRegex.FindAllStringSubmatch(s, -1)`: the successive leftmost matches, each
search starting where the match before ended. Every match takes at least one rune, so
`fuel` = the length of the text is enough. -/
def findAllWordGloss : Nat → List Char → List (List (List Char))
  | 0, _ => []
  | _ + 1, [] => []
  | fuel + 1, c :: cs =>
    match wordGlossAt (c :: cs) with
    | some (m, rest) => m :: findAllWordGloss fuel rest
    | none => findAllWordGloss fuel cs

/-- The body of `for _, sentence := range sentences`, acting on `paragraphData.Paragraph`
and `verseCounter`. -/
def sentenceStep (acc : List Paragraph × Int) (sentence : List Char) : List Paragraph × Int :=
  let sentence := trimSpace sentence
  if sentence.isEmpty then acc
  else
    let submatches := findAllWordGloss sentence.length sentence
    let words := submatches.map (fun m =>
      Word.mk (trimSpace (m.getD 1 [])) (if m.length > 2 then trimSpace (m.getD 2 []) else []))
    if words.length > 0 then (acc.1 ++ [Paragraph.mk acc.2 words], acc.2 + 1)
    else acc

/-- The loop of the `"Content"` case with the statements after
`regexp.MustCompile(sentencePattern)` included. `compiled` is the outcome of that call:
`none` when it panics, `some split` when it returns a regexp whose `Split(line, -1)` is
`split`. With the Go `regexp` package it is `none` (see `contentLoop`). -/
def contentLoopWith (compiled : Option (List Char → List (List Char))) :
    List (List Char) → ContentState → ContentState × Bool
  | [], st => (st, false)
  | line :: rest, st =>
    let line := trimSpace line
    if line.isEmpty then contentLoopWith compiled rest st
    else if "Subtitle:".toList.isPrefixOf line then
      contentLoopWith compiled rest
        { st with pendingSubtitle := trimSpace ((splitN2 line ':').getD 1 []) }
    else if "Image:".toList.isPrefixOf line then
      contentLoopWith compiled rest
        { st with pendingImage := trimSpace ((splitN2 line ':').getD 1 []) }
    else
      match compiled with
      | none => (st, true)
      | some sentenceSplit =>
        let r := (sentenceSplit line).foldl sentenceStep ([], st.verseCounter)
        if r.1.length = 0 then contentLoopWith compiled rest { st with verseCounter := r.2 }
        else
          contentLoopWith compiled rest
            { content := st.content ++ [ContentItem.mk st.pendingSubtitle st.pendingImage r.1]
              verseCounter := r.2
              pendingSubtitle := []
              pendingImage := [] }

/-- The `"Content"` case of `processSection` over the outcome of
`regexp.MustCompile(sentencePattern)`. -/
def processContentWith (compiled : Option (List Char → List (List Char))) (book : Book)
    (sectionContent : List Char) : Outcome :=
  match book.Chapters.getLast? with
  | none => ⟨book, ["Warning: [Content] section found without a chapter\n".toList], false⟩
  | some ch =>
    let r := contentLoopWith compiled (split sectionContent '\n') ⟨ch.Content, 1, [], []⟩
    ⟨setCurrentChapter book { ch with Content := r.1.content }, [], r.2⟩

/-- Regexp class `[.!?;]`. -/
def reTerminal (c : Char) : Bool := c == '.' || c == '!' || c == '?' || c == ';'

/-- The pieces of `Split(line, -1)` for the pattern `(?<=[.!?;])\s+` in a regexp engine
that has look-behind (Perl, PCRE): the line is cut at every maximal run of `\s` that
directly follows one of `.`, `!`, `?`, `;`. `cur` is the piece being read and `skipping`
tells that such a run is being skipped. -/
def lookbehindSplitGo (cur : List Char) (skipping : Bool) : List Char → List (List Char)
  | [] => [cur]
  | c :: rest =>
    if skipping && reSpace c then lookbehindSplitGo cur true rest
    else if reTerminal c && (rest.head?.map reSpace).getD false then
      (cur ++ [c]) :: lookbehindSplitGo [] true rest
    else lookbehindSplitGo (cur ++ [c]) false rest

/-- The sentence split the pattern `(?<=[.!?;])\s+` is written for. -/
def lookbehindSplit (line : List Char) : List (List Char) :=
  lookbehindSplitGo [] false line


/-- The VerseIDs of the Paragraphs of a list of content items, read in order. -/
def verseIDs (items : List ContentItem) : List Int :=
  (items.map (·.Paragraph)).flatten.map (·.VerseID)

/-! ## Free-text lines and clean Paragraphs -/

/-- A free-text line of a `"Content"` section: a line that is not blank and whose trimmed
form starts neither with `Subtitle:` nor with `Image:`. -/
def isFreeText (l : List Char) : Bool :=
  !(trimSpace l).isEmpty && !"Subtitle:".toList.isPrefixOf (trimSpace l) &&
    !"Image:".toList.isPrefixOf (trimSpace l)

/-- A Paragraph with at least one Word, every Word with a surface form that is not empty
and holds no `unicode.IsSpace` rune. -/
def CleanWords (p : Paragraph) : Prop :=
  p.Words ≠ [] ∧ ∀ w ∈ p.Words, w.Word ≠ [] ∧ ∀ c ∈ w.Word, unicodeIsSpace c = false

instance (p : Paragraph) : Decidable (CleanWords p) := by
  unfold CleanWords; infer_instance

/-- The Content of a Mode C chapter as far as its Words go: every Paragraph after the
first item is clean, and the first item is clean or is the part-marker item of a part
marker among `ks`. -/
def GoodContent (ks : List LineKind) (items : List ContentItem) : Prop :=
  (∀ item ∈ items.tail, ∀ p ∈ item.Paragraph, CleanWords p) ∧
  ∀ item, items.head? = some item →
    (∀ p ∈ item.Paragraph, CleanWords p) ∨
      ∃ part, part ≠ [] ∧ LineKind.part part ∈ ks ∧ item = partItem part

/-- What the loop of Mode C keeps true of its variables, for the Words: a pending part
marker comes from a part-marker line among `ks`, and every chapter built so far has a
good Content. -/
def WordsInv (ks : List LineKind) (st : StoffleEpitome.LoopState) : Prop :=
  (st.pendingPartMarker ≠ [] → LineKind.part st.pendingPartMarker ∈ ks) ∧
  ∀ n ch, mapGet st.chapterMap n = some ch → GoodContent ks ch.Content

/-! ## Theorems -/

/-! ### The regular-expression matcher -/

theorem starRun_of_reject {γ : Type} (p : Char → Bool) (k : List Char → List Char → Option γ)
    (hk : ∀ acc c cs, p c = true → k acc (c :: cs) = none) :
    ∀ s acc, starRun p acc s k = k (acc ++ s.takeWhile p) (s.dropWhile p) := by
  intro s
  induction s with
  | nil => intro acc; simp [starRun]
  | cons c cs ih =>
    intro acc
    by_cases hc : p c = true
    · simp [starRun, hc, ih, hk acc c cs hc, Option.orElse]
      cases k (acc ++ c :: List.takeWhile p cs) (List.dropWhile p cs) <;> rfl
    · simp [starRun, hc]

theorem starRun_of_accept {γ : Type} (p : Char → Bool) (k : List Char → List Char → Option γ) :
    ∀ s acc, (k (acc ++ s.takeWhile p) (s.dropWhile p)).isSome = true →
      starRun p acc s k = k (acc ++ s.takeWhile p) (s.dropWhile p) := by
  intro s
  induction s with
  | nil => intro acc _; simp [starRun]
  | cons c cs ih =>
    intro acc h
    by_cases hc : p c = true
    · simp only [List.takeWhile_cons, hc, if_true, List.dropWhile_cons] at h ⊢
      have h2 : (k ((acc ++ [c]) ++ cs.takeWhile p) (cs.dropWhile p)).isSome = true := by
        simpa using h
      have := ih (acc ++ [c]) h2
      simp only [starRun, hc, if_true, this]
      simp only [List.append_assoc, List.singleton_append] at h2 ⊢
      cases hx : k (acc ++ c :: List.takeWhile p cs) (List.dropWhile p cs) with
      | none => simp [hx] at h2
      | some v => rfl
    · simp [starRun, hc]

theorem reDigit_eq_isDigit (c : Char) : reDigit c = c.isDigit := by
  simp only [reDigit, Char.isDigit]
  rw [Bool.eq_iff_iff]
  simp only [Bool.and_eq_true, decide_eq_true_eq, ge_iff_le]
  rfl

theorem reDigit_ne_dot {c : Char} (h : reDigit c = true) : c ≠ '.' := by
  rintro rfl; revert h; decide

theorem reSpace_cases {c : Char} (h : reSpace c = true) :
    c = '\t' ∨ c = '\n' ∨ c = '\x0c' ∨ c = '\r' ∨ c = ' ' := by
  simpa [reSpace, or_assoc] using h

theorem reSpace_not_digit {c : Char} (h : reSpace c = true) : reDigit c = false := by
  rcases reSpace_cases h with h | h | h | h | h <;> subst h <;> decide

theorem reSpace_unicode {c : Char} (h : reSpace c = true) : unicodeIsSpace c = true := by
  rcases reSpace_cases h with h | h | h | h | h <;> subst h <;> decide


theorem plus_run_of_reject {γ : Type} (p : Char → Bool)
    (k : List Char → List Char → List (List Char) → Option γ)
    (hk : ∀ m c cs, p c = true → k m (c :: cs) [] = none) (s : List Char) :
    (Re.plus p).run s k =
      if s.takeWhile p = [] then none else k (s.takeWhile p) (s.dropWhile p) [] := by
  cases s with
  | nil => simp [Re.run]
  | cons c cs =>
    by_cases hc : p c = true
    · simp only [Re.run, hc, if_true, List.takeWhile_cons, List.dropWhile_cons]
      rw [starRun_of_reject p _ (fun acc c cs h => hk acc c cs h)]
      simp
    · simp [Re.run, hc]

theorem plus_run_of_accept {γ : Type} (p : Char → Bool)
    (k : List Char → List Char → List (List Char) → Option γ) (s : List Char)
    (hk : (k (s.takeWhile p) (s.dropWhile p) []).isSome = true) :
    (Re.plus p).run s k =
      if s.takeWhile p = [] then none else k (s.takeWhile p) (s.dropWhile p) [] := by
  cases s with
  | nil => simp [Re.run]
  | cons c cs =>
    by_cases hc : p c = true
    · simp only [Re.run, hc, if_true, List.takeWhile_cons, List.dropWhile_cons] at hk ⊢
      rw [starRun_of_accept p _ cs [c] (by simpa using hk)]
      simp
    · simp [Re.run, hc]

theorem star_run_of_accept {γ : Type} (p : Char → Bool)
    (k : List Char → List Char → List (List Char) → Option γ) (s : List Char)
    (hk : (k (s.takeWhile p) (s.dropWhile p) []).isSome = true) :
    (Re.star p).run s k = k (s.takeWhile p) (s.dropWhile p) [] := by
  simp only [Re.run]
  rw [starRun_of_accept p _ s [] (by simpa using hk)]
  simp

theorem takeWhile_reAny {s : List Char} (h : '\n' ∉ s) : s.takeWhile reAny = s := by
  rw [List.takeWhile_eq_self_iff]
  intro x hx
  simp only [reAny, bne_iff_ne, ne_eq]
  rintro rfl; exact h hx

theorem dropWhile_reAny {s : List Char} (h : '\n' ∉ s) : s.dropWhile reAny = [] := by
  rw [List.dropWhile_eq_nil_iff]
  intro x hx
  simp only [reAny, bne_iff_ne, ne_eq]
  rintro rfl; exact h hx

theorem run_seq {γ : Type} (a b : Re) (s : List Char)
    (k : List Char → List Char → List (List Char) → Option γ) :
    (Re.seq a b).run s k =
      a.run s (fun m₁ r₁ g₁ => b.run r₁ (fun m₂ r₂ g₂ => k (m₁ ++ m₂) r₂ (g₁ ++ g₂))) := by
  simp only [Re.run]

theorem run_group {γ : Type} (r : Re) (s : List Char)
    (k : List Char → List Char → List (List Char) → Option γ) :
    (Re.group r).run s k = r.run s (fun m rest g => k m rest (m :: g)) := by
  simp only [Re.run]

theorem run_eot {γ : Type} (s : List Char)
    (k : List Char → List Char → List (List Char) → Option γ) :
    Re.eot.run s k = if s.isEmpty then k [] [] [] else none := by
  simp only [Re.run]

theorem run_lit {γ : Type} (t s : List Char)
    (k : List Char → List Char → List (List Char) → Option γ) :
    (Re.lit t).run s k = if t.isPrefixOf s then k t (s.drop t.length) [] else none := by
  simp only [Re.run]

/-- The tail `\s+(.*)$` of the verse patterns on a text without newline. -/
theorem run_space_rest {γ : Type} (k : List Char → List Char → List (List Char) → Option γ)
    (hk : ∀ m r g, (k m r g).isSome = true) (s : List Char) (hs : '\n' ∉ s) :
    (Re.seq (.plus reSpace) (.seq (.group (.star reAny)) .eot)).run s k =
      if s.takeWhile reSpace = [] then none
      else k s [] [s.dropWhile reSpace] := by
  have hd : '\n' ∉ s.dropWhile reSpace := fun h => hs ((List.dropWhile_suffix _).subset h)
  simp only [run_seq, run_group, run_eot]
  have hstar : ∀ m : List Char,
      ((Re.star reAny).run (s.dropWhile reSpace) fun m₂ r₂ g₂ =>
        if r₂.isEmpty = true then k (m ++ (m₂ ++ [])) [] ([] ++ (m₂ :: g₂ ++ [])) else none) =
      k (m ++ s.dropWhile reSpace) [] [s.dropWhile reSpace] := by
    intro m
    rw [star_run_of_accept]
    · simp [takeWhile_reAny hd, dropWhile_reAny hd]
    · simp [takeWhile_reAny hd, dropWhile_reAny hd, hk]
  rw [plus_run_of_accept]
  · simp only [hstar, List.takeWhile_append_dropWhile]
  · simp only [hstar, hk]

theorem reDigit_not_space {c : Char} (h : reDigit c = true) : reSpace c = false := by
  cases hs : reSpace c with
  | false => rfl
  | true => rw [reSpace_not_digit hs] at h; cases h

theorem plus_reSpace_digit {γ : Type} {c : Char} (h : reDigit c = true) (cs : List Char)
    (k : List Char → List Char → List (List Char) → Option γ) :
    (Re.plus reSpace).run (c :: cs) k = none := by
  simp [Re.run, reDigit_not_space h]

theorem lit_dot_digit {γ : Type} {c : Char} (h : reDigit c = true) (cs : List Char)
    (k : List Char → List Char → List (List Char) → Option γ) :
    (Re.lit ['.']).run (c :: cs) k = none := by
  have : ('.' == c) = false := by
    simp only [beq_eq_false_iff_ne, ne_eq]
    exact fun h' => reDigit_ne_dot h h'.symm
  simp [Re.run, List.isPrefixOf, this]

theorem verseRegexA_run {γ : Type} (k : List Char → List Char → List (List Char) → Option γ)
    (hk : ∀ m r g, (k m r g).isSome = true) (s : List Char) (hs : '\n' ∉ s) :
    ModeA.verseRegex.run s k =
      match verseLineParts s with
      | some (c, v, t) => k s [] [c ++ '.' :: v, t]
      | none => none := by
  unfold ModeA.verseRegex
  rw [run_seq, run_group, run_seq]
  rw [plus_run_of_reject _ _ (fun m c cs h => by rw [run_seq, lit_dot_digit h])]
  by_cases h1 : s.takeWhile reDigit = []
  · simp [verseLineParts, h1]
  · rw [if_neg h1]
    generalize hr : s.dropWhile reDigit = rest
    have hrest : '\n' ∉ rest := fun h => hs ((hr ▸ List.dropWhile_suffix _).subset h)
    have hsplit : s.takeWhile reDigit ++ rest = s := by
      rw [← hr, List.takeWhile_append_dropWhile]
    match rest, hrest, hsplit, hr with
    | [], _, _, hr => simp [run_seq, run_lit, verseLineParts, hr]
    | d :: r, hrest, hsplit, hr =>
      by_cases hd : d = '.'
      · subst hd
        rw [run_seq, run_lit]
        simp only [List.isPrefixOf_cons₂, beq_self_eq_true, List.isPrefixOf_nil_left,
          Bool.and_self, if_true, List.length_singleton, List.drop_succ_cons, List.drop_zero]
        rw [plus_run_of_reject _ _ (fun m c cs h => by rw [run_seq, plus_reSpace_digit h])]
        by_cases h2 : r.takeWhile reDigit = []
        · simp [verseLineParts, hr, h2]
        · rw [if_neg h2]
          have hr2 : '\n' ∉ r.dropWhile reDigit := fun h =>
            hrest (List.mem_cons_of_mem _ ((List.dropWhile_suffix _).subset h))
          rw [run_space_rest _ (fun m r g => hk _ _ _) _ hr2]
          by_cases h3 : (r.dropWhile reDigit).takeWhile reSpace = []
          · simp [verseLineParts, hr, h3]
          · have hv : verseLineParts s = some (s.takeWhile reDigit, r.takeWhile reDigit,
                (r.dropWhile reDigit).dropWhile reSpace) := by
              simp only [verseLineParts, hr, List.drop_succ_cons, List.drop_zero, List.head?_cons]
              rw [if_pos ⟨h1, trivial, h2, h3⟩]
            rw [hv, if_neg h3]
            simp only [List.nil_append, List.append_nil, List.append_assoc, List.singleton_append,
              List.cons_append, List.takeWhile_append_dropWhile, hsplit]
      · have : ('.' == d) = false := by
          simp only [beq_eq_false_iff_ne, ne_eq]; exact fun h => hd h.symm
        have hv : verseLineParts s = none := by
          simp only [verseLineParts, hr, List.head?_cons, Option.some.injEq]
          rw [if_neg (fun h => hd h.2.1)]
        rw [run_seq, run_lit, hv]
        simp [List.isPrefixOf, this]


/-! ### Strings -/

theorem not_mem_of_mem_split {s : List Char} {sep : Char} :
    ∀ {l : List Char}, l ∈ split s sep → sep ∉ l := by
  unfold split
  induction s with
  | nil => intro l hl; simp [List.splitOnP_nil] at hl; subst hl; simp
  | cons x xs ih =>
    intro l hl
    rw [List.splitOnP_cons] at hl
    by_cases hx : (x == sep) = true
    · simp only [hx, if_true, List.mem_cons] at hl
      rcases hl with rfl | hl
      · simp
      · exact ih hl
    · have hx' : (x == sep) = false := by simpa using hx
      simp only [hx', Bool.false_eq_true, if_false] at hl
      have hne := List.splitOnP_ne_nil (· == sep) xs
      cases hsp : List.splitOnP (· == sep) xs with
      | nil => exact absurd hsp hne
      | cons a as =>
        rw [hsp] at hl ih
        have hl : l = x :: a ∨ l ∈ as := by
          simpa [List.modifyHead] using hl
        rcases hl with hl | hl
        · rw [hl]
          intro hmem
          rcases List.mem_cons.1 hmem with h | h
          · exact hx (by simp [h])
          · exact ih (List.mem_cons_self _ _) h
        · exact ih (List.mem_cons_of_mem _ hl)

theorem trimSpace_subset (s : List Char) : trimSpace s ⊆ s := by
  intro x hx
  exact (List.dropWhile_suffix _).subset ((List.rdropWhile_prefix _ _).subset hx)

theorem fields_cons_space {c : Char} (h : unicodeIsSpace c = true) (s : List Char) :
    fields (c :: s) = fields s := by
  simp [fields, List.splitOnP_cons, h]

theorem fields_append_space (ws s : List Char) (h : ∀ x ∈ ws, unicodeIsSpace x = true) :
    fields (ws ++ s) = fields s := by
  induction ws with
  | nil => rfl
  | cons c cs ih =>
    rw [List.cons_append, fields_cons_space (h c (List.mem_cons_self _ _)),
      ih (fun x hx => h x (List.mem_cons_of_mem _ hx))]

theorem fields_dropWhile_reSpace (s : List Char) : fields (s.dropWhile reSpace) = fields s := by
  conv_rhs => rw [← List.takeWhile_append_dropWhile reSpace s]
  rw [fields_append_space]
  intro x hx
  exact reSpace_unicode (List.mem_takeWhile_imp hx)

/-! ### atoi -/

theorem digitsValue_append (a b : List Char) :
    digitsValue (a ++ b) = digitsValue a * 10 ^ b.length + digitsValue b := by
  induction b using List.reverseRecOn with
  | nil => simp [digitsValue]
  | append_singleton b x ih =>
    have h1 : digitsValue (a ++ (b ++ [x])) = digitsValue (a ++ b) * 10 + (x.toNat - 48) := by
      simp [digitsValue, List.foldl_append]
    have h2 : digitsValue (b ++ [x]) = digitsValue b * 10 + (x.toNat - 48) := by
      simp [digitsValue, List.foldl_append]
    rw [h1, h2, ih]
    simp [pow_succ]
    ring

theorem atoi_digits (ds : List Char) (hne : ds ≠ []) (hd : ∀ x ∈ ds, reDigit x = true) :
    atoi ds = if (digitsValue ds : Int) > maxInt then (maxInt, false)
      else ((digitsValue ds : Int), true) := by
  have hall : ds.all Char.isDigit = true := by
    simp only [List.all_eq_true]
    intro x hx
    rw [← reDigit_eq_isDigit]; exact hd x hx
  have hemp : ds.isEmpty = false := by
    cases ds with
    | nil => exact absurd rfl hne
    | cons _ _ => rfl
  cases ds with
  | nil => exact absurd rfl hne
  | cons c cs =>
    have hc := hd c (List.mem_cons_self _ _)
    have h1 : c ≠ '+' := by rintro rfl; revert hc; decide
    have h2 : c ≠ '-' := by rintro rfl; revert hc; decide
    unfold atoi
    split
    · rename_i heq
      split at heq
      · rename_i h; cases h; exact absurd rfl h1
      · rename_i h; cases h; exact absurd rfl h2
      · cases heq
        simp only [hemp, hall, Bool.not_true, Bool.or_self, Bool.false_eq_true, if_false]


/-! ### Lines of the form `<digits>.<digits><whitespace><text>` -/

theorem takeWhile_append_stop {p : Char → Bool} (a b : List Char) (ha : ∀ x ∈ a, p x = true)
    (hb : ∀ x, b.head? = some x → p x = false) : (a ++ b).takeWhile p = a := by
  rw [List.takeWhile_append_of_pos ha]
  cases b with
  | nil => simp
  | cons x xs => simp [List.takeWhile_cons, hb x rfl]

theorem dropWhile_append_stop {p : Char → Bool} (a b : List Char) (ha : ∀ x ∈ a, p x = true)
    (hb : ∀ x, b.head? = some x → p x = false) : (a ++ b).dropWhile p = b := by
  rw [List.dropWhile_append_of_pos ha]
  cases b with
  | nil => simp
  | cons x xs => simp [List.dropWhile_cons, hb x rfl]

theorem head_dropWhile {p : Char → Bool} (s : List Char) :
    ∀ x, (s.dropWhile p).head? = some x → p x = false := by
  intro x hx
  induction s with
  | nil => simp at hx
  | cons c cs ih =>
    by_cases hc : p c = true
    · simp only [List.dropWhile_cons, hc, if_true] at hx; exact ih hx
    · simp only [List.dropWhile_cons, hc] at hx
      simp at hx; subst hx; simpa using hc

theorem verseLineParts_of_isVerseLine {l c v ws t : List Char} (h : IsVerseLine l c v ws t) :
    verseLineParts l = some (c, v, t.dropWhile reSpace) := by
  obtain ⟨rfl, hc, hcd, hv, hvd, hw, hwd⟩ := h
  have hdot : ∀ x, ('.' :: (v ++ (ws ++ t))).head? = some x → reDigit x = false := by
    intro x hx; simp at hx; subst hx; decide
  have hws : ∀ x, (ws ++ t).head? = some x → reDigit x = false := by
    intro x hx
    cases ws with
    | nil => exact absurd rfl hw
    | cons w ws' =>
      simp at hx; subst hx
      exact reSpace_not_digit (hwd _ (List.mem_cons_self _ _))
  have e1 := takeWhile_append_stop c _ hcd hdot
  have e2 := dropWhile_append_stop c _ hcd hdot
  have e3 := takeWhile_append_stop v _ hvd hws
  have e4 := dropWhile_append_stop v _ hvd hws
  have e5 : (ws ++ t).takeWhile reSpace ≠ [] := by
    rw [List.takeWhile_append_of_pos hwd]
    simp [hw]
  have e6 : (ws ++ t).dropWhile reSpace = t.dropWhile reSpace :=
    List.dropWhile_append_of_pos hwd
  simp only [verseLineParts, e1, e2, List.drop_succ_cons, List.drop_zero, e3, e4, e6,
    List.head?_cons]
  rw [if_pos ⟨hc, trivial, hv, e5⟩]

theorem isVerseLine_of_verseLineParts {l c v t : List Char}
    (h : verseLineParts l = some (c, v, t)) :
    ∃ ws, IsVerseLine l c v ws t ∧ ∀ x, t.head? = some x → reSpace x = false := by
  unfold verseLineParts at h
  simp only at h
  split at h
  · rename_i hcond
    obtain ⟨h1, h2, h3, h4⟩ := hcond
    simp only [Option.some.injEq, Prod.mk.injEq] at h
    obtain ⟨rfl, rfl, rfl⟩ := h
    refine ⟨((l.dropWhile reDigit).drop 1 |>.dropWhile reDigit).takeWhile reSpace,
      ⟨?_, h1, fun x hx => List.mem_takeWhile_imp hx, h3, fun x hx => List.mem_takeWhile_imp hx,
        h4, fun x hx => List.mem_takeWhile_imp hx⟩, head_dropWhile _⟩
    rw [List.takeWhile_append_dropWhile, List.takeWhile_append_dropWhile]
    have : l.dropWhile reDigit = '.' :: (l.dropWhile reDigit).drop 1 := by
      cases hd : l.dropWhile reDigit with
      | nil => simp [hd] at h2
      | cons a as => simp [hd] at h2; simp [h2]
    rw [← this, List.takeWhile_append_dropWhile]
  · cases h

theorem verseLineParts_iff (l c v t : List Char) :
    verseLineParts l = some (c, v, t) ↔
      ∃ ws, IsVerseLine l c v ws t ∧ ∀ x, t.head? = some x → reSpace x = false := by
  constructor
  · exact isVerseLine_of_verseLineParts
  · rintro ⟨ws, h, ht⟩
    rw [verseLineParts_of_isVerseLine h]
    have : t.dropWhile reSpace = t := by
      cases t with
      | nil => rfl
      | cons x xs => simp [List.dropWhile_cons, ht x rfl]
    rw [this]

/-! ### Mode A -/

theorem digitsValue_eq_decimal (ds : List Char) : digitsValue ds = decimal ds := by
  induction ds using List.reverseRecOn with
  | nil => simp [digitsValue, decimal]
  | append_singleton b x ih =>
    have h2 : digitsValue (b ++ [x]) = digitsValue b * 10 + (x.toNat - 48) := by
      simp [digitsValue, List.foldl_append]
    rw [h2, ih]
    simp only [decimal, List.reverse_append, List.reverse_cons, List.reverse_nil, List.nil_append,
      List.singleton_append, List.map_cons, Nat.ofDigits_cons]
    have : '0'.toNat = 48 := by decide
    rw [this]; ring

theorem findStringSubmatch_verseRegexA (s : List Char) (hs : '\n' ∉ s) :
    findStringSubmatch ModeA.verseRegex s =
      match verseLineParts s with
      | some (c, v, t) => [s, c ++ '.' :: v, t]
      | none => [] := by
  unfold findStringSubmatch
  rw [verseRegexA_run (fun m _ g => some (m :: g)) (fun _ _ _ => rfl) s hs]
  cases verseLineParts s with
  | none => rfl
  | some r => rfl

theorem split_dot (c v : List Char) (hc : ∀ x ∈ c, reDigit x = true)
    (hv : ∀ x ∈ v, reDigit x = true) : split (c ++ '.' :: v) '.' = [c, v] := by
  unfold split
  rw [List.splitOnP_first (· == '.') c (fun x hx => by simpa using reDigit_ne_dot (hc x hx))
    '.' (by simp) v]
  rw [List.splitOnP_eq_single (· == '.') v (fun x hx => by simpa using reDigit_ne_dot (hv x hx))]

/-- What one line adds to `chapter.Content` in Mode A. -/
theorem modeA_loopBody (acc : List ContentItem) (l : List Char) (hl : '\n' ∉ l) :
    ModeA.loopBody acc l = acc ++
      match verseLineParts (trimSpace l) with
      | some (c, v, t) =>
        [ContentItem.mk [] [] [Paragraph.mk
          (if (digitsValue (c ++ v) : Int) > maxInt then 0 else (digitsValue (c ++ v) : Int))
          ((fields t).map (fun w => Word.mk w []))]]
      | none => [] := by
  have hnl : '\n' ∉ trimSpace l := fun h => hl (trimSpace_subset l h)
  unfold ModeA.loopBody
  simp only
  rw [findStringSubmatch_verseRegexA _ hnl]
  cases hp : verseLineParts (trimSpace l) with
  | none => simp
  | some r =>
    obtain ⟨c, v, t⟩ := r
    obtain ⟨ws, hvl, -⟩ := isVerseLine_of_verseLineParts hp
    obtain ⟨heq, hc, hcd, hv, hvd, -, -⟩ := hvl
    have hne : (trimSpace l).isEmpty = false := by
      rw [heq]; cases c with
      | nil => exact absurd rfl hc
      | cons _ _ => rfl
    have hcv : c ++ v ≠ [] := by simp [hc]
    have hcvd : ∀ x ∈ c ++ v, reDigit x = true := by
      intro x hx
      rcases List.mem_append.1 hx with h | h
      · exact hcd x h
      · exact hvd x h
    simp only [hne, Bool.false_eq_true, if_false, List.length_cons, List.length_nil,
      if_true, List.getD_cons_succ, List.getD_cons_zero, split_dot c v hcd hvd,
      atoi_digits _ hcv hcvd]
    by_cases hbig : (digitsValue (c ++ v) : Int) > maxInt
    · simp [hbig]
    · simp [hbig]

theorem modeA_foldl (ls : List (List Char)) (hls : ∀ l ∈ ls, '\n' ∉ l) :
    ∀ acc, ls.foldl ModeA.loopBody acc = acc ++ ls.foldl ModeA.loopBody [] := by
  induction ls with
  | nil => intro acc; simp
  | cons l ls ih =>
    intro acc
    have hl := hls l (List.mem_cons_self _ _)
    have ih' := ih (fun x hx => hls x (List.mem_cons_of_mem _ hx))
    rw [List.foldl_cons, List.foldl_cons, ih' (ModeA.loopBody acc l), ih' (ModeA.loopBody [] l),
      modeA_loopBody acc l hl, modeA_loopBody [] l hl]
    simp

theorem modeA_content_eq (title slug author content : List Char) :
    (ModeA.parseTextToJSON title slug author content).Chapters =
      [Chapter.mk "chapter-1".toList (Title.mk title []) [] [] []
        ((split content '\n').foldl ModeA.loopBody [])] := rfl

theorem modeA_foldl_append (pre post : List (List Char)) (l : List Char)
    (h : ∀ x ∈ pre ++ l :: post, '\n' ∉ x) :
    (pre ++ l :: post).foldl ModeA.loopBody [] =
      pre.foldl ModeA.loopBody [] ++ (ModeA.loopBody [] l ++ post.foldl ModeA.loopBody []) := by
  rw [List.foldl_append, List.foldl_cons,
    modeA_foldl post (fun x hx => h x (by simp [hx]))]
  rw [modeA_loopBody _ l (h l (by simp)), modeA_loopBody [] l (h l (by simp))]
  simp

/-- C1. Mode A (`parseTextToJSON` of ii_clement and of trallians): when a line of the input,
trimmed, is `c.v<whitespace>text` with `c` and `v` non-empty digit strings and the number
written by the digits of `c` followed by the digits of `v` fits in an `int`, the item this
line produces (after the items of the lines before it and before those of the lines after
it) holds one Paragraph whose VerseID is exactly that number: the concatenation of the
digits, not a sum. -/
theorem modeA_verseID_concatenation (content : List Char) (pre post : List (List Char))
    (l c v ws text : List Char)
    (hlines : split content '\n' = pre ++ l :: post)
    (hline : IsVerseLine (trimSpace l) c v ws text)
    (hfit : (decimal (c ++ v) : Int) ≤ maxInt) :
    (IIClement.parseTextToJSON content).Chapters.map (·.Content) =
      [pre.foldl ModeA.loopBody [] ++
        ContentItem.mk [] [] [Paragraph.mk (decimal (c ++ v))
          ((fields text).map (fun w => Word.mk w []))] :: post.foldl ModeA.loopBody []] ∧
    (Trallians.parseTextToJSON content).Chapters.map (·.Content) =
      [pre.foldl ModeA.loopBody [] ++
        ContentItem.mk [] [] [Paragraph.mk (decimal (c ++ v))
          ((fields text).map (fun w => Word.mk w []))] :: post.foldl ModeA.loopBody []] := by
  have hnl : ∀ x ∈ pre ++ l :: post, '\n' ∉ x := by
    intro x hx; rw [← hlines] at hx; exact not_mem_of_mem_split hx
  have hl : '\n' ∉ l := hnl l (by simp)
  have hbody : ModeA.loopBody [] l = [ContentItem.mk [] [] [Paragraph.mk (decimal (c ++ v))
      ((fields text).map (fun w => Word.mk w []))]] := by
    rw [modeA_loopBody [] l hl, verseLineParts_of_isVerseLine hline]
    have : ¬ ((decimal (c ++ v) : Int) > maxInt) := not_lt.2 hfit
    simp only [digitsValue_eq_decimal, this, if_false, List.nil_append,
      fields_dropWhile_reSpace]
  have key : (split content '\n').foldl ModeA.loopBody [] =
      pre.foldl ModeA.loopBody [] ++
        ContentItem.mk [] [] [Paragraph.mk (decimal (c ++ v))
          ((fields text).map (fun w => Word.mk w []))] :: post.foldl ModeA.loopBody [] := by
    rw [hlines, modeA_foldl_append pre post l hnl, hbody]; rfl
  constructor
  · simp only [IIClement.parseTextToJSON, modeA_content_eq, List.map_cons, List.map_nil, key]
  · simp only [Trallians.parseTextToJSON, modeA_content_eq, List.map_cons, List.map_nil, key]

/-- Witness of C1 on the three-line input `3.7 α`, `12.3 β γ`, `2.1 δ`: the VerseIDs are
37, 123 and 21. -/
theorem modeA_verseID_concatenation_witness :
    (split "3.7 α\n12.3 β γ\n2.1 δ".toList '\n' =
        ["3.7 α".toList] ++ "12.3 β γ".toList :: ["2.1 δ".toList] ∧
      IsVerseLine (trimSpace "12.3 β γ".toList) "12".toList "3".toList " ".toList "β γ".toList ∧
      (decimal ("12".toList ++ "3".toList) : Int) ≤ maxInt) ∧
    (IIClement.parseTextToJSON "3.7 α\n12.3 β γ\n2.1 δ".toList).Chapters.map (·.Content) =
      [[ContentItem.mk [] [] [Paragraph.mk 37 [Word.mk ['α'] []]],
        ContentItem.mk [] [] [Paragraph.mk 123 [Word.mk ['β'] [], Word.mk ['γ'] []]],
        ContentItem.mk [] [] [Paragraph.mk 21 [Word.mk ['δ'] []]]]] ∧
    (Trallians.parseTextToJSON "3.7 α\n12.3 β γ\n2.1 δ".toList).Chapters.map (·.Content) =
      [[ContentItem.mk [] [] [Paragraph.mk 37 [Word.mk ['α'] []]],
        ContentItem.mk [] [] [Paragraph.mk 123 [Word.mk ['β'] [], Word.mk ['γ'] []]],
        ContentItem.mk [] [] [Paragraph.mk 21 [Word.mk ['δ'] []]]]] := by
  have h1 : split "3.7 α\n12.3 β γ\n2.1 δ".toList '\n' =
      ["3.7 α".toList] ++ "12.3 β γ".toList :: ["2.1 δ".toList] := by decide
  have h2 : IsVerseLine (trimSpace "12.3 β γ".toList) "12".toList "3".toList " ".toList
      "β γ".toList := by decide
  have h3 : (decimal ("12".toList ++ "3".toList) : Int) ≤ maxInt := by decide
  have h := modeA_verseID_concatenation _ _ _ _ _ _ _ _ h1 h2 h3
  refine ⟨⟨h1, h2, h3⟩, ?_, ?_⟩
  · rw [h.1]; decide
  · rw [h.2]; decide


/-- The option a line yields in Mode A. -/
theorem modeA_lineYields (l : List Char) (hl : '\n' ∉ l) :
    ∃ o : Option ContentItem, ModeA.loopBody [] l = o.toList ∧ LineYields l o := by
  rw [modeA_loopBody [] l hl]
  cases hp : verseLineParts (trimSpace l) with
  | none =>
    refine ⟨none, rfl, ?_, fun _ => rfl⟩
    intro c v ws t h
    rw [verseLineParts_of_isVerseLine h] at hp; cases hp
  | some r =>
    obtain ⟨c, v, t⟩ := r
    refine ⟨some _, rfl, ?_, ?_⟩
    · intro c' v' ws' t' h
      have := verseLineParts_of_isVerseLine h
      rw [hp] at this
      simp only [Option.some.injEq, Prod.mk.injEq] at this
      obtain ⟨-, -, rfl⟩ := this
      exact ⟨_, rfl, rfl, rfl, _, by rw [fields_dropWhile_reSpace]⟩
    · intro hno
      obtain ⟨ws, h, -⟩ := isVerseLine_of_verseLineParts hp
      exact absurd h (hno c v ws t)

theorem modeA_lines_yield (ls : List (List Char)) (hls : ∀ l ∈ ls, '\n' ∉ l) :
    ∃ os : List (Option ContentItem),
      ls.foldl ModeA.loopBody [] = os.reduceOption ∧ List.Forall₂ LineYields ls os := by
  induction ls with
  | nil => exact ⟨[], rfl, List.Forall₂.nil⟩
  | cons l ls ih =>
    obtain ⟨os, h1, h2⟩ := ih (fun x hx => hls x (List.mem_cons_of_mem _ hx))
    obtain ⟨o, h3, h4⟩ := modeA_lineYields l (hls l (List.mem_cons_self _ _))
    refine ⟨o :: os, ?_, List.Forall₂.cons h4 h2⟩
    rw [List.foldl_cons, modeA_foldl ls (fun x hx => hls x (List.mem_cons_of_mem _ hx)), h1, h3]
    cases o <;> simp [List.reduceOption_cons_of_some, List.reduceOption_cons_of_none]

theorem forall₂_exists_left {α β : Type} {R : α → β → Prop} {as : List α} {bs : List β}
    (h : List.Forall₂ R as bs) : ∀ b ∈ bs, ∃ a ∈ as, R a b := by
  induction h with
  | nil => intro b hb; cases hb
  | cons hab _ ih =>
    intro b hb
    rcases List.mem_cons.1 hb with rfl | hb'
    · exact ⟨_, List.mem_cons_self _ _, hab⟩
    · obtain ⟨a, ha, hr⟩ := ih b hb'
      exact ⟨a, List.mem_cons_of_mem _ ha, hr⟩

/-- C2. Mode A (`parseTextToJSON` of ii_clement and of trallians): for every input the book
has one chapter, whose Content is, in input order, what the lines yield: a line whose
trimmed form is `<digits>.<digits><whitespace><text>` yields exactly one ContentItem with
empty subtitle, empty image and one Paragraph whose Words are the whitespace-delimited
tokens of `<text>`, each with an empty gloss; every other line yields nothing. -/
theorem modeA_content_per_line (content : List Char) :
    (∃ ch os, (IIClement.parseTextToJSON content).Chapters = [ch] ∧
      ch.Content = os.reduceOption ∧ List.Forall₂ LineYields (split content '\n') os) ∧
    (∃ ch os, (Trallians.parseTextToJSON content).Chapters = [ch] ∧
      ch.Content = os.reduceOption ∧ List.Forall₂ LineYields (split content '\n') os) := by
  obtain ⟨os, h1, h2⟩ := modeA_lines_yield (split content '\n')
    (fun l hl => not_mem_of_mem_split hl)
  exact ⟨⟨_, os, modeA_content_eq _ _ _ _, h1, h2⟩, ⟨_, os, modeA_content_eq _ _ _ _, h1, h2⟩⟩

/-- C7, counterexample. The empty input has no recognizable line, yet the book both Mode A
converters produce for it has a chapter: the chapter sequence is not empty. -/
theorem modeA_empty_input_has_chapter :
    (∀ l ∈ split [] '\n', ∀ c v ws t, ¬ IsVerseLine (trimSpace l) c v ws t) ∧
    (IIClement.parseTextToJSON []).Chapters ≠ [] ∧
    (Trallians.parseTextToJSON []).Chapters ≠ [] := by
  refine ⟨?_, by decide, by decide⟩
  intro l hl c v ws t h
  have : l = [] := by simpa [split] using hl
  subst this
  have hp := verseLineParts_of_isVerseLine h
  have hn : verseLineParts (trimSpace []) = none := by decide
  rw [hn] at hp; cases hp

/-- C7, amended. For an input none of whose lines is a verse line, the book the Mode A
converters produce has exactly one chapter, `chapter-1`, titled with the book title, with
empty Vocab, Questions and Content. -/
theorem modeA_no_verse_single_empty_chapter (content : List Char)
    (h : ∀ l ∈ split content '\n', ∀ c v ws t, ¬ IsVerseLine (trimSpace l) c v ws t) :
    (IIClement.parseTextToJSON content).Chapters =
      [Chapter.mk "chapter-1".toList
        (Title.mk "Second Epistle of Clement to the Corinthians".toList []) [] [] [] []] ∧
    (Trallians.parseTextToJSON content).Chapters =
      [Chapter.mk "chapter-1".toList (Title.mk "trallians".toList []) [] [] [] []] := by
  obtain ⟨os, h1, h2⟩ := modeA_lines_yield (split content '\n')
    (fun l hl => not_mem_of_mem_split hl)
  have hos : os.reduceOption = [] := by
    have : ∀ o ∈ os, o = none := by
      intro o ho
      obtain ⟨l, hl, hy⟩ := forall₂_exists_left h2 o ho
      exact hy.2 (h l hl)
    clear h1 h2
    induction os with
    | nil => rfl
    | cons o os ih =>
      rw [this o (List.mem_cons_self _ _), List.reduceOption_cons_of_none]
      exact ih (fun o ho => this o (List.mem_cons_of_mem _ ho))
  constructor
  · rw [IIClement.parseTextToJSON, modeA_content_eq, h1, hos]
  · rw [Trallians.parseTextToJSON, modeA_content_eq, h1, hos]

/-- Witness of the amended C7 on the input `Preface`, blank line, `1.1`. -/
theorem modeA_no_verse_single_empty_chapter_witness :
    (∀ l ∈ split "Preface\n\n1.1".toList '\n',
      ∀ c v ws t, ¬ IsVerseLine (trimSpace l) c v ws t) ∧
    (IIClement.parseTextToJSON "Preface\n\n1.1".toList).Chapters =
      [Chapter.mk "chapter-1".toList
        (Title.mk "Second Epistle of Clement to the Corinthians".toList []) [] [] [] []] ∧
    (Trallians.parseTextToJSON "Preface\n\n1.1".toList).Chapters =
      [Chapter.mk "chapter-1".toList (Title.mk "trallians".toList []) [] [] [] []] := by
  have h : ∀ l ∈ split "Preface\n\n1.1".toList '\n',
      ∀ c v ws t, ¬ IsVerseLine (trimSpace l) c v ws t := by
    intro l hl c v ws t hv
    have hp := verseLineParts_of_isVerseLine hv
    have hl' : l = "Preface".toList ∨ l = [] ∨ l = "1.1".toList := by
      have : split "Preface\n\n1.1".toList '\n' = ["Preface".toList, [], "1.1".toList] := by
        decide
      rw [this] at hl
      simpa using hl
    have n1 : verseLineParts (trimSpace "Preface".toList) = none := by decide
    have n2 : verseLineParts (trimSpace []) = none := by decide
    have n3 : verseLineParts (trimSpace "1.1".toList) = none := by decide
    rcases hl' with rfl | rfl | rfl
    · rw [n1] at hp; cases hp
    · rw [n2] at hp; cases hp
    · rw [n3] at hp; cases hp
  exact ⟨h, modeA_no_verse_single_empty_chapter _ h⟩

/-! ### The section assembler -/

theorem split_eq_iff_isRecord (l : List Char) (fs : List (List Char)) :
    split l '|' = fs ↔ IsRecord l fs := by
  have e : split l '|' = l.splitOn '|' := rfl
  constructor
  · intro h
    refine ⟨?_, ?_, ?_⟩
    · rw [← h, e, List.intercalate_splitOn]
    · rw [← h]; exact List.splitOnP_ne_nil _ _
    · intro f hf; rw [← h] at hf; exact not_mem_of_mem_split hf
  · rintro ⟨h1, h2, h3⟩
    rw [e, h1]; exact List.splitOn_intercalate fs '|' h3 h2

theorem isRecord_nil_left {fs : List (List Char)} (h : IsRecord [] fs) : fs = [[]] := by
  rw [← split_eq_iff_isRecord] at h
  rw [← h]; rfl

/-- What one line adds to `currentChapter.Vocab`. -/
theorem vocabLine_yields (l : List Char) :
    ∃ o : Option VocabItem, VocabLineYields l o ∧
      ∀ acc, vocabLine acc l = (acc.1 ++ o.toList, acc.2 || o.isSome) := by
  by_cases hlen : (split (trimSpace l) '|').length = 3
  · obtain ⟨a, b, c, habc⟩ : ∃ a b c, split (trimSpace l) '|' = [a, b, c] := by
      match h : split (trimSpace l) '|', hlen with
      | [a, b, c], _ => exact ⟨a, b, c, rfl⟩
    refine ⟨some (VocabItem.mk (trimSpace a) (trimSpace b) (trimSpace c)), ⟨?_, ?_⟩, ?_⟩
    · intro a' b' c' h
      rw [← split_eq_iff_isRecord, habc] at h
      simp only [List.cons.injEq, and_true] at h
      obtain ⟨rfl, rfl, rfl⟩ := h
      rfl
    · intro hno
      exact absurd ((split_eq_iff_isRecord _ _).1 habc) (hno a b c)
    · intro acc
      have hne : (trimSpace l).isEmpty = false := by
        cases ht : trimSpace l with
        | nil => rw [ht] at habc; cases habc
        | cons _ _ => rfl
      simp [vocabLine, hne, habc]
  · refine ⟨none, ⟨?_, fun _ => rfl⟩, ?_⟩
    · intro a b c h
      rw [← split_eq_iff_isRecord] at h
      rw [h] at hlen; exact absurd rfl hlen
    · intro acc
      unfold vocabLine
      by_cases hne : (trimSpace l).isEmpty = true
      · simp [hne]
      · simp [hne, hlen]

theorem vocab_foldl (ls : List (List Char)) :
    ∃ os : List (Option VocabItem), List.Forall₂ VocabLineYields ls os ∧
      ∀ acc, ls.foldl vocabLine acc = (acc.1 ++ os.reduceOption, acc.2 || !os.reduceOption.isEmpty) := by
  induction ls with
  | nil => exact ⟨[], List.Forall₂.nil, fun acc => by simp⟩
  | cons l ls ih =>
    obtain ⟨os, h1, h2⟩ := ih
    obtain ⟨o, h3, h4⟩ := vocabLine_yields l
    refine ⟨o :: os, List.Forall₂.cons h3 h1, fun acc => ?_⟩
    rw [List.foldl_cons, h4, h2]
    cases o <;> simp [List.reduceOption_cons_of_some, List.reduceOption_cons_of_none]


/-- What one line adds to `currentChapter.Questions`. -/
theorem questionLine_yields (l : List Char) :
    ∃ o : Option Question, QuestionLineYields l o ∧
      ∀ acc, questionLine acc l = (acc.1 ++ o.toList, acc.2 || o.isSome) := by
  by_cases hlen : (split (trimSpace l) '|').length = 2
  · obtain ⟨a, b, hab⟩ : ∃ a b, split (trimSpace l) '|' = [a, b] := by
      match h : split (trimSpace l) '|', hlen with
      | [a, b], _ => exact ⟨a, b, rfl⟩
    refine ⟨some (Question.mk (trimSpace a) (trimSpace b)), ⟨?_, ?_⟩, ?_⟩
    · intro a' b' h
      rw [← split_eq_iff_isRecord, hab] at h
      simp only [List.cons.injEq, and_true] at h
      obtain ⟨rfl, rfl⟩ := h
      rfl
    · intro hno
      exact absurd ((split_eq_iff_isRecord _ _).1 hab) (hno a b)
    · intro acc
      have hne : (trimSpace l).isEmpty = false := by
        cases ht : trimSpace l with
        | nil => rw [ht] at hab; cases hab
        | cons _ _ => rfl
      simp [questionLine, hne, hab]
  · refine ⟨none, ⟨?_, fun _ => rfl⟩, ?_⟩
    · intro a b h
      rw [← split_eq_iff_isRecord] at h
      rw [h] at hlen; exact absurd rfl hlen
    · intro acc
      unfold questionLine
      by_cases hne : (trimSpace l).isEmpty = true
      · simp [hne]
      · simp [hne, hlen]

theorem question_foldl (ls : List (List Char)) :
    ∃ os : List (Option Question), List.Forall₂ QuestionLineYields ls os ∧
      ∀ acc, ls.foldl questionLine acc =
        (acc.1 ++ os.reduceOption, acc.2 || !os.reduceOption.isEmpty) := by
  induction ls with
  | nil => exact ⟨[], List.Forall₂.nil, fun acc => by simp⟩
  | cons l ls ih =>
    obtain ⟨os, h1, h2⟩ := ih
    obtain ⟨o, h3, h4⟩ := questionLine_yields l
    refine ⟨o :: os, List.Forall₂.cons h3 h1, fun acc => ?_⟩
    rw [List.foldl_cons, h4, h2]
    cases o <;> simp [List.reduceOption_cons_of_some, List.reduceOption_cons_of_none]

theorem setCurrentChapter_self (book : Book) (ch : Chapter)
    (h : book.Chapters.getLast? = some ch) : setCurrentChapter book ch = book := by
  unfold setCurrentChapter
  rw [List.dropLast_append_getLast? ch (by simp [h])]

theorem forall₂_exists_right {α β : Type} {R : α → β → Prop} {as : List α} {bs : List β}
    (h : List.Forall₂ R as bs) : ∀ a ∈ as, ∃ b ∈ bs, R a b := by
  induction h with
  | nil => intro a ha; cases ha
  | cons hab _ ih =>
    intro a ha
    rcases List.mem_cons.1 ha with rfl | ha'
    · exact ⟨_, List.mem_cons_self _ _, hab⟩
    · obtain ⟨b, hb, hr⟩ := ih a ha'
      exact ⟨b, List.mem_cons_of_mem _ hb, hr⟩

theorem reduceOption_eq_nil_iff {α : Type} (os : List (Option α)) :
    os.reduceOption = [] ↔ ∀ o ∈ os, o = none := by
  induction os with
  | nil => simp
  | cons o os ih =>
    cases o with
    | none => simp [List.reduceOption_cons_of_none, ih]
    | some a => simp [List.reduceOption_cons_of_some]

/-- The outcome of a `"Vocab"` section on a book with a current chapter. -/
theorem processSection_vocab_eq (book : Book) (ch : Chapter) (sectionContent : List Char)
    (hcur : book.Chapters.getLast? = some ch) :
    ∃ os : List (Option VocabItem),
      List.Forall₂ VocabLineYields (split sectionContent '\n') os ∧
      processSection book "Vocab".toList sectionContent =
        Outcome.mk
          { book with Chapters := book.Chapters.dropLast ++
              [{ ch with Vocab := ch.Vocab ++ os.reduceOption }] }
          (if os.reduceOption = [] then
            ["Warning: Empty [Vocab] section in chapter ".toList ++
              fmtInt (book.Chapters.length : Int) ++ ['\n']]
           else [])
          false := by
  obtain ⟨os, h1, h2⟩ := vocab_foldl (split sectionContent '\n')
  refine ⟨os, h1, ?_⟩
  have hlen : (book.Chapters.dropLast ++ [{ ch with Vocab := ch.Vocab ++ os.reduceOption }]).length
      = book.Chapters.length := by
    have hne : book.Chapters ≠ [] := by
      intro h; rw [h] at hcur; cases hcur
    simp only [List.length_append, List.length_dropLast, List.length_singleton]
    have := List.length_pos.2 hne
    omega
  have hne : ("Vocab".toList = "Chapter".toList) = False := by decide
  simp only [processSection, hcur, h2, hne, if_false, if_true, setCurrentChapter, hlen]
  cases hos : os.reduceOption with
  | nil => simp
  | cons a as => simp

/-- The outcome of a `"Questions"` section on a book with a current chapter. -/
theorem processSection_questions_eq (book : Book) (ch : Chapter) (sectionContent : List Char)
    (hcur : book.Chapters.getLast? = some ch) :
    ∃ os : List (Option Question),
      List.Forall₂ QuestionLineYields (split sectionContent '\n') os ∧
      processSection book "Questions".toList sectionContent =
        Outcome.mk
          { book with Chapters := book.Chapters.dropLast ++
              [{ ch with Questions := ch.Questions ++ os.reduceOption }] }
          (if os.reduceOption = [] then
            ["Warning: Empty [Questions] section in chapter ".toList ++
              fmtInt (book.Chapters.length : Int) ++ ['\n']]
           else [])
          false := by
  obtain ⟨os, h1, h2⟩ := question_foldl (split sectionContent '\n')
  refine ⟨os, h1, ?_⟩
  have hlen : (book.Chapters.dropLast ++
      [{ ch with Questions := ch.Questions ++ os.reduceOption }]).length
      = book.Chapters.length := by
    have hne : book.Chapters ≠ [] := by
      intro h; rw [h] at hcur; cases hcur
    simp only [List.length_append, List.length_dropLast, List.length_singleton]
    have := List.length_pos.2 hne
    omega
  have hne1 : ("Questions".toList = "Chapter".toList) = False := by decide
  have hne2 : ("Questions".toList = "Vocab".toList) = False := by decide
  simp only [processSection, hcur, h2, hne1, hne2, if_false, if_true, setCurrentChapter, hlen]
  cases hos : os.reduceOption with
  | nil => simp
  | cons a as => simp

/-- C8. `processSection` with section title `"Vocab"` on a book whose last chapter is `ch`
returns normally and changes the book in one place only: the Vocab of that last chapter
gets, appended in line order, one VocabItem for every line whose trimmed form splits on
`|` into exactly three fields (word, gloss and image are the trimmed fields); lines with
another field count add nothing, and the other chapters and the Title, Questions and
Content of the last chapter stay as they were. -/
theorem processSection_vocab (book : Book) (ch : Chapter) (sectionContent : List Char)
    (hcur : book.Chapters.getLast? = some ch) :
    ∃ os : List (Option VocabItem),
      List.Forall₂ VocabLineYields (split sectionContent '\n') os ∧
      (processSection book "Vocab".toList sectionContent).book =
        { book with Chapters := book.Chapters.dropLast ++
            [{ ch with Vocab := ch.Vocab ++ os.reduceOption }] } ∧
      (processSection book "Vocab".toList sectionContent).panicked = false := by
  obtain ⟨os, h1, h2⟩ := processSection_vocab_eq book ch sectionContent hcur
  exact ⟨os, h1, by rw [h2], by rw [h2]⟩

/-- Witness of C8 on the one-chapter book and the lines `λόγος|word|img.png`, `bad|line`. -/
theorem processSection_vocab_witness :
    oneChapterBook.Chapters.getLast? = some emptyChapter ∧
    ∃ os : List (Option VocabItem),
      List.Forall₂ VocabLineYields (split "λόγος|word|img.png\nbad|line".toList '\n') os ∧
      (processSection oneChapterBook "Vocab".toList "λόγος|word|img.png\nbad|line".toList).book =
        { oneChapterBook with Chapters := oneChapterBook.Chapters.dropLast ++
            [{ emptyChapter with Vocab := emptyChapter.Vocab ++ os.reduceOption }] } ∧
      (processSection oneChapterBook "Vocab".toList
        "λόγος|word|img.png\nbad|line".toList).panicked = false :=
  ⟨rfl, processSection_vocab oneChapterBook emptyChapter _ rfl⟩

/-- C9, counterexample. On the one-chapter book, the `"Vocab"` section with the lines
`λόγος|word|img.png` and `bad|line` yields exactly one VocabItem and prints nothing: there
is no diagnostic, not one. -/
theorem processSection_vocab_malformed_no_diagnostic :
    (processSection oneChapterBook "Vocab".toList
        "λόγος|word|img.png\nbad|line".toList).book.Chapters.map (·.Vocab) =
      [[VocabItem.mk "λόγος".toList "word".toList "img.png".toList]] ∧
    (processSection oneChapterBook "Vocab".toList
        "λόγος|word|img.png\nbad|line".toList).printed = [] := by
  decide

/-- C9, amended. A `"Vocab"` section on a book with a current chapter appends the items of
its well-formed lines only (a malformed line contributes nothing); it prints no diagnostic
when at least one line is well formed, and exactly the one `Empty [Vocab] section`
warning when no line is. -/
theorem processSection_vocab_diagnostic (book : Book) (ch : Chapter)
    (sectionContent : List Char) (hcur : book.Chapters.getLast? = some ch) :
    ∃ os : List (Option VocabItem),
      List.Forall₂ VocabLineYields (split sectionContent '\n') os ∧
      (processSection book "Vocab".toList sectionContent).book.Chapters.getLast?.map (·.Vocab) =
        some (ch.Vocab ++ os.reduceOption) ∧
      ((∃ l ∈ split sectionContent '\n', ∃ a b c, IsRecord (trimSpace l) [a, b, c]) →
        (processSection book "Vocab".toList sectionContent).printed = []) ∧
      ((∀ l ∈ split sectionContent '\n', ∀ a b c, ¬ IsRecord (trimSpace l) [a, b, c]) →
        (processSection book "Vocab".toList sectionContent).printed =
          ["Warning: Empty [Vocab] section in chapter ".toList ++
            fmtInt (book.Chapters.length : Int) ++ ['\n']]) := by
  obtain ⟨os, h1, h2⟩ := processSection_vocab_eq book ch sectionContent hcur
  refine ⟨os, h1, by rw [h2]; simp, ?_, ?_⟩
  · rintro ⟨l, hl, a, b, c, hrec⟩
    obtain ⟨o, ho, hy⟩ := forall₂_exists_right h1 l hl
    have hne : os.reduceOption ≠ [] := by
      intro h
      have := (reduceOption_eq_nil_iff os).1 h o ho
      rw [hy.1 a b c hrec] at this; cases this
    rw [h2]; simp [hne]
  · intro hno
    have : os.reduceOption = [] := by
      rw [reduceOption_eq_nil_iff]
      intro o ho
      obtain ⟨l, hl, hy⟩ := forall₂_exists_left h1 o ho
      exact hy.2 (hno l hl)
    rw [h2]; simp [this]


/-- Witness of the amended C9 on the one-chapter book and the lines `λόγος|word|img.png`,
`bad|line`. -/
theorem processSection_vocab_diagnostic_witness :
    oneChapterBook.Chapters.getLast? = some emptyChapter ∧
    ∃ os : List (Option VocabItem),
      List.Forall₂ VocabLineYields (split "λόγος|word|img.png\nbad|line".toList '\n') os ∧
      (processSection oneChapterBook "Vocab".toList
        "λόγος|word|img.png\nbad|line".toList).book.Chapters.getLast?.map (·.Vocab) =
        some (emptyChapter.Vocab ++ os.reduceOption) ∧
      ((∃ l ∈ split "λόγος|word|img.png\nbad|line".toList '\n',
          ∃ a b c, IsRecord (trimSpace l) [a, b, c]) →
        (processSection oneChapterBook "Vocab".toList
          "λόγος|word|img.png\nbad|line".toList).printed = []) ∧
      ((∀ l ∈ split "λόγος|word|img.png\nbad|line".toList '\n',
          ∀ a b c, ¬ IsRecord (trimSpace l) [a, b, c]) →
        (processSection oneChapterBook "Vocab".toList
          "λόγος|word|img.png\nbad|line".toList).printed =
          ["Warning: Empty [Vocab] section in chapter ".toList ++
            fmtInt (oneChapterBook.Chapters.length : Int) ++ ['\n']]) :=
  ⟨rfl, processSection_vocab_diagnostic oneChapterBook emptyChapter _ rfl⟩

/-- C10. `processSection` with section title `"Questions"` on a book whose last chapter is
`ch` returns normally; it prints exactly one diagnostic if and only if no line of the
section, trimmed, splits on `|` into exactly two fields, and then the book is unchanged;
otherwise it prints nothing and appends to the Questions of the last chapter, in line
order, one Question (question and answer trimmed) per two-field line. -/
theorem processSection_questions (book : Book) (ch : Chapter) (sectionContent : List Char)
    (hcur : book.Chapters.getLast? = some ch) :
    ((processSection book "Questions".toList sectionContent).printed.length = 1 ↔
      ∀ l ∈ split sectionContent '\n', ∀ a b, ¬ IsRecord (trimSpace l) [a, b]) ∧
    ((∀ l ∈ split sectionContent '\n', ∀ a b, ¬ IsRecord (trimSpace l) [a, b]) →
      (processSection book "Questions".toList sectionContent).book = book) ∧
    ((∃ l ∈ split sectionContent '\n', ∃ a b, IsRecord (trimSpace l) [a, b]) →
      (processSection book "Questions".toList sectionContent).printed = [] ∧
      ∃ os : List (Option Question),
        List.Forall₂ QuestionLineYields (split sectionContent '\n') os ∧
        (processSection book "Questions".toList sectionContent).book =
          { book with Chapters := book.Chapters.dropLast ++
              [{ ch with Questions := ch.Questions ++ os.reduceOption }] }) ∧
    (processSection book "Questions".toList sectionContent).panicked = false := by
  obtain ⟨os, h1, h2⟩ := processSection_questions_eq book ch sectionContent hcur
  have hiff : os.reduceOption = [] ↔
      ∀ l ∈ split sectionContent '\n', ∀ a b, ¬ IsRecord (trimSpace l) [a, b] := by
    constructor
    · intro h l hl a b hrec
      obtain ⟨o, ho, hy⟩ := forall₂_exists_right h1 l hl
      have := (reduceOption_eq_nil_iff os).1 h o ho
      rw [hy.1 a b hrec] at this; cases this
    · intro hno
      rw [reduceOption_eq_nil_iff]
      intro o ho
      obtain ⟨l, hl, hy⟩ := forall₂_exists_left h1 o ho
      exact hy.2 (hno l hl)
  refine ⟨?_, ?_, ?_, by rw [h2]⟩
  · rw [← hiff, h2]
    by_cases hos : os.reduceOption = []
    · simp [hos]
    · simp [hos]
  · intro hno
    have hos := hiff.2 hno
    rw [h2, hos]
    have := setCurrentChapter_self book ch hcur
    unfold setCurrentChapter at this
    simpa using this
  · rintro ⟨l, hl, a, b, hrec⟩
    have hos : os.reduceOption ≠ [] := fun h => hiff.1 h l hl a b hrec
    refine ⟨by rw [h2]; simp [hos], os, h1, by rw [h2]⟩

/-- Witness of C10 on the one-chapter book and the lines `τίς ἐστιν; | ὁ λόγος`, `bad`. -/
theorem processSection_questions_witness :
    oneChapterBook.Chapters.getLast? = some emptyChapter ∧
    ((processSection oneChapterBook "Questions".toList
        "τίς ἐστιν; | ὁ λόγος\nbad".toList).printed.length = 1 ↔
      ∀ l ∈ split "τίς ἐστιν; | ὁ λόγος\nbad".toList '\n',
        ∀ a b, ¬ IsRecord (trimSpace l) [a, b]) ∧
    ((∀ l ∈ split "τίς ἐστιν; | ὁ λόγος\nbad".toList '\n',
        ∀ a b, ¬ IsRecord (trimSpace l) [a, b]) →
      (processSection oneChapterBook "Questions".toList
        "τίς ἐστιν; | ὁ λόγος\nbad".toList).book = oneChapterBook) ∧
    ((∃ l ∈ split "τίς ἐστιν; | ὁ λόγος\nbad".toList '\n',
        ∃ a b, IsRecord (trimSpace l) [a, b]) →
      (processSection oneChapterBook "Questions".toList
        "τίς ἐστιν; | ὁ λόγος\nbad".toList).printed = [] ∧
      ∃ os : List (Option Question),
        List.Forall₂ QuestionLineYields (split "τίς ἐστιν; | ὁ λόγος\nbad".toList '\n') os ∧
        (processSection oneChapterBook "Questions".toList
          "τίς ἐστιν; | ὁ λόγος\nbad".toList).book =
          { oneChapterBook with Chapters := oneChapterBook.Chapters.dropLast ++
              [{ emptyChapter with Questions := emptyChapter.Questions ++ os.reduceOption }] }) ∧
    (processSection oneChapterBook "Questions".toList
      "τίς ἐστιν; | ὁ λόγος\nbad".toList).panicked = false :=
  ⟨rfl, processSection_questions oneChapterBook emptyChapter _ rfl⟩

/-- C3, the code at the claim's witness input. On the one-chapter book, `processSection`
with section title `"Content"` and the line `Λόγος(word) ἐστίν. Καλόν(good) ἐστίν.` does
not produce two Paragraphs: the pattern of `sentenceRegex` is rejected by the regexp
parser, `regexp.MustCompile` panics, and the book is left with no ContentItem. -/
theorem processSection_content_panics :
    parsePerlFlags sentencePattern = false ∧
    (processSection oneChapterBook "Content".toList
      "Λόγος(word) ἐστίν. Καλόν(good) ἐστίν.".toList).panicked = true ∧
    (processSection oneChapterBook "Content".toList
      "Λόγος(word) ἐστίν. Καλόν(good) ἐστίν.".toList).book = oneChapterBook := by
  decide

/-! ### Mode C: the three patterns -/

theorem plus_run_of_accept' {γ : Type} (p : Char → Bool)
    (k : List Char → List Char → List (List Char) → Option γ) (s : List Char)
    (hk : s.takeWhile p ≠ [] → (k (s.takeWhile p) (s.dropWhile p) []).isSome = true) :
    (Re.plus p).run s k =
      if s.takeWhile p = [] then none else k (s.takeWhile p) (s.dropWhile p) [] := by
  by_cases h : s.takeWhile p = []
  · rw [if_pos h]
    cases s with
    | nil => simp [Re.run]
    | cons c cs =>
      by_cases hc : p c = true
      · simp [List.takeWhile_cons, hc] at h
      · simp [Re.run, hc]
  · exact plus_run_of_accept p k s (hk h)

theorem endsClean_of_suffix {r s : List Char} (h : r <:+ s) (hr : r ≠ []) (hs : EndsClean s) :
    EndsClean r := by
  obtain ⟨t, rfl⟩ := h
  intro x hx
  apply hs x
  rw [List.getLast?_append_of_ne_nil _ hr]; exact hx

theorem dropWhile_ne_nil_of_endsClean {s : List Char} (hs : EndsClean s) (hne : s ≠ []) :
    s.dropWhile reSpace ≠ [] := by
  intro h
  rw [List.dropWhile_eq_nil_iff] at h
  have hl := List.getLast?_eq_getLast s hne
  have := hs _ hl
  rw [h _ (List.getLast_mem hne)] at this
  cases this

/-- The tail `\s+(.+)$` of the title and part-marker patterns. -/
theorem run_space_text {γ : Type} (k : List Char → List Char → List (List Char) → Option γ)
    (hk : ∀ m r g, (k m r g).isSome = true) (s : List Char) (hs : '\n' ∉ s)
    (hclean : EndsClean s) :
    (Re.seq (.plus reSpace) (.seq (.group (.plus reAny)) .eot)).run s k =
      if s.takeWhile reSpace = [] ∨ s.dropWhile reSpace = [] then none
      else k s [] [s.dropWhile reSpace] := by
  have hd : '\n' ∉ s.dropWhile reSpace := fun h => hs ((List.dropWhile_suffix _).subset h)
  by_cases h1 : s.takeWhile reSpace = []
  · simp only [run_seq, h1, true_or, if_true]
    rw [plus_run_of_accept' _ _ _ (fun h => absurd h1 h), if_pos h1]
  · have hne : s ≠ [] := by rintro rfl; exact h1 rfl
    have h2 := dropWhile_ne_nil_of_endsClean hclean hne
    simp only [run_seq, run_group, run_eot, h1, h2, or_self, if_false]
    have hplus : ∀ m : List Char,
        ((Re.plus reAny).run (s.dropWhile reSpace) fun m₂ r₂ g₂ =>
          if r₂.isEmpty = true then k (m ++ (m₂ ++ [])) [] ([] ++ (m₂ :: g₂ ++ [])) else none) =
        k (m ++ s.dropWhile reSpace) [] [s.dropWhile reSpace] := by
      intro m
      rw [plus_run_of_accept]
      · simp [takeWhile_reAny hd, dropWhile_reAny hd, h2]
      · simp [takeWhile_reAny hd, dropWhile_reAny hd, hk]
    rw [plus_run_of_accept]
    · simp only [hplus, List.takeWhile_append_dropWhile, h1, if_false]
    · simp only [hplus, hk]

theorem partMarker_run {γ : Type} (k : List Char → List Char → List (List Char) → Option γ)
    (hk : ∀ m r g, (k m r g).isSome = true) (s : List Char) (hs : '\n' ∉ s)
    (hclean : EndsClean s) :
    StoffleEpitome.partMarker.run s k =
      match partLineText s with
      | some t => k s [] [t]
      | none => none := by
  unfold StoffleEpitome.partMarker
  rw [run_seq, run_lit]
  by_cases hp : "0.0".toList.isPrefixOf s = true
  · rw [if_pos hp]
    have hpre : "0.0".toList ++ s.drop 3 = s := by
      have := List.prefix_iff_eq_append.1 (List.isPrefixOf_iff_prefix.1 hp)
      simpa using this
    have hnl : '\n' ∉ s.drop 3 := fun h => hs ((List.drop_suffix _ _).subset h)
    by_cases hr : s.drop 3 = []
    · have : "0.0".toList.length = 3 := rfl
      rw [this, hr]
      simp [partLineText, hr, Re.run]
    · have hc := endsClean_of_suffix (List.drop_suffix 3 s) hr hclean
      have : "0.0".toList.length = 3 := rfl
      rw [this, run_space_text _ (fun _ _ _ => hk _ _ _) _ hnl hc]
      by_cases h1 : (s.drop 3).takeWhile reSpace = [] ∨ (s.drop 3).dropWhile reSpace = []
      · rw [if_pos h1]
        have : partLineText s = none := by
          simp only [partLineText]
          rw [if_neg]
          rintro ⟨-, h2, h3⟩
          rcases h1 with h1 | h1
          · exact h2 h1
          · exact h3 h1
        rw [this]
      · rw [if_neg h1]
        have h1' := not_or.1 h1
        have : partLineText s = some ((s.drop 3).dropWhile reSpace) := by
          simp only [partLineText]
          rw [if_pos ⟨hp, h1'.1, h1'.2⟩]
        rw [this]
        simp only [List.nil_append, hpre]
  · rw [if_neg hp]
    have : partLineText s = none := by
      simp only [partLineText]
      rw [if_neg]
      rintro ⟨h, -⟩
      exact hp h
    rw [this]


theorem lit_title_digit {γ : Type} {c : Char} (h : reDigit c = true) (cs : List Char)
    (k : List Char → List Char → List (List Char) → Option γ) :
    (Re.lit ".title".toList).run (c :: cs) k = none := by
  have : ('.' == c) = false := by
    simp only [beq_eq_false_iff_ne, ne_eq]
    exact fun h' => reDigit_ne_dot h h'.symm
  have e : ".title".toList = '.' :: "title".toList := rfl
  simp [Re.run, e, List.isPrefixOf, this]

theorem titleRegex_run {γ : Type} (k : List Char → List Char → List (List Char) → Option γ)
    (hk : ∀ m r g, (k m r g).isSome = true) (s : List Char) (hs : '\n' ∉ s)
    (hclean : EndsClean s) :
    StoffleEpitome.titleRegex.run s k =
      match titleLineParts s with
      | some (c, t) => k s [] [c, t]
      | none => none := by
  unfold StoffleEpitome.titleRegex
  rw [run_seq, run_group]
  rw [plus_run_of_reject _ _ (fun m c cs h => by rw [run_seq, lit_title_digit h])]
  by_cases h1 : s.takeWhile reDigit = []
  · simp [titleLineParts, h1]
  · rw [if_neg h1]
    have hsplit : s.takeWhile reDigit ++ s.dropWhile reDigit = s :=
      List.takeWhile_append_dropWhile _ _
    rw [run_seq, run_lit]
    by_cases hp : ".title".toList.isPrefixOf (s.dropWhile reDigit) = true
    · rw [if_pos hp]
      have hlen : ".title".toList.length = 6 := rfl
      have hpre : ".title".toList ++ (s.dropWhile reDigit).drop 6 = s.dropWhile reDigit := by
        have := List.prefix_iff_eq_append.1 (List.isPrefixOf_iff_prefix.1 hp)
        simpa using this
      have hsuf : (s.dropWhile reDigit).drop 6 <:+ s :=
        (List.drop_suffix _ _).trans (List.dropWhile_suffix _)
      have hnl : '\n' ∉ (s.dropWhile reDigit).drop 6 := fun h => hs (hsuf.subset h)
      rw [hlen]
      by_cases hr : (s.dropWhile reDigit).drop 6 = []
      · rw [hr]
        simp [titleLineParts, hr, Re.run]
      · have hc := endsClean_of_suffix hsuf hr hclean
        rw [run_space_text _ (fun _ _ _ => hk _ _ _) _ hnl hc]
        by_cases h2 : ((s.dropWhile reDigit).drop 6).takeWhile reSpace = [] ∨
            ((s.dropWhile reDigit).drop 6).dropWhile reSpace = []
        · rw [if_pos h2]
          have : titleLineParts s = none := by
            simp only [titleLineParts]
            rw [if_neg]
            rintro ⟨-, -, h3, h4⟩
            rcases h2 with h2 | h2
            · exact h3 h2
            · exact h4 h2
          rw [this]
        · rw [if_neg h2]
          have h2' := not_or.1 h2
          have : titleLineParts s = some (s.takeWhile reDigit,
              ((s.dropWhile reDigit).drop 6).dropWhile reSpace) := by
            simp only [titleLineParts]
            rw [if_pos ⟨h1, hp, h2'.1, h2'.2⟩]
          rw [this]
          simp only [List.nil_append, List.append_nil, hpre, hsplit, List.singleton_append]
    · rw [if_neg hp]
      have : titleLineParts s = none := by
        simp only [titleLineParts]
        rw [if_neg]
        rintro ⟨-, h, -⟩
        exact hp h
      rw [this]

theorem verseRegexC_run {γ : Type} (k : List Char → List Char → List (List Char) → Option γ)
    (hk : ∀ m r g, (k m r g).isSome = true) (s : List Char) (hs : '\n' ∉ s) :
    StoffleEpitome.verseRegex.run s k =
      match verseLineParts s with
      | some (c, v, t) => k s [] [c, v, t]
      | none => none := by
  unfold StoffleEpitome.verseRegex
  rw [run_seq, run_group]
  rw [plus_run_of_reject _ _ (fun m c cs h => by rw [run_seq, lit_dot_digit h])]
  by_cases h1 : s.takeWhile reDigit = []
  · simp [verseLineParts, h1]
  · rw [if_neg h1]
    generalize hr : s.dropWhile reDigit = rest
    have hrest : '\n' ∉ rest := fun h => hs ((hr ▸ List.dropWhile_suffix _).subset h)
    have hsplit : s.takeWhile reDigit ++ rest = s := by
      rw [← hr, List.takeWhile_append_dropWhile]
    match rest, hrest, hsplit, hr with
    | [], _, _, hr => simp [run_seq, run_lit, verseLineParts, hr]
    | d :: r, hrest, hsplit, hr =>
      by_cases hd : d = '.'
      · subst hd
        rw [run_seq, run_lit]
        simp only [List.isPrefixOf_cons₂, beq_self_eq_true, List.isPrefixOf_nil_left,
          Bool.and_self, if_true, List.length_singleton, List.drop_succ_cons, List.drop_zero]
        rw [run_seq, run_group]
        rw [plus_run_of_reject _ _ (fun m c cs h => by rw [run_seq, plus_reSpace_digit h])]
        by_cases h2 : r.takeWhile reDigit = []
        · simp [verseLineParts, hr, h2]
        · rw [if_neg h2]
          have hr2 : '\n' ∉ r.dropWhile reDigit := fun h =>
            hrest (List.mem_cons_of_mem _ ((List.dropWhile_suffix _).subset h))
          rw [run_space_rest _ (fun m r g => hk _ _ _) _ hr2]
          by_cases h3 : (r.dropWhile reDigit).takeWhile reSpace = []
          · simp [verseLineParts, hr, h3]
          · have hv : verseLineParts s = some (s.takeWhile reDigit, r.takeWhile reDigit,
                (r.dropWhile reDigit).dropWhile reSpace) := by
              simp only [verseLineParts, hr, List.drop_succ_cons, List.drop_zero, List.head?_cons]
              rw [if_pos ⟨h1, trivial, h2, h3⟩]
            rw [hv, if_neg h3]
            simp only [List.nil_append, List.append_nil, List.append_assoc, List.singleton_append,
              List.cons_append, List.takeWhile_append_dropWhile, hsplit]
      · have : ('.' == d) = false := by
          simp only [beq_eq_false_iff_ne, ne_eq]; exact fun h => hd h.symm
        have hv : verseLineParts s = none := by
          simp only [verseLineParts, hr, List.head?_cons, Option.some.injEq]
          rw [if_neg (fun h => hd h.2.1)]
        rw [run_seq, run_lit, hv]
        simp [List.isPrefixOf, this]

/-! ### Mode C: the loop -/

theorem endsClean_trimSpace (l : List Char) : EndsClean (trimSpace l) := by
  intro x hx
  unfold trimSpace at hx
  by_cases hne : (l.dropWhile unicodeIsSpace).rdropWhile unicodeIsSpace = []
  · rw [hne] at hx; cases hx
  · have h1 := List.rdropWhile_last_not unicodeIsSpace _ hne
    rw [List.getLast?_eq_getLast _ hne] at hx
    simp only [Option.some.injEq] at hx
    rw [hx] at h1
    cases hs : reSpace x with
    | false => rfl
    | true => exact absurd (reSpace_unicode hs) h1

theorem atoi_eq_intOfDigits (ds : List Char) (hne : ds ≠ []) (hd : ∀ x ∈ ds, reDigit x = true) :
    (atoi ds).1 = intOfDigits ds := by
  rw [atoi_digits ds hne hd, intOfDigits, digitsValue_eq_decimal]
  by_cases h : (decimal ds : Int) > maxInt
  · rw [if_pos h]; simp only; rw [min_eq_right (le_of_lt h)]
  · rw [if_neg h]; simp only; rw [min_eq_left (not_lt.1 h)]

theorem titleLineParts_digits {l c t : List Char} (h : titleLineParts l = some (c, t)) :
    c ≠ [] ∧ ∀ x ∈ c, reDigit x = true := by
  unfold titleLineParts at h
  simp only at h
  split at h
  · rename_i hc
    simp only [Option.some.injEq, Prod.mk.injEq] at h
    obtain ⟨rfl, -⟩ := h
    exact ⟨hc.1, fun x hx => List.mem_takeWhile_imp hx⟩
  · cases h

theorem matchString_partMarker (s : List Char) (hs : '\n' ∉ s) (hc : EndsClean s) :
    matchString StoffleEpitome.partMarker s = (partLineText s).isSome := by
  unfold matchString
  rw [partMarker_run (fun _ _ _ => some ()) (fun _ _ _ => rfl) s hs hc]
  cases partLineText s <;> rfl

theorem findStringSubmatch_partMarker (s : List Char) (hs : '\n' ∉ s) (hc : EndsClean s) :
    findStringSubmatch StoffleEpitome.partMarker s =
      match partLineText s with
      | some t => [s, t]
      | none => [] := by
  unfold findStringSubmatch
  rw [partMarker_run (fun m _ g => some (m :: g)) (fun _ _ _ => rfl) s hs hc]
  cases partLineText s <;> rfl

theorem matchString_titleRegex (s : List Char) (hs : '\n' ∉ s) (hc : EndsClean s) :
    matchString StoffleEpitome.titleRegex s = (titleLineParts s).isSome := by
  unfold matchString
  rw [titleRegex_run (fun _ _ _ => some ()) (fun _ _ _ => rfl) s hs hc]
  cases titleLineParts s <;> rfl

theorem findStringSubmatch_titleRegex (s : List Char) (hs : '\n' ∉ s) (hc : EndsClean s) :
    findStringSubmatch StoffleEpitome.titleRegex s =
      match titleLineParts s with
      | some (c, t) => [s, c, t]
      | none => [] := by
  unfold findStringSubmatch
  rw [titleRegex_run (fun m _ g => some (m :: g)) (fun _ _ _ => rfl) s hs hc]
  cases titleLineParts s <;> rfl

theorem findStringSubmatch_verseRegexC (s : List Char) (hs : '\n' ∉ s) :
    findStringSubmatch StoffleEpitome.verseRegex s =
      match verseLineParts s with
      | some (c, v, t) => [s, c, v, t]
      | none => [] := by
  unfold findStringSubmatch
  rw [verseRegexC_run (fun m _ g => some (m :: g)) (fun _ _ _ => rfl) s hs]
  cases verseLineParts s <;> rfl

/-- The loop body of Mode C acts on the state as the classification of the line says. -/
theorem stoffle_loopBody (st : StoffleEpitome.LoopState) (l : List Char) (hl : '\n' ∉ l) :
    StoffleEpitome.loopBody st l = applyKind st (classify l) := by
  have hnl : '\n' ∉ trimSpace l := fun h => hl (trimSpace_subset l h)
  have hc := endsClean_trimSpace l
  unfold StoffleEpitome.loopBody classify
  simp only
  by_cases hemp : (trimSpace l).isEmpty = true
  · have : trimSpace l = [] := by simpa using hemp
    rw [this]
    rfl
  · rw [if_neg hemp, matchString_partMarker _ hnl hc, findStringSubmatch_partMarker _ hnl hc,
      matchString_titleRegex _ hnl hc, findStringSubmatch_titleRegex _ hnl hc,
      findStringSubmatch_verseRegexC _ hnl]
    cases hp : partLineText (trimSpace l) with
    | some x => simp [applyKind]
    | none =>
      cases ht : titleLineParts (trimSpace l) with
      | some r =>
        obtain ⟨c, x⟩ := r
        obtain ⟨h1, h2⟩ := titleLineParts_digits ht
        simp [applyKind, atoi_eq_intOfDigits c h1 h2]
      | none =>
        cases hv : verseLineParts (trimSpace l) with
        | none => simp [applyKind]
        | some r =>
          obtain ⟨c, v, x⟩ := r
          obtain ⟨ws, hvl, -⟩ := isVerseLine_of_verseLineParts hv
          obtain ⟨-, hc1, hc2, hv1, hv2, -, -⟩ := hvl
          simp only [Option.isSome_none, Bool.false_eq_true, if_false, List.length_cons,
            List.length_nil, if_true, List.getD_cons_succ, List.getD_cons_zero,
            atoi_eq_intOfDigits c hc1 hc2, atoi_eq_intOfDigits v hv1 hv2, applyKind]
          cases hm : mapGet st.chapterMap (intOfDigits c) with
          | some ch => simp [verseItem]
          | none =>
            by_cases hpend : st.pendingPartMarker = []
            · simp [verseItem, partItem, chapterSlug, hpend]
            · simp [verseItem, partItem, chapterSlug, hpend]

theorem mapGet_mapSet {α : Type} (m : List (Int × α)) (k k' : Int) (v : α) :
    mapGet (mapSet m k v) k' = if k = k' then some v else mapGet m k' := by
  induction m with
  | nil => simp [mapSet, mapGet]
  | cons a m ih =>
    obtain ⟨a1, a2⟩ := a
    by_cases h : a1 = k
    · subst h
      by_cases h' : a1 = k'
      · simp [mapSet, mapGet, h']
      · simp [mapSet, mapGet, h']
    · by_cases h' : a1 = k'
      · subst h'
        simp [mapSet, mapGet, h, Ne.symm h]
      · simp [mapSet, mapGet, h, h', ih]

theorem mem_keys_iff {α : Type} (m : List (Int × α)) (k : Int) :
    k ∈ m.map Prod.fst ↔ (mapGet m k).isSome = true := by
  induction m with
  | nil => simp [mapGet]
  | cons a m ih =>
    obtain ⟨a1, a2⟩ := a
    by_cases h : a1 = k
    · simp [mapGet, h]
    · simp [mapGet, h, ih, Ne.symm h]

theorem keys_mapSet {α : Type} (m : List (Int × α)) (k : Int) (v : α) :
    (mapSet m k v).map Prod.fst =
      if (mapGet m k).isSome then m.map Prod.fst else m.map Prod.fst ++ [k] := by
  induction m with
  | nil => simp [mapSet, mapGet]
  | cons a m ih =>
    obtain ⟨a1, a2⟩ := a
    by_cases h : a1 = k
    · simp [mapSet, mapGet, h]
    · simp only [mapSet, mapGet, h, if_false, List.map_cons, ih]
      split <;> simp

theorem nodup_keys_mapSet {α : Type} (m : List (Int × α)) (k : Int) (v : α)
    (h : (m.map Prod.fst).Nodup) : ((mapSet m k v).map Prod.fst).Nodup := by
  rw [keys_mapSet]
  by_cases hk : (mapGet m k).isSome = true
  · rw [if_pos hk]; exact h
  · rw [if_neg hk]
    rw [List.nodup_append]
    refine ⟨h, List.nodup_singleton _, ?_⟩
    intro a ha hb
    simp only [List.mem_singleton] at hb
    subst hb
    exact hk ((mem_keys_iff m a).1 ha)


/-! Single steps -/

theorem applyKind_get_other (st : StoffleEpitome.LoopState) (k : LineKind) (n : Int)
    (hk : ∀ p t, k ≠ .verse n p t) :
    mapGet (applyKind st k).chapterMap n = mapGet st.chapterMap n := by
  cases k with
  | part x => rfl
  | title m x => rfl
  | other => rfl
  | verse m p t =>
    have hmn : m ≠ n := fun h => hk p t (by rw [h])
    simp only [applyKind]
    cases hm : mapGet st.chapterMap m with
    | some ch => simp [mapGet_mapSet, hmn]
    | none => simp [mapGet_mapSet, hmn]

theorem applyKind_get_existing (st : StoffleEpitome.LoopState) (n p : Int) (t : List Char)
    (ch : Chapter) (h : mapGet st.chapterMap n = some ch) :
    mapGet (applyKind st (.verse n p t)).chapterMap n =
      some { ch with Content := ch.Content ++ [verseItem p t] } := by
  simp [applyKind, h, mapGet_mapSet]

theorem applyKind_get_new (st : StoffleEpitome.LoopState) (n p : Int) (t : List Char)
    (h : mapGet st.chapterMap n = none) :
    mapGet (applyKind st (.verse n p t)).chapterMap n =
      some (Chapter.mk (chapterSlug n) (Title.mk ((mapGet st.chapterTitles n).getD []) [])
        [] [] []
        ((if st.pendingPartMarker ≠ [] then [partItem st.pendingPartMarker] else []) ++
          [verseItem p t])) := by
  simp [applyKind, h, mapGet_mapSet]

theorem versesOf_cons_verse (n p : Int) (t : List Char) (ks : List LineKind) :
    versesOf n (.verse n p t :: ks) = verseItem p t :: versesOf n ks := by
  simp [versesOf]

theorem versesOf_cons_other (n : Int) (k : LineKind) (ks : List LineKind)
    (hk : ∀ p t, k ≠ .verse n p t) : versesOf n (k :: ks) = versesOf n ks := by
  cases k with
  | part x => simp [versesOf]
  | title m x => simp [versesOf]
  | other => simp [versesOf]
  | verse m p t =>
    have hmn : m ≠ n := fun h => hk p t (by rw [h])
    simp [versesOf, hmn]

theorem verse_cases (k : LineKind) (n : Int) :
    (∃ p t, k = .verse n p t) ∨ ∀ p t, k ≠ .verse n p t := by
  cases k with
  | verse m p t =>
    by_cases h : m = n
    · subst h; exact Or.inl ⟨p, t, rfl⟩
    · right; intro p' t' he; cases he; exact h rfl
  | part x => right; intro p t he; cases he
  | title m x => right; intro p t he; cases he
  | other => right; intro p t he; cases he

/-! The loop -/

theorem run_get_existing (ks : List LineKind) :
    ∀ (st : StoffleEpitome.LoopState) (n : Int) (ch : Chapter),
      mapGet st.chapterMap n = some ch →
      mapGet (ks.foldl applyKind st).chapterMap n =
        some { ch with Content := ch.Content ++ versesOf n ks } := by
  induction ks with
  | nil => intro st n ch h; simp [versesOf, h]
  | cons k ks ih =>
    intro st n ch h
    rw [List.foldl_cons]
    rcases verse_cases k n with ⟨p, t, rfl⟩ | hk
    · rw [ih _ n _ (applyKind_get_existing st n p t ch h), versesOf_cons_verse]
      simp
    · rw [ih _ n ch (by rw [applyKind_get_other st k n hk]; exact h),
        versesOf_cons_other n k ks hk]

theorem not_hasVerse_cons {n : Int} {k : LineKind} {ks : List LineKind}
    (h : ¬ HasVerse n (k :: ks)) : (∀ p t, k ≠ .verse n p t) ∧ ¬ HasVerse n ks := by
  constructor
  · intro p t he
    exact h ⟨p, t, by rw [he]; exact List.mem_cons_self _ _⟩
  · rintro ⟨p, t, hm⟩
    exact h ⟨p, t, List.mem_cons_of_mem _ hm⟩

theorem run_get_absent (ks : List LineKind) :
    ∀ (st : StoffleEpitome.LoopState) (n : Int),
      mapGet st.chapterMap n = none → ¬ HasVerse n ks →
      mapGet (ks.foldl applyKind st).chapterMap n = none := by
  induction ks with
  | nil => intro st n h _; exact h
  | cons k ks ih =>
    intro st n h hno
    obtain ⟨h1, h2⟩ := not_hasVerse_cons hno
    rw [List.foldl_cons]
    exact ih _ n (by rw [applyKind_get_other st k n h1]; exact h) h2

theorem versesOf_eq_nil {n : Int} {ks : List LineKind} (h : ¬ HasVerse n ks) :
    versesOf n ks = [] := by
  induction ks with
  | nil => rfl
  | cons k ks ih =>
    obtain ⟨h1, h2⟩ := not_hasVerse_cons h
    rw [versesOf_cons_other n k ks h1, ih h2]

/-- A chapter created during the loop: its slug, and its content as an optional part
item followed by the verse items of the chapter. -/
theorem run_get_new (ks : List LineKind) :
    ∀ (st : StoffleEpitome.LoopState) (n : Int),
      mapGet st.chapterMap n = none → HasVerse n ks →
      ∃ title lead, (lead = [] ∨ ∃ x, lead = [partItem x]) ∧
        mapGet (ks.foldl applyKind st).chapterMap n =
          some (Chapter.mk (chapterSlug n) (Title.mk title []) [] [] []
            (lead ++ versesOf n ks)) := by
  induction ks with
  | nil => intro st n _ h; obtain ⟨p, t, hm⟩ := h; cases hm
  | cons k ks ih =>
    intro st n h hv
    rw [List.foldl_cons]
    rcases verse_cases k n with ⟨p, t, rfl⟩ | hk
    · refine ⟨(mapGet st.chapterTitles n).getD [],
        (if st.pendingPartMarker ≠ [] then [partItem st.pendingPartMarker] else []), ?_, ?_⟩
      · by_cases hp : st.pendingPartMarker = []
        · left; simp [hp]
        · right; exact ⟨st.pendingPartMarker, by simp [hp]⟩
      · rw [run_get_existing ks _ n _ (applyKind_get_new st n p t h), versesOf_cons_verse]
        simp
    · have hv' : HasVerse n ks := by
        obtain ⟨p, t, hm⟩ := hv
        rcases List.mem_cons.1 hm with he | hm'
        · exact absurd he.symm (hk p t)
        · exact ⟨p, t, hm'⟩
      obtain ⟨title, lead, h1, h2⟩ :=
        ih (applyKind st k) n (by rw [applyKind_get_other st k n hk]; exact h) hv'
      exact ⟨title, lead, h1, by rw [h2, versesOf_cons_other n k ks hk]⟩

theorem applyKind_nodup (st : StoffleEpitome.LoopState) (k : LineKind)
    (h : (st.chapterMap.map Prod.fst).Nodup) :
    ((applyKind st k).chapterMap.map Prod.fst).Nodup := by
  cases k with
  | part x => exact h
  | title m x => exact h
  | other => exact h
  | verse m p t =>
    simp only [applyKind]
    cases hm : mapGet st.chapterMap m with
    | some ch => exact nodup_keys_mapSet _ _ _ h
    | none => exact nodup_keys_mapSet _ _ _ h

theorem run_nodup (ks : List LineKind) :
    ∀ (st : StoffleEpitome.LoopState), (st.chapterMap.map Prod.fst).Nodup →
      ((ks.foldl applyKind st).chapterMap.map Prod.fst).Nodup := by
  induction ks with
  | nil => intro st h; exact h
  | cons k ks ih => intro st h; exact ih _ (applyKind_nodup st k h)

/-! ### Mode C: the output -/

theorem stoffle_foldl (ls : List (List Char)) (hls : ∀ l ∈ ls, '\n' ∉ l) :
    ∀ st, ls.foldl StoffleEpitome.loopBody st = (ls.map classify).foldl applyKind st := by
  induction ls with
  | nil => intro st; rfl
  | cons l ls ih =>
    intro st
    rw [List.foldl_cons, List.map_cons, List.foldl_cons,
      stoffle_loopBody st l (hls l (List.mem_cons_self _ _)),
      ih (fun x hx => hls x (List.mem_cons_of_mem _ hx))]

/-- The final loop state of Mode C on an input. -/
theorem stoffle_chapters (rangeOrder : List Int → List Int)
    (hperm : ∀ ks, (rangeOrder ks).Perm ks) (content : List Char) :
    (StoffleEpitome.parseTextToJSON rangeOrder content).Chapters =
      ((((split content '\n').map classify).foldl applyKind
          (StoffleEpitome.LoopState.mk [] [] [])).chapterMap.map Prod.fst
        |>.insertionSort (· ≤ ·)).filterMap
        (mapGet (((split content '\n').map classify).foldl applyKind
          (StoffleEpitome.LoopState.mk [] [] [])).chapterMap) := by
  unfold StoffleEpitome.parseTextToJSON
  simp only [List.nil_append]
  rw [stoffle_foldl _ (fun l hl => not_mem_of_mem_split hl)]
  congr 1
  exact List.eq_of_perm_of_sorted
    ((List.perm_insertionSort _ _).trans ((hperm _).trans (List.perm_insertionSort _ _).symm))
    (List.sorted_insertionSort (· ≤ ·) _) (List.sorted_insertionSort (· ≤ ·) _)

theorem hasVerse_map_classify (n : Int) (ls : List (List Char)) :
    HasVerse n (ls.map classify) ↔ ∃ l ∈ ls, ∃ p t, classify l = .verse n p t := by
  constructor
  · rintro ⟨p, t, h⟩
    obtain ⟨l, hl, he⟩ := List.mem_map.1 h
    exact ⟨l, hl, p, t, he⟩
  · rintro ⟨l, hl, p, t, he⟩
    exact ⟨p, t, List.mem_map.2 ⟨l, hl, he⟩⟩

theorem run_isSome_iff (ks : List LineKind) (n : Int) :
    (mapGet (ks.foldl applyKind (StoffleEpitome.LoopState.mk [] [] [])).chapterMap n).isSome = true
      ↔ HasVerse n ks := by
  constructor
  · intro h
    by_contra hno
    rw [run_get_absent ks (StoffleEpitome.LoopState.mk [] [] []) n rfl hno] at h
    cases h
  · intro h
    obtain ⟨title, lead, -, h2⟩ := run_get_new ks (StoffleEpitome.LoopState.mk [] [] []) n rfl h
    rw [h2]; rfl

theorem filterMap_slug (m : List (Int × Chapter)) (L : List Int)
    (h : ∀ k ∈ L, ∃ ch, mapGet m k = some ch ∧ ch.Slug = chapterSlug k) :
    (L.filterMap (mapGet m)).map (·.Slug) = L.map chapterSlug := by
  induction L with
  | nil => rfl
  | cons k L ih =>
    obtain ⟨ch, h1, h2⟩ := h k (List.mem_cons_self _ _)
    rw [List.filterMap_cons_some h1, List.map_cons, List.map_cons, h2,
      ih (fun k hk => h k (List.mem_cons_of_mem _ hk))]

/-- Mode C (`parseTextToJSON` of StoffleEpitome), whatever the order in which the
chapter map is ranged over: the chapters of the output are those of a strictly ascending
list `nums` of chapter numbers, the i-th chapter having slug `chapter-<nums[i]>`; a number
is in `nums` exactly when some line of the input is a verse line of that chapter. The
chapter number of a line is here the `int` the loop holds for it (`classify`): the value
of its digits, or the largest `int` when that value does not fit. -/
theorem stoffle_chapters_ascending (rangeOrder : List Int → List Int)
    (hperm : ∀ ks, (rangeOrder ks).Perm ks) (content : List Char) :
    ∃ nums : List Int,
      nums.Sorted (· < ·) ∧
      (∀ n, n ∈ nums ↔ ∃ l ∈ split content '\n', ∃ p t, classify l = .verse n p t) ∧
      (StoffleEpitome.parseTextToJSON rangeOrder content).Chapters.map (·.Slug) =
        nums.map chapterSlug := by
  rw [stoffle_chapters rangeOrder hperm content]
  generalize hks : (split content '\n').map classify = ks
  have hmem : ∀ n, n ∈ ((ks.foldl applyKind (StoffleEpitome.LoopState.mk [] [] [])).chapterMap.map
      Prod.fst).insertionSort (· ≤ ·) ↔ HasVerse n ks := by
    intro n
    rw [(List.perm_insertionSort _ _).mem_iff, mem_keys_iff, run_isSome_iff]
  refine ⟨((ks.foldl applyKind (StoffleEpitome.LoopState.mk [] [] [])).chapterMap.map
      Prod.fst).insertionSort (· ≤ ·), ?_, ?_, ?_⟩
  · exact (List.sorted_insertionSort _ _).lt_of_le
      ((List.perm_insertionSort _ _).nodup_iff.2
        (run_nodup ks _ (by simp)))
  · intro n
    rw [hmem, ← hks, hasVerse_map_classify]
  · apply filterMap_slug
    intro k hk
    obtain ⟨title, lead, -, h2⟩ :=
      run_get_new ks (StoffleEpitome.LoopState.mk [] [] []) k rfl ((hmem k).1 hk)
    exact ⟨_, h2, rfl⟩


/-- The lines `2.1 β`, `1.1 α`, `2.2 γ`, the chapter map being ranged over in reverse
insertion order: the slugs are `chapter-1`, `chapter-2`. -/
theorem stoffle_chapters_ascending_witness :
    (∀ ks : List Int, (List.reverse ks).Perm ks) ∧
    (∃ nums : List Int,
      nums.Sorted (· < ·) ∧
      (∀ n, n ∈ nums ↔
        ∃ l ∈ split "2.1 β\n1.1 α\n2.2 γ".toList '\n', ∃ p t, classify l = .verse n p t) ∧
      (StoffleEpitome.parseTextToJSON List.reverse "2.1 β\n1.1 α\n2.2 γ".toList).Chapters.map
        (·.Slug) = nums.map chapterSlug) ∧
    (StoffleEpitome.parseTextToJSON List.reverse "2.1 β\n1.1 α\n2.2 γ".toList).Chapters.map
      (·.Slug) = ["chapter-1".toList, "chapter-2".toList] :=
  ⟨List.reverse_perm, stoffle_chapters_ascending List.reverse List.reverse_perm _, by decide⟩

/-- C5 at a failing input. The lines `9223372036854775808.1 x` and
`9223372036854775807.2 y` are verse lines of two distinct chapter numbers. For the first,
`strconv.Atoi` returns the largest `int` together with an error; the loop discards the
error and keys both lines by 9223372036854775807, so the output has one chapter, with
slug `chapter-9223372036854775807`, and none for 9223372036854775808, in whatever order
the chapter map is ranged over. -/
theorem stoffle_chapter_number_overflow :
    atoi "9223372036854775808".toList = (9223372036854775807, false) ∧
    atoi "9223372036854775807".toList = (9223372036854775807, true) ∧
    (StoffleEpitome.parseTextToJSON (fun ks => ks)
      "9223372036854775808.1 x\n9223372036854775807.2 y".toList).Chapters.map (·.Slug) =
      ["chapter-9223372036854775807".toList] ∧
    (StoffleEpitome.parseTextToJSON List.reverse
      "9223372036854775808.1 x\n9223372036854775807.2 y".toList).Chapters.map (·.Slug) =
      ["chapter-9223372036854775807".toList] := by
  decide

theorem mem_filterMap_mapGet {m : List (Int × Chapter)} {L : List Int} {ch : Chapter}
    (h : ch ∈ L.filterMap (mapGet m)) : ∃ n, n ∈ L ∧ mapGet m n = some ch := by
  obtain ⟨n, hn, he⟩ := List.mem_filterMap.1 h
  exact ⟨n, hn, he⟩

theorem classify_part_line (l ws text : List Char)
    (hline : trimSpace l = "0.0".toList ++ (ws ++ text)) (hws : ws ≠ [])
    (hsp : ∀ x ∈ ws, reSpace x = true) :
    classify l = .part (text.dropWhile reSpace) := by
  have hc := endsClean_trimSpace l
  have hne : ws ++ text ≠ [] := by simp [hws]
  have hc' : EndsClean (ws ++ text) := by
    apply endsClean_of_suffix _ hne hc
    rw [hline]; exact List.suffix_append _ _
  have h1 : (ws ++ text).takeWhile reSpace ≠ [] := by
    rw [List.takeWhile_append_of_pos hsp]; simp [hws]
  have h2 := dropWhile_ne_nil_of_endsClean hc' hne
  have h3 : (ws ++ text).dropWhile reSpace = text.dropWhile reSpace :=
    List.dropWhile_append_of_pos hsp
  have hp : partLineText (trimSpace l) = some (text.dropWhile reSpace) := by
    rw [hline]
    simp only [partLineText]
    have e : ("0.0".toList ++ (ws ++ text)).drop 3 = ws ++ text := rfl
    have e2 : "0.0".toList.isPrefixOf ("0.0".toList ++ (ws ++ text)) = true := by
      rw [List.isPrefixOf_iff_prefix]; exact List.prefix_append _ _
    rw [e, if_pos ⟨e2, h1, h2⟩, h3]
  simp only [classify, hp]

/-- Mode C (`parseTextToJSON` of StoffleEpitome): every chapter of the output is the
chapter of some number `n` with a verse line, and its Content is an optional leading part-marker
item followed by exactly the items of the verse lines `<n>.<p> <text>` of the input, in
input order, each one Paragraph with VerseID `p` and the whitespace-delimited tokens of
`<text>` with empty gloss. The numbers `n` and `p` of a line are here the `int`s the loop
holds for it (`classify`): the value of the digits, or the largest `int` when that value
does not fit. A line `0.0<whitespace><text>` classifies as a part marker, not as a verse
of chapter 0: the loop body only records its text as the pending part marker. -/
theorem stoffle_chapter_content (rangeOrder : List Int → List Int)
    (hperm : ∀ ks, (rangeOrder ks).Perm ks) (content : List Char) :
    (∀ ch ∈ (StoffleEpitome.parseTextToJSON rangeOrder content).Chapters,
      ∃ n lead, ch.Slug = chapterSlug n ∧
        (∃ l ∈ split content '\n', ∃ p t, classify l = .verse n p t) ∧
        (lead = [] ∨ ∃ part, lead = [partItem part]) ∧
        ch.Content = lead ++ versesOf n ((split content '\n').map classify)) ∧
    (∀ l ws text, trimSpace l = "0.0".toList ++ (ws ++ text) → ws ≠ [] →
      (∀ x ∈ ws, reSpace x = true) →
      classify l = .part (text.dropWhile reSpace) ∧
      ∀ st, '\n' ∉ l →
        StoffleEpitome.loopBody st l = { st with pendingPartMarker := text.dropWhile reSpace }) := by
  constructor
  · intro ch hch
    rw [stoffle_chapters rangeOrder hperm content] at hch
    obtain ⟨n, hn, hget⟩ := mem_filterMap_mapGet hch
    have hv : HasVerse n ((split content '\n').map classify) := by
      rw [← run_isSome_iff, hget]; rfl
    obtain ⟨title, lead, h1, h2⟩ :=
      run_get_new _ (StoffleEpitome.LoopState.mk [] [] []) n rfl hv
    rw [h2] at hget
    simp only [Option.some.injEq] at hget
    subst hget
    exact ⟨n, lead, rfl, (hasVerse_map_classify n _).1 hv, h1, rfl⟩
  · intro l ws text hline hws hsp
    have hcl := classify_part_line l ws text hline hws hsp
    refine ⟨hcl, fun st hnl => ?_⟩
    rw [stoffle_loopBody st l hnl, hcl]
    rfl


/-- The lines `0.0 Part One`, `1.1 α β`, `0.0 Part Two`, `1.2 γ`, `0.1 δ`. -/
theorem stoffle_chapter_content_witness :
    (∀ ks : List Int, (List.reverse ks).Perm ks) ∧
    ((∀ ch ∈ (StoffleEpitome.parseTextToJSON List.reverse
          "0.0 Part One\n1.1 α β\n0.0 Part Two\n1.2 γ\n0.1 δ".toList).Chapters,
      ∃ n lead, ch.Slug = chapterSlug n ∧
        (∃ l ∈ split "0.0 Part One\n1.1 α β\n0.0 Part Two\n1.2 γ\n0.1 δ".toList '\n',
          ∃ p t, classify l = .verse n p t) ∧
        (lead = [] ∨ ∃ part, lead = [partItem part]) ∧
        ch.Content = lead ++ versesOf n
          ((split "0.0 Part One\n1.1 α β\n0.0 Part Two\n1.2 γ\n0.1 δ".toList '\n').map
            classify)) ∧
    (∀ l ws text, trimSpace l = "0.0".toList ++ (ws ++ text) → ws ≠ [] →
      (∀ x ∈ ws, reSpace x = true) →
      classify l = .part (text.dropWhile reSpace) ∧
      ∀ st, '\n' ∉ l →
        StoffleEpitome.loopBody st l =
          { st with pendingPartMarker := text.dropWhile reSpace })) ∧
    (StoffleEpitome.parseTextToJSON List.reverse
        "0.0 Part One\n1.1 α β\n0.0 Part Two\n1.2 γ\n0.1 δ".toList).Chapters.map
      (fun ch => (ch.Slug, ch.Content)) =
      [("chapter-0".toList, [partItem "Part Two".toList, verseItem 1 ['δ']]),
       ("chapter-1".toList,
        [partItem "Part One".toList, verseItem 1 "α β".toList, verseItem 2 ['γ']])] :=
  ⟨List.reverse_perm, stoffle_chapter_content List.reverse List.reverse_perm _, by decide⟩

/-- C6 at two failing inputs. On the lines `9223372036854775808.1 x` and
`9223372036854775807.2 y` the Content of chapter 9223372036854775807 holds the verse of
the line written for chapter 9223372036854775808 as well: both chapter numbers are keyed
by the largest `int`, the value `strconv.Atoi` returns with the error that the loop
discards. On the line `1.99999999999999999999 c` the Paragraph gets VerseID
9223372036854775807 for the same reason, not the number written. -/
theorem stoffle_verse_number_overflow :
    (StoffleEpitome.parseTextToJSON (fun ks => ks)
      "9223372036854775808.1 x\n9223372036854775807.2 y".toList).Chapters.map (·.Content) =
      [[ContentItem.mk [] [] [Paragraph.mk 1 [Word.mk ['x'] []]],
        ContentItem.mk [] [] [Paragraph.mk 2 [Word.mk ['y'] []]]]] ∧
    (StoffleEpitome.parseTextToJSON (fun ks => ks)
      "1.99999999999999999999 c".toList).Chapters.map (·.Content) =
      [[ContentItem.mk [] [] [Paragraph.mk 9223372036854775807 [Word.mk ['c'] []]]]] ∧
    (9223372036854775807 : Int) ≠ 99999999999999999999 := by
  decide

theorem applyKind_titles_other (st : StoffleEpitome.LoopState) (k : LineKind) (n : Int)
    (hk : ∀ x, k ≠ .title n x) :
    mapGet (applyKind st k).chapterTitles n = mapGet st.chapterTitles n := by
  cases k with
  | part x => rfl
  | other => rfl
  | title m x =>
    have hmn : m ≠ n := fun h => hk x (by rw [h])
    simp [applyKind, mapGet_mapSet, hmn]
  | verse m p t =>
    simp only [applyKind]
    cases mapGet st.chapterMap m <;> rfl

theorem run_titles_keep (ks : List LineKind) (n : Int) :
    ∀ st : StoffleEpitome.LoopState, (∀ k ∈ ks, ∀ x, k ≠ .title n x) →
      mapGet (ks.foldl applyKind st).chapterTitles n = mapGet st.chapterTitles n := by
  induction ks with
  | nil => intro st _; rfl
  | cons k ks ih =>
    intro st h
    rw [List.foldl_cons, ih _ (fun k' hk' => h k' (List.mem_cons_of_mem _ hk')),
      applyKind_titles_other st k n (h k (List.mem_cons_self _ _))]

theorem applyKind_isSome_mono (st : StoffleEpitome.LoopState) (k : LineKind) (m : Int)
    (h : (mapGet st.chapterMap m).isSome = true) :
    (mapGet (applyKind st k).chapterMap m).isSome = true := by
  rcases verse_cases k m with ⟨p, t, rfl⟩ | hk
  · obtain ⟨ch, hch⟩ := Option.isSome_iff_exists.1 h
    rw [applyKind_get_existing st m p t ch hch]; rfl
  · rw [applyKind_get_other st k m hk]; exact h

theorem applyKind_pending_keep (st : StoffleEpitome.LoopState) (k : LineKind)
    (h1 : ∀ x, k ≠ .part x)
    (h2 : ∀ m q t, k = .verse m q t → (mapGet st.chapterMap m).isSome = true) :
    (applyKind st k).pendingPartMarker = st.pendingPartMarker := by
  cases k with
  | part x => exact absurd rfl (h1 x)
  | other => rfl
  | title m x => rfl
  | verse m p t =>
    obtain ⟨ch, hch⟩ := Option.isSome_iff_exists.1 (h2 m p t rfl)
    simp [applyKind, hch]

theorem run_pending_keep (ks : List LineKind) :
    ∀ st : StoffleEpitome.LoopState,
      (∀ k ∈ ks, (∀ x, k ≠ .part x) ∧
        ∀ m q t, k = .verse m q t → (mapGet st.chapterMap m).isSome = true) →
      (ks.foldl applyKind st).pendingPartMarker = st.pendingPartMarker := by
  induction ks with
  | nil => intro st _; rfl
  | cons k ks ih =>
    intro st h
    obtain ⟨h1, h2⟩ := h k (List.mem_cons_self _ _)
    rw [List.foldl_cons, ih, applyKind_pending_keep st k h1 h2]
    intro k' hk'
    obtain ⟨h1', h2'⟩ := h k' (List.mem_cons_of_mem _ hk')
    exact ⟨h1', fun m q t he => applyKind_isSome_mono st k m (h2' m q t he)⟩

theorem classify_part_ne_nil {l part : List Char} (h : classify l = .part part) : part ≠ [] := by
  unfold classify at h
  cases hp : partLineText (trimSpace l) with
  | some x =>
    rw [hp] at h
    simp only [LineKind.part.injEq] at h
    subst h
    unfold partLineText at hp
    simp only at hp
    split at hp
    · rename_i hc
      simp only [Option.some.injEq] at hp
      rw [← hp]; exact hc.2.2
    · cases hp
  | none =>
    rw [hp] at h
    simp only at h
    cases ht : titleLineParts (trimSpace l) with
    | some r => rw [ht] at h; cases h
    | none =>
      rw [ht] at h
      simp only at h
      cases hv : verseLineParts (trimSpace l) with
      | some r => rw [hv] at h; cases h
      | none => rw [hv] at h; cases h

/-- C4. Mode C (`parseTextToJSON` of StoffleEpitome), whatever the order in which the
chapter map is ranged over. Let `vl` be the first verse line of chapter `n`, and let the
lines before it hold a title line `<n>.title <title>` (the last one for `n`) and a
part-marker line `0.0 <part>` (the last one), in either order, no line after that part
marker and before `vl` creating a new chapter. Then the output has the chapter with slug
`chapter-<n>`, its Title.display is `<title>`, its first ContentItem is the VerseID-0
Paragraph with the single word `<part>`, the next one is the Paragraph of `vl`, and the
verse items of the later lines of chapter `n` follow. -/
theorem stoffle_title_and_part (rangeOrder : List Int → List Int)
    (hperm : ∀ ks, (rangeOrder ks).Perm ks) (content : List Char)
    (pre post : List (List Char)) (vl : List Char) (n p : Int) (text part title : List Char)
    (hlines : split content '\n' = pre ++ vl :: post)
    (hverse : classify vl = .verse n p text)
    (hfirst : ∀ l ∈ pre, ∀ q t, classify l ≠ .verse n q t)
    (t₁ t₂ : List (List Char)) (tl : List Char)
    (htitle : pre = t₁ ++ tl :: t₂) (htl : classify tl = .title n title)
    (hlastT : ∀ l ∈ t₂, ∀ x, classify l ≠ .title n x)
    (p₁ p₂ : List (List Char)) (pl : List Char)
    (hpart : pre = p₁ ++ pl :: p₂) (hpl : classify pl = .part part)
    (hlastP : ∀ l ∈ p₂, (∀ x, classify l ≠ .part x) ∧
      ∀ m q t, classify l = .verse m q t → ∃ l' ∈ p₁, ∃ q' t', classify l' = .verse m q' t') :
    ∃ ch ∈ (StoffleEpitome.parseTextToJSON rangeOrder content).Chapters,
      ch.Slug = chapterSlug n ∧ ch.Title.Display = title ∧
      ch.Content = partItem part :: verseItem p text :: versesOf n (post.map classify) := by
  rw [stoffle_chapters rangeOrder hperm content, hlines]
  simp only [List.map_append, List.map_cons, List.foldl_append, List.foldl_cons]
  generalize hs1 : (pre.map classify).foldl applyKind (StoffleEpitome.LoopState.mk [] [] [])
    = s1
  -- the state after the lines before the verse line
  have ha : mapGet s1.chapterMap n = none := by
    rw [← hs1]
    apply run_get_absent _ (StoffleEpitome.LoopState.mk [] [] []) n rfl
    rintro ⟨q, t, hm⟩
    obtain ⟨l, hl, he⟩ := List.mem_map.1 hm
    exact hfirst l hl q t he
  have hb : mapGet s1.chapterTitles n = some title := by
    rw [← hs1, htitle]
    simp only [List.map_append, List.map_cons, List.foldl_append, List.foldl_cons, htl]
    rw [run_titles_keep]
    · simp [applyKind, mapGet_mapSet]
    · intro k hk x he
      obtain ⟨l, hl, hcl⟩ := List.mem_map.1 hk
      exact hlastT l hl x (hcl.trans he)
  have hc : s1.pendingPartMarker = part := by
    rw [← hs1, hpart]
    simp only [List.map_append, List.map_cons, List.foldl_append, List.foldl_cons, hpl]
    rw [run_pending_keep]
    · rfl
    · intro k hk
      obtain ⟨l, hl, hcl⟩ := List.mem_map.1 hk
      obtain ⟨h1, h2⟩ := hlastP l hl
      refine ⟨fun x he => h1 x (hcl.trans he), fun m q t he => ?_⟩
      obtain ⟨l', hl', q', t', hcl'⟩ := h2 m q t (hcl.trans he)
      have : HasVerse m (p₁.map classify) := ⟨q', t', List.mem_map.2 ⟨l', hl', hcl'⟩⟩
      exact (run_isSome_iff _ m).2 this
  have hne : part ≠ [] := classify_part_ne_nil hpl
  have hnew := applyKind_get_new s1 n p text ha
  rw [hb, hc] at hnew
  simp only [hne, ne_eq, not_false_eq_true, if_true, Option.getD_some, List.singleton_append]
    at hnew
  rw [hverse]
  have hfin := run_get_existing (post.map classify) _ n _ hnew
  refine ⟨_, List.mem_filterMap.2 ⟨n, ?_, hfin⟩, rfl, rfl, by simp⟩
  rw [(List.perm_insertionSort _ _).mem_iff, mem_keys_iff, hfin]
  rfl


/-- Witness of C4 on the lines `0.0 Part One`, `1.title Εἰσαγωγή`, `1.1 πρῶτος λόγος`; the
same output is evaluated for the input with the first two lines swapped. -/
theorem stoffle_title_and_part_witness :
    ((∀ ks : List Int, (List.reverse ks).Perm ks) ∧
      split "0.0 Part One\n1.title Εἰσαγωγή\n1.1 πρῶτος λόγος".toList '\n' =
        ["0.0 Part One".toList, "1.title Εἰσαγωγή".toList] ++ "1.1 πρῶτος λόγος".toList :: [] ∧
      classify "1.1 πρῶτος λόγος".toList = .verse 1 1 "πρῶτος λόγος".toList ∧
      (∀ l ∈ ["0.0 Part One".toList, "1.title Εἰσαγωγή".toList],
        ∀ q t, classify l ≠ .verse 1 q t) ∧
      ["0.0 Part One".toList, "1.title Εἰσαγωγή".toList] =
        ["0.0 Part One".toList] ++ "1.title Εἰσαγωγή".toList :: [] ∧
      classify "1.title Εἰσαγωγή".toList = .title 1 "Εἰσαγωγή".toList ∧
      (∀ l ∈ ([] : List (List Char)), ∀ x, classify l ≠ .title 1 x) ∧
      ["0.0 Part One".toList, "1.title Εἰσαγωγή".toList] =
        [] ++ "0.0 Part One".toList :: ["1.title Εἰσαγωγή".toList] ∧
      classify "0.0 Part One".toList = .part "Part One".toList ∧
      (∀ l ∈ ["1.title Εἰσαγωγή".toList], (∀ x, classify l ≠ .part x) ∧
        ∀ m q t, classify l = .verse m q t →
          ∃ l' ∈ ([] : List (List Char)), ∃ q' t', classify l' = .verse m q' t')) ∧
    (∃ ch ∈ (StoffleEpitome.parseTextToJSON List.reverse
        "0.0 Part One\n1.title Εἰσαγωγή\n1.1 πρῶτος λόγος".toList).Chapters,
      ch.Slug = chapterSlug 1 ∧ ch.Title.Display = "Εἰσαγωγή".toList ∧
      ch.Content = partItem "Part One".toList :: verseItem 1 "πρῶτος λόγος".toList ::
        versesOf 1 (([] : List (List Char)).map classify)) ∧
    (StoffleEpitome.parseTextToJSON List.reverse
        "1.title Εἰσαγωγή\n0.0 Part One\n1.1 πρῶτος λόγος".toList).Chapters =
      [Chapter.mk "chapter-1".toList (Title.mk "Εἰσαγωγή".toList []) [] [] []
        [partItem "Part One".toList, verseItem 1 "πρῶτος λόγος".toList]] := by
  have e1 : classify "0.0 Part One".toList = .part "Part One".toList := by decide
  have e2 : classify "1.title Εἰσαγωγή".toList = .title 1 "Εἰσαγωγή".toList := by decide
  have e3 : classify "1.1 πρῶτος λόγος".toList = .verse 1 1 "πρῶτος λόγος".toList := by decide
  have h0 : split "0.0 Part One\n1.title Εἰσαγωγή\n1.1 πρῶτος λόγος".toList '\n' =
      ["0.0 Part One".toList, "1.title Εἰσαγωγή".toList] ++ "1.1 πρῶτος λόγος".toList :: [] := by
    decide
  have h1 : ∀ l ∈ ["0.0 Part One".toList, "1.title Εἰσαγωγή".toList],
      ∀ q t, classify l ≠ .verse 1 q t := by
    intro l hl q t h
    simp only [List.mem_cons, List.mem_singleton, List.not_mem_nil, or_false] at hl
    rcases hl with rfl | rfl
    · rw [e1] at h; cases h
    · rw [e2] at h; cases h
  have h2 : ∀ l ∈ ([] : List (List Char)), ∀ x, classify l ≠ .title 1 x := by
    intro l hl; cases hl
  have h3 : ∀ l ∈ ["1.title Εἰσαγωγή".toList], (∀ x, classify l ≠ .part x) ∧
      ∀ m q t, classify l = .verse m q t →
        ∃ l' ∈ ([] : List (List Char)), ∃ q' t', classify l' = .verse m q' t' := by
    intro l hl
    simp only [List.mem_singleton] at hl
    subst hl
    constructor
    · intro x h; rw [e2] at h; cases h
    · intro m q t h; rw [e2] at h; cases h
  exact ⟨⟨List.reverse_perm, h0, e3, h1, rfl, e2, h2, rfl, e1, h3⟩,
    stoffle_title_and_part List.reverse List.reverse_perm _ _ _ _ 1 1 _ _ _ h0 e3 h1
      ["0.0 Part One".toList] [] _ rfl e2 h2 [] ["1.title Εἰσαγωγή".toList] _ rfl e1 h3,
    by decide⟩

/-! ### The section assembler: chapters and slugs -/

/-- C11. On a book with no chapters, `processSection` with section title `"Vocab"`,
`"Questions"` or `"Content"` and any section content prints exactly one warning, does not
panic and leaves the book as it was. -/
theorem processSection_no_chapter (book : Book) (sectionContent : List Char)
    (h : book.Chapters = []) :
    (processSection book "Vocab".toList sectionContent).printed.length = 1 ∧
    (processSection book "Vocab".toList sectionContent).panicked = false ∧
    (processSection book "Vocab".toList sectionContent).book = book ∧
    (processSection book "Questions".toList sectionContent).printed.length = 1 ∧
    (processSection book "Questions".toList sectionContent).panicked = false ∧
    (processSection book "Questions".toList sectionContent).book = book ∧
    (processSection book "Content".toList sectionContent).printed.length = 1 ∧
    (processSection book "Content".toList sectionContent).panicked = false ∧
    (processSection book "Content".toList sectionContent).book = book := by
  have h1 : ("Vocab".toList = "Chapter".toList) = False := by decide
  have h2 : ("Questions".toList = "Chapter".toList) = False := by decide
  have h3 : ("Questions".toList = "Vocab".toList) = False := by decide
  have h4 : ("Content".toList = "Chapter".toList) = False := by decide
  have h5 : ("Content".toList = "Vocab".toList) = False := by decide
  have h6 : ("Content".toList = "Questions".toList) = False := by decide
  simp [processSection, h, h1, h2, h3, h4, h5, h6]

/-- Witness of C11 on the book with no chapters and the section content
`λόγος|word|img.png`. -/
theorem processSection_no_chapter_witness :
    emptyBook.Chapters = [] ∧
    (processSection emptyBook "Vocab".toList "λόγος|word|img.png".toList).printed.length = 1 ∧
    (processSection emptyBook "Vocab".toList "λόγος|word|img.png".toList).panicked = false ∧
    (processSection emptyBook "Vocab".toList "λόγος|word|img.png".toList).book = emptyBook ∧
    (processSection emptyBook "Questions".toList "λόγος|word|img.png".toList).printed.length = 1 ∧
    (processSection emptyBook "Questions".toList "λόγος|word|img.png".toList).panicked = false ∧
    (processSection emptyBook "Questions".toList "λόγος|word|img.png".toList).book = emptyBook ∧
    (processSection emptyBook "Content".toList "λόγος|word|img.png".toList).printed.length = 1 ∧
    (processSection emptyBook "Content".toList "λόγος|word|img.png".toList).panicked = false ∧
    (processSection emptyBook "Content".toList "λόγος|word|img.png".toList).book = emptyBook :=
  ⟨rfl, processSection_no_chapter emptyBook _ rfl⟩


theorem processSection_chapter_chapters (book : Book) (sectionContent : List Char) :
    (processSection book "Chapter".toList sectionContent) =
      Outcome.mk
        { book with Chapters := book.Chapters ++
            [(split sectionContent '\n').foldl chapterLine
              (Chapter.mk (chapterSlug ((book.Chapters.length : Int) + 1)) (Title.mk [] []) []
                [] [] [])] }
        [] false := by
  simp [processSection, setCurrentChapter, chapterSlug, List.dropLast_concat]

theorem chapterLine_slug (ch : Chapter) (l : List Char) : (chapterLine ch l).Slug = ch.Slug := by
  unfold chapterLine
  simp only
  split
  · rfl
  · split
    · rfl
    · split
      · rfl
      · split <;> rfl

theorem foldl_chapterLine_slug (ls : List (List Char)) :
    ∀ ch, (ls.foldl chapterLine ch).Slug = ch.Slug := by
  induction ls with
  | nil => intro ch; rfl
  | cons l ls ih => intro ch; rw [List.foldl_cons, ih, chapterLine_slug]

theorem setCurrentChapter_shape (book : Book) (ch ch' : Chapter)
    (hcur : book.Chapters.getLast? = some ch) (hslug : ch'.Slug = ch.Slug) :
    (setCurrentChapter book ch').Chapters.map (·.Slug) = book.Chapters.map (·.Slug) ∧
    (setCurrentChapter book ch').Chapters.dropLast = book.Chapters.dropLast := by
  have h : book.Chapters.dropLast ++ [ch] = book.Chapters :=
    List.dropLast_append_getLast? ch (by rw [hcur]; exact rfl)
  constructor
  · conv_rhs => rw [← h]
    simp [setCurrentChapter, hslug]
  · simp [setCurrentChapter, List.dropLast_concat]

/-- Every section title but `"Chapter"` keeps the slugs and all chapters but the last. -/
theorem processSection_other_chapters (book : Book) (sectionTitle sectionContent : List Char)
    (ht : sectionTitle ≠ "Chapter".toList) :
    (processSection book sectionTitle sectionContent).book.Chapters.map (·.Slug) =
      book.Chapters.map (·.Slug) ∧
    (processSection book sectionTitle sectionContent).book.Chapters.dropLast =
      book.Chapters.dropLast := by
  unfold processSection
  simp only [ht, if_false]
  cases hcur : book.Chapters.getLast? with
  | none =>
    simp only
    split
    · exact ⟨rfl, rfl⟩
    · split
      · exact ⟨rfl, rfl⟩
      · split <;> exact ⟨rfl, rfl⟩
  | some ch =>
    simp only
    split
    · split <;> exact setCurrentChapter_shape book ch _ hcur rfl
    · split
      · split <;> exact setCurrentChapter_shape book ch _ hcur rfl
      · split
        · exact setCurrentChapter_shape book ch _ hcur rfl
        · exact ⟨rfl, rfl⟩

theorem slugsUpTo_succ (k : Nat) :
    slugsUpTo (k + 1) = slugsUpTo k ++ [chapterSlug ((k : Int) + 1)] := by
  simp [slugsUpTo, List.range_succ]

theorem runSections_slugs (calls : List (List Char × List Char)) :
    ∀ book b', book.Chapters.map (·.Slug) = slugsUpTo book.Chapters.length →
      runSections book calls = some b' →
      b'.Chapters.map (·.Slug) = slugsUpTo b'.Chapters.length ∧
      b'.Chapters.length = book.Chapters.length +
        (calls.filter (fun call => call.1 = "Chapter".toList)).length := by
  induction calls with
  | nil =>
    intro book b' hinv hrun
    simp only [runSections, Option.some.injEq] at hrun
    subst hrun
    exact ⟨hinv, by simp⟩
  | cons call calls ih =>
    intro book b' hinv hrun
    simp only [runSections] at hrun
    split at hrun
    · cases hrun
    · by_cases ht : call.1 = "Chapter".toList
      · have hstep := processSection_chapter_chapters book call.2
        rw [ht] at hrun
        rw [hstep] at hrun
        have hlen : (book.Chapters ++ [(split call.2 '\n').foldl chapterLine
            (Chapter.mk (chapterSlug ((book.Chapters.length : Int) + 1)) (Title.mk [] []) []
              [] [] [])]).length = book.Chapters.length + 1 := by simp
        obtain ⟨h1, h2⟩ := ih _ b' (by
          simp only [List.map_append, List.map_cons, List.map_nil, hlen, slugsUpTo_succ, hinv,
            foldl_chapterLine_slug]) hrun
        refine ⟨h1, ?_⟩
        rw [h2]
        simp only [hlen, List.filter_cons, ht, decide_True, if_true, List.length_cons]
        omega
      · obtain ⟨hs, -⟩ := processSection_other_chapters book call.1 call.2 ht
        have hlen : (processSection book call.1 call.2).book.Chapters.length =
            book.Chapters.length := by
          have := congrArg List.length hs
          simpa using this
        obtain ⟨h1, h2⟩ := ih _ b' (by rw [hs, hlen]; exact hinv) hrun
        refine ⟨h1, ?_⟩
        rw [h2, hlen, List.filter_cons]
        have : decide (call.1 = "Chapter".toList) = false := by simpa using ht
        rw [this]; rfl

/-- C12. Slug invariant of the section assembler. Starting from a book with no chapters,
after any sequence of `processSection` calls that all return, the i-th chapter (1-based)
has slug `chapter-<i>` and there are as many chapters as there were `"Chapter"` calls. A
`"Chapter"` call returns and appends exactly one chapter, with slug `chapter-<n>` where
`n` is 1 + the number of chapters before the call; a call with any other section title
leaves the slugs, hence the number and order of the chapters, and every chapter but the
last unchanged. -/
theorem processSection_slug_invariant :
    (∀ (book b' : Book) (calls : List (List Char × List Char)),
      book.Chapters = [] → runSections book calls = some b' →
      b'.Chapters.map (·.Slug) = slugsUpTo b'.Chapters.length ∧
      b'.Chapters.length = (calls.filter (fun call => call.1 = "Chapter".toList)).length) ∧
    (∀ (book : Book) (sectionContent : List Char),
      (processSection book "Chapter".toList sectionContent).panicked = false ∧
      ∃ ch, ch.Slug = chapterSlug ((book.Chapters.length : Int) + 1) ∧
        (processSection book "Chapter".toList sectionContent).book.Chapters =
          book.Chapters ++ [ch]) ∧
    (∀ (book : Book) (sectionTitle sectionContent : List Char),
      sectionTitle ≠ "Chapter".toList →
      (processSection book sectionTitle sectionContent).book.Chapters.map (·.Slug) =
        book.Chapters.map (·.Slug) ∧
      (processSection book sectionTitle sectionContent).book.Chapters.dropLast =
        book.Chapters.dropLast) := by
  refine ⟨?_, ?_, processSection_other_chapters⟩
  · intro book b' calls h0 hrun
    have := runSections_slugs calls book b' (by simp [h0, slugsUpTo]) hrun
    simpa [h0] using this
  · intro book sectionContent
    rw [processSection_chapter_chapters]
    exact ⟨rfl, _, foldl_chapterLine_slug _ _, rfl⟩


/-- Witness of C12 on the calls `Chapter`, `Vocab`, `Chapter`, `Questions`, `Notes` from the
book with no chapters: two chapters, `chapter-1` and `chapter-2`. -/
theorem processSection_slug_invariant_witness :
    emptyBook.Chapters = [] ∧
    ∃ b', runSections emptyBook
        [("Chapter".toList, "Title: Α".toList), ("Vocab".toList, "λόγος|word|img.png".toList),
         ("Chapter".toList, []), ("Questions".toList, "τίς;|ὁ λόγος".toList),
         ("Notes".toList, "x".toList)] = some b' ∧
      b'.Chapters.map (·.Slug) = slugsUpTo b'.Chapters.length ∧
      b'.Chapters.map (·.Slug) = ["chapter-1".toList, "chapter-2".toList] := by
  have h : (runSections emptyBook
      [("Chapter".toList, "Title: Α".toList), ("Vocab".toList, "λόγος|word|img.png".toList),
       ("Chapter".toList, []), ("Questions".toList, "τίς;|ὁ λόγος".toList),
       ("Notes".toList, "x".toList)]).isSome = true := by decide
  obtain ⟨b', hb⟩ := Option.isSome_iff_exists.1 h
  have hinv := processSection_slug_invariant.1 emptyBook b' _ rfl hb
  refine ⟨rfl, b', hb, hinv.1, ?_⟩
  rw [hinv.1, hinv.2]
  decide

/-! ### Mode C: determinism, part markers and titles -/

/-- C14. Mode C (`parseTextToJSON` of StoffleEpitome) is deterministic: the book it builds
from a text is the same for any two orders in which `for num := range chapterMap` may
visit the keys, so two runs on the same text give the same output. -/
theorem stoffle_deterministic (order₁ order₂ : List Int → List Int)
    (h₁ : ∀ ks, (order₁ ks).Perm ks) (h₂ : ∀ ks, (order₂ ks).Perm ks) (content : List Char) :
    StoffleEpitome.parseTextToJSON order₁ content =
      StoffleEpitome.parseTextToJSON order₂ content := by
  have e : ∀ (order : List Int → List Int) (b : Book),
      b = StoffleEpitome.parseTextToJSON order content →
      b = { StoffleEpitome.parseTextToJSON id content with Chapters := b.Chapters } := by
    intro order b hb; subst hb; rfl
  rw [e order₁ _ rfl, e order₂ _ rfl, stoffle_chapters order₁ h₁, stoffle_chapters order₂ h₂]

/-- Witness of C14 on the lines `2.1 β`, `1.1 α`, `3.1 γ`, the map being ranged over in
insertion order in one run and in reverse insertion order in the other. -/
theorem stoffle_deterministic_witness :
    ((∀ ks : List Int, (id ks).Perm ks) ∧ (∀ ks : List Int, (List.reverse ks).Perm ks)) ∧
    StoffleEpitome.parseTextToJSON id "2.1 β\n1.1 α\n3.1 γ".toList =
      StoffleEpitome.parseTextToJSON List.reverse "2.1 β\n1.1 α\n3.1 γ".toList ∧
    (StoffleEpitome.parseTextToJSON List.reverse "2.1 β\n1.1 α\n3.1 γ".toList).Chapters.map
      (·.Slug) = ["chapter-1".toList, "chapter-2".toList, "chapter-3".toList] :=
  ⟨⟨fun _ => List.Perm.refl _, List.reverse_perm⟩,
    stoffle_deterministic id List.reverse (fun _ => List.Perm.refl _) List.reverse_perm _,
    by decide⟩

theorem applyKind_pending_nil (st : StoffleEpitome.LoopState) (k : LineKind)
    (h0 : st.pendingPartMarker = []) (h1 : ∀ x, k ≠ .part x) :
    (applyKind st k).pendingPartMarker = [] := by
  cases k with
  | part x => exact absurd rfl (h1 x)
  | other => exact h0
  | title m x => exact h0
  | verse m p t =>
    simp only [applyKind]
    cases mapGet st.chapterMap m with
    | some ch => exact h0
    | none => rfl

theorem run_pending_nil (ks : List LineKind) :
    ∀ st : StoffleEpitome.LoopState, st.pendingPartMarker = [] →
      (∀ k ∈ ks, ∀ x, k ≠ .part x) → (ks.foldl applyKind st).pendingPartMarker = [] := by
  induction ks with
  | nil => intro st h _; exact h
  | cons k ks ih =>
    intro st h0 h
    rw [List.foldl_cons]
    exact ih _ (applyKind_pending_nil st k h0 (h k (List.mem_cons_self _ _)))
      (fun k' hk' => h k' (List.mem_cons_of_mem _ hk'))

theorem applyKind_pending_new (st : StoffleEpitome.LoopState) (m p : Int) (t : List Char)
    (h : mapGet st.chapterMap m = none) :
    (applyKind st (.verse m p t)).pendingPartMarker = [] := by
  simp [applyKind, h]

theorem not_hasVerse_of_lines {n : Int} {ls : List (List Char)}
    (h : ∀ l ∈ ls, ∀ q t, classify l ≠ .verse n q t) : ¬ HasVerse n (ls.map classify) := by
  rintro ⟨q, t, hm⟩
  obtain ⟨l, hl, he⟩ := List.mem_map.1 hm
  exact h l hl q t he

theorem mem_chapters_of_get {m : List (Int × Chapter)} {n : Int} {ch : Chapter}
    (h : mapGet m n = some ch) :
    ch ∈ ((m.map Prod.fst).insertionSort (· ≤ ·)).filterMap (mapGet m) := by
  refine List.mem_filterMap.2 ⟨n, ?_, h⟩
  rw [(List.perm_insertionSort _ _).mem_iff, mem_keys_iff, h]
  rfl

/-- C17. Mode C (`parseTextToJSON` of StoffleEpitome): the part marker is consumed once.
When the verse line `v₁` creates a chapter and no part-marker line stands between `v₁`
and the first verse line `v₂` of another new chapter, that later chapter gets no synthetic
VerseID-0 item: its Content starts with the Paragraph of `v₂`. In the loop body, a verse
line of a chapter that exists leaves the pending part marker as it is, and a verse line
that creates a chapter leaves it empty. -/
theorem stoffle_part_marker_once (rangeOrder : List Int → List Int)
    (hperm : ∀ ks, (rangeOrder ks).Perm ks) (content : List Char)
    (pre mid post : List (List Char)) (v₁ v₂ : List Char) (n₁ p₁ n₂ p₂ : Int)
    (t₁ t₂ : List Char)
    (hlines : split content '\n' = pre ++ v₁ :: (mid ++ v₂ :: post))
    (hv₁ : classify v₁ = .verse n₁ p₁ t₁)
    (hnew₁ : ∀ l ∈ pre, ∀ q t, classify l ≠ .verse n₁ q t)
    (hmid : ∀ l ∈ mid, ∀ x, classify l ≠ .part x)
    (hv₂ : classify v₂ = .verse n₂ p₂ t₂)
    (hnew₂ : ∀ l ∈ pre ++ v₁ :: mid, ∀ q t, classify l ≠ .verse n₂ q t) :
    (∃ ch ∈ (StoffleEpitome.parseTextToJSON rangeOrder content).Chapters,
      ch.Slug = chapterSlug n₂ ∧
      ch.Content = verseItem p₂ t₂ :: versesOf n₂ (post.map classify)) ∧
    (∀ (st : StoffleEpitome.LoopState) (l : List Char) (m p : Int) (t : List Char),
      '\n' ∉ l → classify l = .verse m p t → (mapGet st.chapterMap m).isSome = true →
      (StoffleEpitome.loopBody st l).pendingPartMarker = st.pendingPartMarker) ∧
    (∀ (st : StoffleEpitome.LoopState) (l : List Char) (m p : Int) (t : List Char),
      '\n' ∉ l → classify l = .verse m p t → mapGet st.chapterMap m = none →
      (StoffleEpitome.loopBody st l).pendingPartMarker = []) := by
  refine ⟨?_, ?_, ?_⟩
  · rw [stoffle_chapters rangeOrder hperm content, hlines]
    simp only [List.map_append, List.map_cons, List.foldl_append, List.foldl_cons, hv₁, hv₂]
    generalize hs1 : (pre.map classify).foldl applyKind (StoffleEpitome.LoopState.mk [] [] [])
      = s1
    have ha : mapGet s1.chapterMap n₁ = none := by
      rw [← hs1]
      exact run_get_absent _ (StoffleEpitome.LoopState.mk [] [] []) n₁ rfl
        (not_hasVerse_of_lines hnew₁)
    have hp1 : (applyKind s1 (.verse n₁ p₁ t₁)).pendingPartMarker = [] :=
      applyKind_pending_new s1 n₁ p₁ t₁ ha
    generalize hs2 : (mid.map classify).foldl applyKind (applyKind s1 (.verse n₁ p₁ t₁)) = s2
    have hp2 : s2.pendingPartMarker = [] := by
      rw [← hs2]
      apply run_pending_nil _ _ hp1
      intro k hk x he
      obtain ⟨l, hl, hcl⟩ := List.mem_map.1 hk
      exact hmid l hl x (hcl.trans he)
    have hb : mapGet s2.chapterMap n₂ = none := by
      have := run_get_absent ((pre ++ v₁ :: mid).map classify)
        (StoffleEpitome.LoopState.mk [] [] []) n₂ rfl (not_hasVerse_of_lines hnew₂)
      simp only [List.map_append, List.map_cons, List.foldl_append, List.foldl_cons, hv₁, hs1,
        hs2] at this
      exact this
    have hnew := applyKind_get_new s2 n₂ p₂ t₂ hb
    rw [hp2] at hnew
    simp only [ne_eq, not_true_eq_false, if_false, List.nil_append] at hnew
    have hfin := run_get_existing (post.map classify) _ n₂ _ hnew
    exact ⟨_, mem_chapters_of_get hfin, rfl, by simp⟩
  · intro st l m p t hl hc hm
    rw [stoffle_loopBody st l hl, hc]
    exact applyKind_pending_keep st _ (fun x h => by cases h)
      (fun m' q' t' h => by cases h; exact hm)
  · intro st l m p t hl hc hm
    rw [stoffle_loopBody st l hl, hc]
    exact applyKind_pending_new st m p t hm


/-- Witness of C17 on the lines `0.0 Part One`, `1.1 α`, `1.2 β`, `2.1 γ`; the second
evaluation shows a marker that a verse of the existing chapter 1 does not consume. -/
theorem stoffle_part_marker_once_witness :
    ((∀ ks : List Int, (List.reverse ks).Perm ks) ∧
      split "0.0 Part One\n1.1 α\n1.2 β\n2.1 γ".toList '\n' =
        ["0.0 Part One".toList] ++ "1.1 α".toList :: (["1.2 β".toList] ++ "2.1 γ".toList :: []) ∧
      classify "1.1 α".toList = .verse 1 1 ['α'] ∧
      classify "2.1 γ".toList = .verse 2 1 ['γ']) ∧
    (∃ ch ∈ (StoffleEpitome.parseTextToJSON List.reverse
        "0.0 Part One\n1.1 α\n1.2 β\n2.1 γ".toList).Chapters,
      ch.Slug = chapterSlug 2 ∧
      ch.Content = verseItem 1 ['γ'] :: versesOf 2 (([] : List (List Char)).map classify)) ∧
    (StoffleEpitome.parseTextToJSON List.reverse
        "0.0 Part One\n1.1 α\n1.2 β\n2.1 γ".toList).Chapters.map (·.Content) =
      [[partItem "Part One".toList, verseItem 1 ['α'], verseItem 2 ['β']],
       [verseItem 1 ['γ']]] ∧
    (StoffleEpitome.parseTextToJSON List.reverse
        "1.1 α\n0.0 Part Two\n1.2 β\n2.1 γ\n3.1 δ".toList).Chapters.map (·.Content) =
      [[verseItem 1 ['α'], verseItem 2 ['β']],
       [partItem "Part Two".toList, verseItem 1 ['γ']],
       [verseItem 1 ['δ']]] := by
  have h0 : split "0.0 Part One\n1.1 α\n1.2 β\n2.1 γ".toList '\n' =
      ["0.0 Part One".toList] ++ "1.1 α".toList :: (["1.2 β".toList] ++ "2.1 γ".toList :: []) := by
    decide
  have e0 : classify "0.0 Part One".toList = .part "Part One".toList := by decide
  have e1 : classify "1.1 α".toList = .verse 1 1 ['α'] := by decide
  have e2 : classify "1.2 β".toList = .verse 1 2 ['β'] := by decide
  have e3 : classify "2.1 γ".toList = .verse 2 1 ['γ'] := by decide
  have h1 : ∀ l ∈ ["0.0 Part One".toList], ∀ q t, classify l ≠ .verse 1 q t := by
    intro l hl q t h
    simp only [List.mem_singleton] at hl
    subst hl; rw [e0] at h; cases h
  have h2 : ∀ l ∈ ["1.2 β".toList], ∀ x, classify l ≠ .part x := by
    intro l hl x h
    simp only [List.mem_singleton] at hl
    subst hl; rw [e2] at h; cases h
  have h3 : ∀ l ∈ ["0.0 Part One".toList] ++ "1.1 α".toList :: ["1.2 β".toList],
      ∀ q t, classify l ≠ .verse 2 q t := by
    intro l hl q t h
    simp only [List.singleton_append, List.mem_cons, List.mem_singleton, List.not_mem_nil,
      or_false] at hl
    rcases hl with rfl | rfl | rfl
    · rw [e0] at h; cases h
    · rw [e1] at h; cases h
    · rw [e2] at h; cases h
  exact ⟨⟨List.reverse_perm, h0, e1, e3⟩,
    (stoffle_part_marker_once List.reverse List.reverse_perm _ _ _ _ _ _ 1 1 2 1 _ _
      h0 e1 h1 h2 e3 h3).1, by decide, by decide⟩

/-- C20. Mode C (`parseTextToJSON` of StoffleEpitome): the Title.display of chapter `n` is
fixed when the first verse line of `n` creates the chapter. It is the title of the last
title line for `n` that stands before that verse line, or the empty string when there is
none; the lines after the first verse line, title lines for `n` included, do not change
it. -/
theorem stoffle_title_fixed_at_creation (rangeOrder : List Int → List Int)
    (hperm : ∀ ks, (rangeOrder ks).Perm ks) (content : List Char)
    (pre post : List (List Char)) (vl : List Char) (n p : Int) (text : List Char)
    (hlines : split content '\n' = pre ++ vl :: post)
    (hverse : classify vl = .verse n p text)
    (hfirst : ∀ l ∈ pre, ∀ q t, classify l ≠ .verse n q t) :
    ∃ ch ∈ (StoffleEpitome.parseTextToJSON rangeOrder content).Chapters,
      ch.Slug = chapterSlug n ∧
      ((∀ l ∈ pre, ∀ x, classify l ≠ .title n x) → ch.Title.Display = []) ∧
      (∀ (t₁ t₂ : List (List Char)) (tl title : List Char),
        pre = t₁ ++ tl :: t₂ → classify tl = .title n title →
        (∀ l ∈ t₂, ∀ x, classify l ≠ .title n x) → ch.Title.Display = title) := by
  rw [stoffle_chapters rangeOrder hperm content, hlines]
  simp only [List.map_append, List.map_cons, List.foldl_append, List.foldl_cons, hverse]
  generalize hs1 : (pre.map classify).foldl applyKind (StoffleEpitome.LoopState.mk [] [] [])
    = s1
  have ha : mapGet s1.chapterMap n = none := by
    rw [← hs1]
    exact run_get_absent _ (StoffleEpitome.LoopState.mk [] [] []) n rfl
      (not_hasVerse_of_lines hfirst)
  have hnew := applyKind_get_new s1 n p text ha
  have hfin := run_get_existing (post.map classify) _ n _ hnew
  refine ⟨_, mem_chapters_of_get hfin, rfl, ?_, ?_⟩
  · intro hno
    have : mapGet s1.chapterTitles n = none := by
      rw [← hs1, run_titles_keep]
      · rfl
      · intro k hk x he
        obtain ⟨l, hl, hcl⟩ := List.mem_map.1 hk
        exact hno l hl x (hcl.trans he)
    simp [this]
  · intro t₁ t₂ tl title hpre htl hlast
    have : mapGet s1.chapterTitles n = some title := by
      rw [← hs1, hpre]
      simp only [List.map_append, List.map_cons, List.foldl_append, List.foldl_cons, htl]
      rw [run_titles_keep]
      · simp [applyKind, mapGet_mapSet]
      · intro k hk x he
        obtain ⟨l, hl, hcl⟩ := List.mem_map.1 hk
        exact hlast l hl x (hcl.trans he)
    simp [this]

/-- Witness of C20 on the lines `1.1 πρῶτος`, `1.title Εἰσαγωγή`, `1.2 λόγος` (the title comes
too late and the display title is empty); the second evaluation has two titles before the
first verse line and one after it. -/
theorem stoffle_title_fixed_at_creation_witness :
    ((∀ ks : List Int, (List.reverse ks).Perm ks) ∧
      split "1.1 πρῶτος\n1.title Εἰσαγωγή\n1.2 λόγος".toList '\n' =
        [] ++ "1.1 πρῶτος".toList :: ["1.title Εἰσαγωγή".toList, "1.2 λόγος".toList] ∧
      classify "1.1 πρῶτος".toList = .verse 1 1 "πρῶτος".toList ∧
      (∀ l ∈ ([] : List (List Char)), ∀ q t, classify l ≠ .verse 1 q t)) ∧
    (∃ ch ∈ (StoffleEpitome.parseTextToJSON List.reverse
        "1.1 πρῶτος\n1.title Εἰσαγωγή\n1.2 λόγος".toList).Chapters,
      ch.Slug = chapterSlug 1 ∧
      ((∀ l ∈ ([] : List (List Char)), ∀ x, classify l ≠ .title 1 x) → ch.Title.Display = []) ∧
      (∀ (t₁ t₂ : List (List Char)) (tl title : List Char),
        [] = t₁ ++ tl :: t₂ → classify tl = .title 1 title →
        (∀ l ∈ t₂, ∀ x, classify l ≠ .title 1 x) → ch.Title.Display = title)) ∧
    (StoffleEpitome.parseTextToJSON List.reverse
        "1.1 πρῶτος\n1.title Εἰσαγωγή\n1.2 λόγος".toList).Chapters =
      [Chapter.mk "chapter-1".toList (Title.mk [] []) [] [] []
        [verseItem 1 "πρῶτος".toList, verseItem 2 "λόγος".toList]] ∧
    (StoffleEpitome.parseTextToJSON List.reverse
        "1.title Α\n1.title Β\n1.1 πρῶτος\n1.title Γ".toList).Chapters =
      [Chapter.mk "chapter-1".toList (Title.mk ['Β'] []) [] [] []
        [verseItem 1 "πρῶτος".toList]] := by
  have h0 : split "1.1 πρῶτος\n1.title Εἰσαγωγή\n1.2 λόγος".toList '\n' =
      [] ++ "1.1 πρῶτος".toList :: ["1.title Εἰσαγωγή".toList, "1.2 λόγος".toList] := by decide
  have e1 : classify "1.1 πρῶτος".toList = .verse 1 1 "πρῶτος".toList := by decide
  have h1 : ∀ l ∈ ([] : List (List Char)), ∀ q t, classify l ≠ .verse 1 q t := by
    intro l hl; cases hl
  exact ⟨⟨List.reverse_perm, h0, e1, h1⟩,
    stoffle_title_fixed_at_creation List.reverse List.reverse_perm _ [] _ _ 1 1 _ h0 e1 h1,
    by decide, by decide⟩


/-! ### Mode A: colliding verse ids -/

theorem split_two_lines (l₁ l₂ : List Char) (h₁ : '\n' ∉ l₁) (h₂ : '\n' ∉ l₂) :
    split (l₁ ++ '\n' :: l₂) '\n' = [l₁, l₂] := by
  unfold split
  rw [List.splitOnP_first (· == '\n') l₁
    (fun x hx => by simp only [beq_iff_eq]; rintro rfl; exact h₁ hx) '\n' (by simp) l₂]
  rw [List.splitOnP_eq_single (· == '\n') l₂
    (fun x hx => by simp only [beq_iff_eq]; rintro rfl; exact h₂ hx)]

/-- C18. Mode A (`parseTextToJSON` of ii_clement and of trallians): the VerseID does not
tell chapter 1 verse 23 from chapter 12 verse 3. For an input of two lines, the first of
the form `1.23<whitespace><text>` and the second of the form `12.3<whitespace><text>`,
both Paragraphs get VerseID 123. -/
theorem modeA_verseID_collision (l₁ l₂ ws₁ t₁ ws₂ t₂ : List Char)
    (hn₁ : '\n' ∉ l₁) (hn₂ : '\n' ∉ l₂)
    (h₁ : IsVerseLine (trimSpace l₁) "1".toList "23".toList ws₁ t₁)
    (h₂ : IsVerseLine (trimSpace l₂) "12".toList "3".toList ws₂ t₂) :
    (IIClement.parseTextToJSON (l₁ ++ '\n' :: l₂)).Chapters.map (·.Content) =
      [[ContentItem.mk [] [] [Paragraph.mk 123 ((fields t₁).map (fun w => Word.mk w []))],
        ContentItem.mk [] [] [Paragraph.mk 123 ((fields t₂).map (fun w => Word.mk w []))]]] ∧
    (Trallians.parseTextToJSON (l₁ ++ '\n' :: l₂)).Chapters.map (·.Content) =
      [[ContentItem.mk [] [] [Paragraph.mk 123 ((fields t₁).map (fun w => Word.mk w []))],
        ContentItem.mk [] [] [Paragraph.mk 123 ((fields t₂).map (fun w => Word.mk w []))]]] := by
  have hd1 : (digitsValue ("1".toList ++ "23".toList) : Int) = 123 := by decide
  have hd2 : (digitsValue ("12".toList ++ "3".toList) : Int) = 123 := by decide
  have hm : ¬ ((123 : Int) > maxInt) := by decide
  have key : (split (l₁ ++ '\n' :: l₂) '\n').foldl ModeA.loopBody [] =
      [ContentItem.mk [] [] [Paragraph.mk 123 ((fields t₁).map (fun w => Word.mk w []))],
        ContentItem.mk [] [] [Paragraph.mk 123 ((fields t₂).map (fun w => Word.mk w []))]] := by
    rw [split_two_lines l₁ l₂ hn₁ hn₂]
    simp only [List.foldl_cons, List.foldl_nil]
    rw [modeA_loopBody [] l₁ hn₁, modeA_loopBody _ l₂ hn₂,
      verseLineParts_of_isVerseLine h₁, verseLineParts_of_isVerseLine h₂]
    simp only [hd1, hd2, hm, if_false, fields_dropWhile_reSpace, List.nil_append,
      List.singleton_append]
  constructor
  · simp only [IIClement.parseTextToJSON, modeA_content_eq, List.map_cons, List.map_nil, key]
  · simp only [Trallians.parseTextToJSON, modeA_content_eq, List.map_cons, List.map_nil, key]

/-- Witness of C18 on the lines `1.23 λόγος` and `12.3 λόγος`. -/
theorem modeA_verseID_collision_witness :
    ('\n' ∉ "1.23 λόγος".toList ∧ '\n' ∉ "12.3 λόγος".toList ∧
      IsVerseLine (trimSpace "1.23 λόγος".toList) "1".toList "23".toList " ".toList
        "λόγος".toList ∧
      IsVerseLine (trimSpace "12.3 λόγος".toList) "12".toList "3".toList " ".toList
        "λόγος".toList) ∧
    (IIClement.parseTextToJSON ("1.23 λόγος".toList ++ '\n' :: "12.3 λόγος".toList)).Chapters.map
        (·.Content) =
      [[ContentItem.mk [] [] [Paragraph.mk 123
          ((fields "λόγος".toList).map (fun w => Word.mk w []))],
        ContentItem.mk [] [] [Paragraph.mk 123
          ((fields "λόγος".toList).map (fun w => Word.mk w []))]]] ∧
    (Trallians.parseTextToJSON ("1.23 λόγος".toList ++ '\n' :: "12.3 λόγος".toList)).Chapters.map
        (·.Content) =
      [[ContentItem.mk [] [] [Paragraph.mk 123
          ((fields "λόγος".toList).map (fun w => Word.mk w []))],
        ContentItem.mk [] [] [Paragraph.mk 123
          ((fields "λόγος".toList).map (fun w => Word.mk w []))]]] :=
  ⟨⟨by decide, by decide, by decide, by decide⟩,
    modeA_verseID_collision _ _ " ".toList _ " ".toList _ (by decide) (by decide) (by decide)
      (by decide)⟩

/-! ### The directives of a `"Chapter"` section -/

theorem splitN2_after (key v : List Char) (hkey : ':' ∉ key) :
    (splitN2 (key ++ ':' :: v) ':').getD 1 [] = v := by
  have hd : (key ++ ':' :: v).dropWhile (· != ':') = ':' :: v := by
    rw [List.dropWhile_append_of_pos]
    · simp
    · intro a ha
      simp only [bne_iff_ne, ne_eq]
      rintro rfl; exact hkey ha
  unfold splitN2
  rw [hd]
  rfl

theorem chapterLine_title (ch : Chapter) (line v : List Char)
    (h : trimSpace line = "Title:".toList ++ v) :
    chapterLine ch line = { ch with Title := { ch.Title with Display := trimSpace v } } := by
  have hv := splitN2_after "Title".toList v (by decide)
  have e : "Title".toList ++ ':' :: v = "Title:".toList ++ v := rfl
  rw [e] at hv
  have hp : "Title:".toList.isPrefixOf ("Title:".toList ++ v) = true := by
    rw [List.isPrefixOf_iff_prefix]; exact List.prefix_append _ _
  have hne : ("Title:".toList ++ v).isEmpty = false := rfl
  unfold chapterLine
  simp only [h, hne, hp, hv, Bool.false_eq_true, if_false, if_true]

theorem chapterLine_gloss (ch : Chapter) (line v : List Char)
    (h : trimSpace line = "Gloss:".toList ++ v) :
    chapterLine ch line = { ch with Title := { ch.Title with Gloss := trimSpace v } } := by
  have hv := splitN2_after "Gloss".toList v (by decide)
  have e : "Gloss".toList ++ ':' :: v = "Gloss:".toList ++ v := rfl
  rw [e] at hv
  have hp : "Gloss:".toList.isPrefixOf ("Gloss:".toList ++ v) = true := by
    rw [List.isPrefixOf_iff_prefix]; exact List.prefix_append _ _
  have hq : "Title:".toList.isPrefixOf ("Gloss:".toList ++ v) = false := rfl
  have hne : ("Gloss:".toList ++ v).isEmpty = false := rfl
  unfold chapterLine
  simp only [h, hne, hp, hq, hv, Bool.false_eq_true, if_false, if_true]

theorem chapterLine_titleImage (ch : Chapter) (line v : List Char)
    (h : trimSpace line = "TitleImage:".toList ++ v) :
    chapterLine ch line = { ch with TitleImage := trimSpace v } := by
  have hv := splitN2_after "TitleImage".toList v (by decide)
  have e : "TitleImage".toList ++ ':' :: v = "TitleImage:".toList ++ v := rfl
  rw [e] at hv
  have hp : "TitleImage:".toList.isPrefixOf ("TitleImage:".toList ++ v) = true := by
    rw [List.isPrefixOf_iff_prefix]; exact List.prefix_append _ _
  have hq : "Title:".toList.isPrefixOf ("TitleImage:".toList ++ v) = false := rfl
  have hr : "Gloss:".toList.isPrefixOf ("TitleImage:".toList ++ v) = false := rfl
  have hne : ("TitleImage:".toList ++ v).isEmpty = false := rfl
  unfold chapterLine
  simp only [h, hne, hp, hq, hr, hv, Bool.false_eq_true, if_false, if_true]


theorem chapterLine_keep_display (ch : Chapter) (l : List Char)
    (h : "Title:".toList.isPrefixOf (trimSpace l) = false) :
    (chapterLine ch l).Title.Display = ch.Title.Display := by
  unfold chapterLine
  simp only [h, Bool.false_eq_true, if_false]
  split
  · rfl
  · split
    · rfl
    · split <;> rfl

theorem chapterLine_keep_gloss (ch : Chapter) (l : List Char)
    (h : "Gloss:".toList.isPrefixOf (trimSpace l) = false) :
    (chapterLine ch l).Title.Gloss = ch.Title.Gloss := by
  unfold chapterLine
  simp only [h, Bool.false_eq_true, if_false]
  split
  · rfl
  · split
    · rfl
    · split <;> rfl

theorem chapterLine_keep_titleImage (ch : Chapter) (l : List Char)
    (h : "TitleImage:".toList.isPrefixOf (trimSpace l) = false) :
    (chapterLine ch l).TitleImage = ch.TitleImage := by
  unfold chapterLine
  simp only [h, Bool.false_eq_true, if_false]
  split
  · rfl
  · split
    · rfl
    · split <;> rfl

theorem foldl_chapterLine_keep (f : Chapter → List Char) (key : List Char)
    (hkeep : ∀ ch l, key.isPrefixOf (trimSpace l) = false → f (chapterLine ch l) = f ch)
    (ls : List (List Char)) (h : ∀ l ∈ ls, key.isPrefixOf (trimSpace l) = false) :
    ∀ ch, f (ls.foldl chapterLine ch) = f ch := by
  induction ls with
  | nil => intro ch; rfl
  | cons l ls ih =>
    intro ch
    rw [List.foldl_cons, ih (fun l' hl' => h l' (List.mem_cons_of_mem _ hl')),
      hkeep ch l (h l (List.mem_cons_self _ _))]

theorem processSection_chapter_last (book : Book) (sectionContent : List Char) :
    (processSection book "Chapter".toList sectionContent).book.Chapters.getLast? =
      some ((split sectionContent '\n').foldl chapterLine
        (Chapter.mk (chapterSlug ((book.Chapters.length : Int) + 1)) (Title.mk [] []) []
          [] [] [])) := by
  rw [processSection_chapter_chapters]
  simp

/-- C19. In a `"Chapter"` section a line whose trimmed form is `Title:v`, `Gloss:v` or
`TitleImage:v` sets Title.display, Title.gloss or TitleImage of the new chapter to `v`
trimmed, `v` being everything after the first colon (further colons included); when the
directive occurs several times the last occurrence gives the value; and a `TitleImage:`
line leaves the Title (display and gloss) as it is. -/
theorem chapter_directives :
    (∀ (book : Book) (sectionContent : List Char) (pre post : List (List Char))
        (l v : List Char),
      split sectionContent '\n' = pre ++ l :: post →
      trimSpace l = "Title:".toList ++ v →
      (∀ l' ∈ post, "Title:".toList.isPrefixOf (trimSpace l') = false) →
      (processSection book "Chapter".toList sectionContent).book.Chapters.getLast?.map
        (fun ch => ch.Title.Display) = some (trimSpace v)) ∧
    (∀ (book : Book) (sectionContent : List Char) (pre post : List (List Char))
        (l v : List Char),
      split sectionContent '\n' = pre ++ l :: post →
      trimSpace l = "Gloss:".toList ++ v →
      (∀ l' ∈ post, "Gloss:".toList.isPrefixOf (trimSpace l') = false) →
      (processSection book "Chapter".toList sectionContent).book.Chapters.getLast?.map
        (fun ch => ch.Title.Gloss) = some (trimSpace v)) ∧
    (∀ (book : Book) (sectionContent : List Char) (pre post : List (List Char))
        (l v : List Char),
      split sectionContent '\n' = pre ++ l :: post →
      trimSpace l = "TitleImage:".toList ++ v →
      (∀ l' ∈ post, "TitleImage:".toList.isPrefixOf (trimSpace l') = false) →
      (processSection book "Chapter".toList sectionContent).book.Chapters.getLast?.map
        (fun ch => ch.TitleImage) = some (trimSpace v)) ∧
    (∀ (ch : Chapter) (l v : List Char), trimSpace l = "TitleImage:".toList ++ v →
      (chapterLine ch l).Title = ch.Title) := by
  refine ⟨?_, ?_, ?_, ?_⟩
  · intro book sectionContent pre post l v hl hv hpost
    rw [processSection_chapter_last, hl, List.foldl_append, List.foldl_cons]
    simp only [Option.map_some', Option.some.injEq]
    rw [foldl_chapterLine_keep (fun ch => ch.Title.Display) _ chapterLine_keep_display post hpost,
      chapterLine_title _ l v hv]
  · intro book sectionContent pre post l v hl hv hpost
    rw [processSection_chapter_last, hl, List.foldl_append, List.foldl_cons]
    simp only [Option.map_some', Option.some.injEq]
    rw [foldl_chapterLine_keep (fun ch => ch.Title.Gloss) _ chapterLine_keep_gloss post hpost,
      chapterLine_gloss _ l v hv]
  · intro book sectionContent pre post l v hl hv hpost
    rw [processSection_chapter_last, hl, List.foldl_append, List.foldl_cons]
    simp only [Option.map_some', Option.some.injEq]
    rw [foldl_chapterLine_keep (fun ch => ch.TitleImage) _ chapterLine_keep_titleImage post hpost,
      chapterLine_titleImage _ l v hv]
  · intro ch l v hv
    rw [chapterLine_titleImage ch l v hv]

/-- Witness of C19 on the lines `Title: Α`, `TitleImage: http://x/y.png`, `Gloss: a: b`,
`Title:  Β `: the display title is `Β`, the gloss `a: b`, the title image
`http://x/y.png`. -/
theorem chapter_directives_witness :
    (split "Title: Α\nTitleImage: http://x/y.png\nGloss: a: b\nTitle:  Β ".toList '\n' =
        ["Title: Α".toList, "TitleImage: http://x/y.png".toList, "Gloss: a: b".toList] ++
          "Title:  Β ".toList :: [] ∧
      trimSpace "Title:  Β ".toList = "Title:".toList ++ "  Β".toList ∧
      (∀ l' ∈ ([] : List (List Char)), "Title:".toList.isPrefixOf (trimSpace l') = false)) ∧
    (processSection emptyBook "Chapter".toList
        "Title: Α\nTitleImage: http://x/y.png\nGloss: a: b\nTitle:  Β ".toList).book.Chapters.getLast?.map
      (fun ch => ch.Title.Display) = some (trimSpace "  Β".toList) ∧
    (processSection emptyBook "Chapter".toList
        "Title: Α\nTitleImage: http://x/y.png\nGloss: a: b\nTitle:  Β ".toList).book.Chapters =
      [Chapter.mk "chapter-1".toList (Title.mk ['Β'] "a: b".toList) "http://x/y.png".toList
        [] [] []] := by
  have h0 : split "Title: Α\nTitleImage: http://x/y.png\nGloss: a: b\nTitle:  Β ".toList '\n' =
      ["Title: Α".toList, "TitleImage: http://x/y.png".toList, "Gloss: a: b".toList] ++
        "Title:  Β ".toList :: [] := by decide
  have h1 : trimSpace "Title:  Β ".toList = "Title:".toList ++ "  Β".toList := by decide
  have h2 : ∀ l' ∈ ([] : List (List Char)),
      "Title:".toList.isPrefixOf (trimSpace l') = false := by
    intro l' hl'; cases hl'
  exact ⟨⟨h0, h1, h2⟩, chapter_directives.1 emptyBook _ _ _ _ _ h0 h1 h2, by decide⟩

/-! ### The chapter-keyed converter of 1-apology -/

theorem strMapGet_strMapSet {α : Type} (m : List (List Char × α)) (k k' : List Char) (v : α) :
    strMapGet (strMapSet m k v) k' = if k = k' then some v else strMapGet m k' := by
  induction m with
  | nil => simp [strMapSet, strMapGet]
  | cons a m ih =>
    obtain ⟨a1, a2⟩ := a
    by_cases h : a1 = k
    · subst h
      by_cases h' : a1 = k'
      · simp [strMapSet, strMapGet, h']
      · simp [strMapSet, strMapGet, h']
    · by_cases h' : a1 = k'
      · subst h'
        simp [strMapSet, strMapGet, h, Ne.symm h]
      · simp [strMapSet, strMapGet, h, h', ih]

theorem mem_firstOccurrences {α : Type} [DecidableEq α] (xs : List α) (x : α) :
    x ∈ firstOccurrences xs ↔ x ∈ xs := by
  induction xs with
  | nil => simp [firstOccurrences]
  | cons a xs ih =>
    simp only [firstOccurrences, List.mem_cons, List.mem_filter, ih, ne_eq, decide_not,
      Bool.not_eq_true', decide_eq_false_iff_not]
    constructor
    · rintro (h | ⟨h, -⟩)
      · exact Or.inl h
      · exact Or.inr h
    · intro h
      by_cases hx : x = a
      · exact Or.inl hx
      · rcases h with h | h
        · exact absurd h hx
        · exact Or.inr ⟨h, hx⟩

theorem firstOccurrences_concat {α : Type} [DecidableEq α] (xs : List α) (x : α) :
    firstOccurrences (xs ++ [x]) =
      if x ∈ xs then firstOccurrences xs else firstOccurrences xs ++ [x] := by
  induction xs with
  | nil => simp [firstOccurrences]
  | cons a xs ih =>
    rw [List.cons_append, firstOccurrences, firstOccurrences, ih]
    by_cases hx : x ∈ xs
    · simp [hx]
    · by_cases ha : x = a
      · subst ha
        simp [hx, List.filter_append]
      · simp [hx, ha, List.filter_append]

theorem firstOccurrences_nodup {α : Type} [DecidableEq α] (xs : List α) :
    (firstOccurrences xs).Nodup := by
  induction xs with
  | nil => simp [firstOccurrences]
  | cons a xs ih =>
    simp only [firstOccurrences, List.nodup_cons, List.mem_filter, ne_eq, decide_not,
      Bool.not_eq_true', decide_eq_false_iff_not, not_true_eq_false, and_false,
      not_false_eq_true, true_and]
    exact ih.filter _

theorem not_mem_dropCR {l : List Char} (h : '\n' ∉ l) : '\n' ∉ dropCR l := by
  unfold dropCR
  split
  · exact fun hm => h ((List.dropLast_subset l) hm)
  · exact h

theorem not_mem_scanLines {content l : List Char} (h : l ∈ scanLines content) : '\n' ∉ l := by
  unfold scanLines at h
  simp only at h
  obtain ⟨l', hl', rfl⟩ := List.mem_map.1 h
  apply not_mem_dropCR
  have h1 := (List.takeWhile_sublist _).subset hl'
  split at h1
  · exact not_mem_of_mem_split ((List.dropLast_subset _) h1)
  · exact not_mem_of_mem_split h1

theorem findStringSubmatch_verseRe (s : List Char) (hs : '\n' ∉ s) :
    findStringSubmatch Apology.verseRe s =
      match verseLineParts s with
      | some (c, v, t) => [s, c, v, t]
      | none => [] :=
  findStringSubmatch_verseRegexC s hs

/-- What the loop body of 1-apology does to the order of the chapters and to the keys of the
chapter map. -/
theorem apology_loopBody (st : Apology.LoopState) (l : List Char) (hl : '\n' ∉ l) :
    (apologySlug l = none → Apology.loopBody st l = st) ∧
    (∀ s, apologySlug l = some s →
      (Apology.loopBody st l).chapterOrder =
        (if (strMapGet st.chapterMap s).isSome then st.chapterOrder
         else st.chapterOrder ++ [s]) ∧
      (∀ k, (strMapGet (Apology.loopBody st l).chapterMap k).isSome =
        (decide (s = k) || (strMapGet st.chapterMap k).isSome)) ∧
      ((∀ k ch, strMapGet st.chapterMap k = some ch → ch.Slug = k) →
        ∀ k ch, strMapGet (Apology.loopBody st l).chapterMap k = some ch → ch.Slug = k)) := by
  have hnl : '\n' ∉ trimSpace l := fun h => hl (trimSpace_subset l h)
  unfold Apology.loopBody apologySlug
  simp only
  rw [findStringSubmatch_verseRe _ hnl]
  cases hp : verseLineParts (trimSpace l) with
  | none =>
    refine ⟨fun _ => ?_, fun s hs => by simp at hs⟩
    simp
  | some r =>
    obtain ⟨c, v, t⟩ := r
    obtain ⟨ws, hvl, -⟩ := isVerseLine_of_verseLineParts hp
    obtain ⟨heq, hc, -⟩ := hvl
    have hne : (trimSpace l).isEmpty = false := by
      rw [heq]; cases c with
      | nil => exact absurd rfl hc
      | cons _ _ => rfl
    refine ⟨fun h => by simp at h, ?_⟩
    intro s hs
    simp only [Option.map_some', Option.some.injEq] at hs
    simp only [hne, Bool.false_eq_true, if_false, List.length_cons, List.length_nil, if_true,
      List.getD_cons_succ, List.getD_cons_zero, hs]
    clear hs hp heq
    cases hg : strMapGet st.chapterMap s with
    | none =>
      simp only [Option.isNone_none, if_true, strMapGet_strMapSet, Option.isSome_none,
        Bool.false_eq_true, if_false]
      refine ⟨trivial, ?_, ?_⟩
      · intro k
        by_cases hk : s = k
        · simp [strMapGet_strMapSet, hk]
        · simp [strMapGet_strMapSet, hk]
      · intro hinv k ch hch
        by_cases hk : s = k
        · simp only [strMapGet_strMapSet, hk, if_true, Option.some.injEq] at hch
          rw [← hch]
        · simp only [strMapGet_strMapSet, hk, if_false] at hch
          exact hinv k ch hch
    | some ch0 =>
      simp only [Option.isNone_some, Bool.false_eq_true, if_false, hg, Option.isSome_some,
        if_true]
      refine ⟨trivial, ?_, ?_⟩
      · intro k
        by_cases hk : s = k
        · simp [strMapGet_strMapSet, hk]
        · simp [strMapGet_strMapSet, hk]
      · intro hinv k ch hch
        by_cases hk : s = k
        · simp only [strMapGet_strMapSet, hk, if_true, Option.some.injEq] at hch
          rw [← hch]
          exact hk ▸ hinv _ ch0 hg
        · simp only [strMapGet_strMapSet, hk, if_false] at hch
          exact hinv k ch hch


theorem apology_step (st : Apology.LoopState) (xs : List (List Char)) (l : List Char)
    (hl : '\n' ∉ l) (hinv : ApologyInv st xs) :
    ApologyInv (Apology.loopBody st l) (xs ++ (apologySlug l).toList) := by
  obtain ⟨h1, h2⟩ := apology_loopBody st l hl
  cases hs : apologySlug l with
  | none => rw [h1 hs]; simpa using hinv
  | some s =>
    obtain ⟨ho, hk, hsl⟩ := h2 s hs
    obtain ⟨i1, i2, i3⟩ := hinv
    refine ⟨?_, ?_, hsl i3⟩
    · rw [ho, Option.toList_some, firstOccurrences_concat, i1]
      by_cases hm : s ∈ xs
      · simp [hm, (i2 s).2 hm]
      · have : (strMapGet st.chapterMap s).isSome = false := by
          cases h : (strMapGet st.chapterMap s).isSome with
          | false => rfl
          | true => exact absurd ((i2 s).1 h) hm
        simp [hm, this]
    · intro k
      rw [hk k]
      simp only [Bool.or_eq_true, decide_eq_true_eq, i2 k, Option.toList_some, List.mem_append,
        List.mem_singleton]
      constructor
      · rintro (h | h)
        · exact Or.inr h.symm
        · exact Or.inl h
      · rintro (h | h)
        · exact Or.inr h
        · exact Or.inl h.symm

theorem apology_run (ls : List (List Char)) (hls : ∀ l ∈ ls, '\n' ∉ l) :
    ∀ st xs, ApologyInv st xs →
      ApologyInv (ls.foldl Apology.loopBody st) (xs ++ ls.filterMap apologySlug) := by
  induction ls with
  | nil => intro st xs h; simpa using h
  | cons l ls ih =>
    intro st xs h
    have h1 := apology_step st xs l (hls l (List.mem_cons_self _ _)) h
    have h2 := ih (fun x hx => hls x (List.mem_cons_of_mem _ hx)) _ _ h1
    rw [List.foldl_cons]
    cases hs : apologySlug l with
    | none =>
      rw [hs] at h2
      simpa [List.filterMap_cons_none hs] using h2
    | some s =>
      rw [hs] at h2
      simpa [List.filterMap_cons_some hs] using h2

theorem filterMap_strMapGet_slug (m : List (List Char × Apology.Chapter)) (L : List (List Char))
    (h1 : ∀ k ∈ L, (strMapGet m k).isSome = true)
    (h2 : ∀ k ch, strMapGet m k = some ch → ch.Slug = k) :
    (L.filterMap (strMapGet m)).map (·.Slug) = L := by
  induction L with
  | nil => rfl
  | cons k L ih =>
    obtain ⟨ch, hch⟩ := Option.isSome_iff_exists.1 (h1 k (List.mem_cons_self _ _))
    rw [List.filterMap_cons_some hch, List.map_cons, h2 k ch hch,
      ih (fun k' hk' => h1 k' (List.mem_cons_of_mem _ hk'))]

/-- C13, counterexample. For the input with the lines `2.1 β`, `1.1 α` the 1-apology
converter emits `chapter-2` before `chapter-1`: the order of first appearance, not the
ascending order of the chapter numbers. -/
theorem apology_not_ascending :
    (Apology.convert "2.1 β\n1.1 α".toList).Chapters.map (·.Slug) =
      ["chapter-2".toList, "chapter-1".toList] ∧
    (Apology.convert "2.1 β\n1.1 α".toList).Chapters.map (·.Slug) ≠
      ["chapter-1".toList, "chapter-2".toList] := by
  decide

/-- C13, amended. The 1-apology converter emits the chapters in the order in which they
first appear in the input: the slugs of the output chapters are the slugs `chapter-<c>`
of the verse lines `<c>.<v> <text>` the scanner delivers, in that order, without the
later occurrences. -/
theorem apology_first_appearance (content : List Char) :
    (Apology.convert content).Chapters.map (·.Slug) =
      firstOccurrences ((scanLines content).filterMap apologySlug) := by
  have hinv := apology_run (scanLines content) (fun l hl => not_mem_scanLines hl)
    (Apology.LoopState.mk [] []) [] ⟨rfl, by simp [strMapGet], by simp [strMapGet]⟩
  obtain ⟨i1, i2, i3⟩ := hinv
  simp only [List.nil_append] at i1 i2
  unfold Apology.convert
  simp only [List.nil_append]
  rw [filterMap_strMapGet_slug _ _ ?_ i3, i1]
  intro k hk
  rw [i1, mem_firstOccurrences] at hk
  exact (i2 k).2 hk

/-! ### Mode B: the `"Content"` case after the sentence pattern -/

/-- Go's regexp parser rejects the sentence pattern. -/
theorem sentencePattern_rejected : parsePerlFlags sentencePattern = false := by decide

theorem contentLoop_eq_with (ls : List (List Char)) :
    ∀ st, contentLoop ls st = contentLoopWith none ls st := by
  induction ls with
  | nil => intro st; rfl
  | cons l ls ih =>
    intro st
    simp only [contentLoop, contentLoopWith, ih, sentencePattern_rejected, Bool.not_false,
      if_true]

theorem processSection_content_eq (book : Book) (sectionContent : List Char) :
    processSection book "Content".toList sectionContent =
      processContentWith none book sectionContent := by
  have h4 : ("Content".toList = "Chapter".toList) = False := by decide
  have h5 : ("Content".toList = "Vocab".toList) = False := by decide
  have h6 : ("Content".toList = "Questions".toList) = False := by decide
  simp only [processSection, processContentWith, h4, h5, h6, if_false, if_true,
    contentLoop_eq_with]

/-- C16 at a failing input. On the one-chapter book, the `"Content"` section
`Subtitle: s`, `Image: i`, `Λόγος.`, `Καλόν.` produces no ContentItem: the two directives
are read, and at the first free-text line `regexp.MustCompile` panics on the sentence
pattern. The statements after that call do what the claim says, as the same section shows
when the pattern is read by an engine with look-behind: the first item carries `s` and
`i`, the second an empty subtitle and image. -/
theorem content_pending_never_attached :
    (processSection oneChapterBook "Content".toList
      "Subtitle: s\nImage: i\nΛόγος.\nΚαλόν.".toList).panicked = true ∧
    (processSection oneChapterBook "Content".toList
      "Subtitle: s\nImage: i\nΛόγος.\nΚαλόν.".toList).book = oneChapterBook ∧
    (processContentWith (some lookbehindSplit) oneChapterBook
      "Subtitle: s\nImage: i\nΛόγος.\nΚαλόν.".toList).book.Chapters.map (·.Content) =
      [[ContentItem.mk "s".toList "i".toList
          [Paragraph.mk 1 [Word.mk "Λόγος.".toList []]],
        ContentItem.mk [] [] [Paragraph.mk 2 [Word.mk "Καλόν.".toList []]]]] := by
  decide

/-! ### Mode B: where the `"Content"` case panics -/

/-- The loop of the `"Content"` case never appends: it ends in a panic exactly when a
free-text line is among the lines, and the content it holds is the one it started with. -/
theorem contentLoop_spec (ls : List (List Char)) :
    ∀ st : ContentState, (contentLoop ls st).1.content = st.content ∧
      (contentLoop ls st).2 = ls.any isFreeText := by
  induction ls with
  | nil => intro st; exact ⟨rfl, rfl⟩
  | cons l ls ih =>
    intro st
    unfold contentLoop
    simp only [List.any_cons, isFreeText]
    by_cases h1 : (trimSpace l).isEmpty = true
    · rw [if_pos h1, h1]
      simpa using ih st
    · rw [if_neg h1]
      have h1f : (trimSpace l).isEmpty = false := Bool.eq_false_iff.2 h1
      by_cases h2 : "Subtitle:".toList.isPrefixOf (trimSpace l) = true
      · rw [if_pos h2, h2]
        simpa using ih _
      · rw [if_neg h2]
        have h2f : "Subtitle:".toList.isPrefixOf (trimSpace l) = false :=
          Bool.eq_false_iff.2 h2
        by_cases h3 : "Image:".toList.isPrefixOf (trimSpace l) = true
        · rw [if_pos h3, h3]
          simpa using ih _
        · rw [if_neg h3]
          have h3f : "Image:".toList.isPrefixOf (trimSpace l) = false :=
            Bool.eq_false_iff.2 h3
          rw [sentencePattern_rejected, h1f, h2f, h3f]
          exact ⟨rfl, rfl⟩

/-- C21. On a book with a current chapter, `processSection` with section title
`"Content"` ends in a panic exactly when the section content has a free-text line, that
is a line that is not blank and not a `Subtitle:` or `Image:` directive: the sentence
pattern `(?<=[.!?;])\s+` is rejected by the regexp parser, so `regexp.MustCompile`
panics. Whether it panics or returns, nothing is printed and the book, the Content of the
current chapter included, is as it was before the call. -/
theorem content_section_panics_on_free_text (book : Book) (ch : Chapter)
    (sectionContent : List Char) (hcur : book.Chapters.getLast? = some ch) :
    parsePerlFlags sentencePattern = false ∧
    ((processSection book "Content".toList sectionContent).panicked = true ↔
      ∃ l ∈ split sectionContent '\n', isFreeText l = true) ∧
    (processSection book "Content".toList sectionContent).book = book ∧
    (processSection book "Content".toList sectionContent).printed = [] := by
  have h4 : ("Content".toList = "Chapter".toList) = False := by decide
  have h5 : ("Content".toList = "Vocab".toList) = False := by decide
  have h6 : ("Content".toList = "Questions".toList) = False := by decide
  obtain ⟨e1, e2⟩ := contentLoop_spec (split sectionContent '\n') ⟨ch.Content, 1, [], []⟩
  simp only [processSection, h4, h5, h6, if_false, if_true, hcur, e1, e2]
  refine ⟨sentencePattern_rejected, ?_, setCurrentChapter_self book ch hcur, trivial⟩
  rw [List.any_eq_true]

/-- Witness of C21: a section with a free-text line after a directive, and a section of a
directive, a blank line and a directive. -/
theorem content_section_panics_on_free_text_witness :
    oneChapterBook.Chapters.getLast? = some emptyChapter ∧
    (parsePerlFlags sentencePattern = false ∧
      ((processSection oneChapterBook "Content".toList
          "Subtitle: s\n\nΛόγος ἐστίν.".toList).panicked = true ↔
        ∃ l ∈ split "Subtitle: s\n\nΛόγος ἐστίν.".toList '\n', isFreeText l = true) ∧
      (processSection oneChapterBook "Content".toList
        "Subtitle: s\n\nΛόγος ἐστίν.".toList).book = oneChapterBook ∧
      (processSection oneChapterBook "Content".toList
        "Subtitle: s\n\nΛόγος ἐστίν.".toList).printed = []) ∧
    (processSection oneChapterBook "Content".toList
      "Subtitle: s\n\nΛόγος ἐστίν.".toList).panicked = true ∧
    (processSection oneChapterBook "Content".toList
      "Subtitle: s\n \nImage: i".toList).panicked = false :=
  ⟨rfl, content_section_panics_on_free_text oneChapterBook emptyChapter
    "Subtitle: s\n\nΛόγος ἐστίν.".toList rfl, by decide, by decide⟩

/-- C15 at a failing input. On the one-chapter book, the `"Content"` section `Α. Β.` has
two sentences to accept and to number 1 and 2. The call panics in `regexp.MustCompile` at
that line and leaves the chapter without a Paragraph, so there is no VerseID at all. It is
so at every call: a `"Content"` section never changes the book, whether it returns or
panics. -/
theorem content_counter_never_runs (book : Book) (sectionContent : List Char) :
    (processSection book "Content".toList sectionContent).book = book ∧
    (processSection oneChapterBook "Content".toList "Α. Β.".toList).panicked = true ∧
    (processSection oneChapterBook "Content".toList "Α. Β.".toList).book.Chapters.map
      (fun ch => verseIDs ch.Content) = [[]] ∧
    ([] : List Int) ≠ [1, 2] := by
  refine ⟨?_, by decide, by decide, by decide⟩
  have h4 : ("Content".toList = "Chapter".toList) = False := by decide
  have h5 : ("Content".toList = "Vocab".toList) = False := by decide
  have h6 : ("Content".toList = "Questions".toList) = False := by decide
  cases hcur : book.Chapters.getLast? with
  | none => simp only [processSection, h4, h5, h6, if_false, if_true, hcur]
  | some ch =>
    obtain ⟨e1, -⟩ := contentLoop_spec (split sectionContent '\n') ⟨ch.Content, 1, [], []⟩
    simp only [processSection, h4, h5, h6, if_false, if_true, hcur, e1]
    exact setCurrentChapter_self book ch hcur

/-! ### The Words of the converters -/

/-- No piece of `splitOnP p` holds a rune on which `p` is true. -/
theorem mem_splitOnP_not (p : Char → Bool) (s : List Char) :
    ∀ w ∈ s.splitOnP p, ∀ c ∈ w, p c = false := by
  induction s with
  | nil => intro w hw c hc; simp [List.splitOnP_nil] at hw; subst hw; cases hc
  | cons x xs ih =>
    intro w hw c hc
    rw [List.splitOnP_cons] at hw
    by_cases hx : p x = true
    · simp only [hx, if_true, List.mem_cons] at hw
      rcases hw with rfl | hw
      · cases hc
      · exact ih w hw c hc
    · simp only [hx, if_false] at hw
      cases hs : xs.splitOnP p with
      | nil => exact absurd hs (List.splitOnP_ne_nil p xs)
      | cons h t =>
        rw [hs] at hw ih
        rw [List.modifyHead_cons] at hw
        rcases List.mem_cons.1 hw with hw | hw
        · rw [hw] at hc
          rcases List.mem_cons.1 hc with hcx | hc'
          · rw [hcx]; exact Bool.eq_false_iff.2 hx
          · exact ih h (List.mem_cons_self _ _) c hc'
        · exact ih w (List.mem_cons_of_mem _ hw) c hc

/-- A token of `strings.Fields` is not empty and holds no whitespace. -/
theorem fields_clean (t : List Char) :
    ∀ w ∈ fields t, w ≠ [] ∧ ∀ c ∈ w, unicodeIsSpace c = false := by
  intro w hw
  unfold fields at hw
  obtain ⟨h1, h2⟩ := List.mem_filter.1 hw
  refine ⟨?_, mem_splitOnP_not unicodeIsSpace t w h1⟩
  intro h; subst h; simp at h2

/-- A text with a rune that is not whitespace has a token. -/
theorem fields_ne_nil (t : List Char) (h : ∃ x ∈ t, unicodeIsSpace x = false) :
    fields t ≠ [] := by
  induction t with
  | nil => obtain ⟨x, hx, _⟩ := h; cases hx
  | cons a t ih =>
    by_cases ha : unicodeIsSpace a = true
    · rw [fields_cons_space ha]
      apply ih
      obtain ⟨x, hx, hxs⟩ := h
      rcases List.mem_cons.1 hx with rfl | hx'
      · rw [ha] at hxs; cases hxs
      · exact ⟨x, hx', hxs⟩
    · unfold fields
      rw [List.splitOnP_cons]
      simp only [ha, if_false]
      cases hs : t.splitOnP unicodeIsSpace with
      | nil => exact absurd hs (List.splitOnP_ne_nil _ t)
      | cons h' t' => simp [List.modifyHead_cons, List.filter_cons]

/-- The last rune of a trimmed line is not whitespace. -/
theorem trimSpace_getLast (l : List Char) :
    ∀ x, (trimSpace l).getLast? = some x → unicodeIsSpace x = false := by
  intro x hx
  unfold trimSpace at hx
  by_cases hne : (l.dropWhile unicodeIsSpace).rdropWhile unicodeIsSpace = []
  · rw [hne] at hx; cases hx
  · have h1 := List.rdropWhile_last_not unicodeIsSpace _ hne
    rw [List.getLast?_eq_getLast _ hne] at hx
    simp only [Option.some.injEq] at hx
    rw [hx] at h1
    exact Bool.eq_false_iff.2 h1

/-- The text of a verse line holds a rune that is not whitespace: the line is trimmed, so
it does not end in the whitespace that follows the digits. -/
theorem verse_text_token {l c v t : List Char}
    (h : verseLineParts (trimSpace l) = some (c, v, t)) :
    ∃ x ∈ t, unicodeIsSpace x = false := by
  obtain ⟨ws, ⟨hl, -, -, -, -, hws, hwsp⟩, -⟩ := isVerseLine_of_verseLineParts h
  have hsuf : (ws ++ t) <:+ trimSpace l := by
    rw [hl]
    exact ⟨c ++ '.' :: v, by simp⟩
  have hne : t ≠ [] := by
    intro ht
    subst ht
    rw [List.append_nil] at hsuf
    obtain ⟨pre, hpre⟩ := hsuf
    have hlast : (trimSpace l).getLast? = some (ws.getLast hws) := by
      rw [← hpre, List.getLast?_append_of_ne_nil _ hws, List.getLast?_eq_getLast _ hws]
    have := trimSpace_getLast l _ hlast
    rw [reSpace_unicode (hwsp _ (List.getLast_mem hws))] at this
    cases this
  have hsuf' : t <:+ trimSpace l := (List.suffix_append ws t).trans hsuf
  obtain ⟨pre, hpre⟩ := hsuf'
  refine ⟨t.getLast hne, List.getLast_mem hne, trimSpace_getLast l _ ?_⟩
  rw [← hpre, List.getLast?_append_of_ne_nil _ hne, List.getLast?_eq_getLast _ hne]

/-- The Paragraph of a text with a rune that is not whitespace is clean. -/
theorem cleanWords_fields (id : Int) (t : List Char) (h : ∃ x ∈ t, unicodeIsSpace x = false) :
    CleanWords (Paragraph.mk id ((fields t).map (fun w => Word.mk w []))) := by
  refine ⟨?_, ?_⟩
  · simpa using fields_ne_nil t h
  · intro w hw
    obtain ⟨f, hf, rfl⟩ := List.mem_map.1 hw
    exact fields_clean t f hf

/-- Mode A: the loop keeps every Paragraph clean. -/
theorem modeA_foldl_clean (ls : List (List Char)) (hls : ∀ l ∈ ls, '\n' ∉ l) :
    ∀ acc : List ContentItem, (∀ item ∈ acc, ∀ p ∈ item.Paragraph, CleanWords p) →
      ∀ item ∈ ls.foldl ModeA.loopBody acc, ∀ p ∈ item.Paragraph, CleanWords p := by
  induction ls with
  | nil => intro acc h; exact h
  | cons l ls ih =>
    intro acc hacc
    rw [List.foldl_cons]
    apply ih (fun x hx => hls x (List.mem_cons_of_mem _ hx))
    rw [modeA_loopBody acc l (hls l (List.mem_cons_self _ _))]
    intro item hitem p hp
    rcases List.mem_append.1 hitem with h | h
    · exact hacc item h p hp
    · cases hv : verseLineParts (trimSpace l) with
      | none => rw [hv] at h; cases h
      | some r =>
        obtain ⟨c, v, t⟩ := r
        rw [hv] at h
        simp only [List.mem_singleton] at h
        subst h
        simp only [List.mem_singleton] at hp
        subst hp
        exact cleanWords_fields _ t (verse_text_token hv)

theorem modeA_clean (title slug author content : List Char) :
    ∀ ch ∈ (ModeA.parseTextToJSON title slug author content).Chapters,
      ∀ item ∈ ch.Content, ∀ p ∈ item.Paragraph, CleanWords p := by
  intro ch hch
  rw [modeA_content_eq, List.mem_singleton] at hch
  subst hch
  exact modeA_foldl_clean _ (fun l hl => not_mem_of_mem_split hl) [] (fun _ h => by cases h)

theorem classify_verse_parts {l : List Char} {n p : Int} {t : List Char}
    (h : classify l = .verse n p t) : ∃ c v, verseLineParts (trimSpace l) = some (c, v, t) := by
  unfold classify at h
  cases hp : partLineText (trimSpace l) with
  | some x => rw [hp] at h; cases h
  | none =>
    rw [hp] at h
    cases ht : titleLineParts (trimSpace l) with
    | some r => rw [ht] at h; cases h
    | none =>
      rw [ht] at h
      cases hv : verseLineParts (trimSpace l) with
      | none => rw [hv] at h; cases h
      | some r =>
        obtain ⟨c, v, x⟩ := r
        rw [hv] at h
        simp only [LineKind.verse.injEq] at h
        exact ⟨c, v, by rw [h.2.2]⟩

theorem cleanWords_verseItem (p : Int) (t : List Char)
    (h : ∃ x ∈ t, unicodeIsSpace x = false) :
    ∀ q ∈ (verseItem p t).Paragraph, CleanWords q := by
  intro q hq
  simp only [verseItem, List.mem_singleton] at hq
  subst hq
  exact cleanWords_fields p t h

theorem goodContent_append (ks : List LineKind) (items : List ContentItem) (item : ContentItem)
    (h : GoodContent ks items) (hitem : ∀ p ∈ item.Paragraph, CleanWords p) :
    GoodContent ks (items ++ [item]) := by
  cases items with
  | nil =>
    refine ⟨fun i hi => (by cases hi), fun i hi => ?_⟩
    simp only [List.nil_append, List.head?_cons, Option.some.injEq] at hi
    subst hi
    exact Or.inl hitem
  | cons a as =>
    refine ⟨fun i hi => ?_, fun i hi => h.2 i (by simpa using hi)⟩
    simp only [List.cons_append, List.tail_cons, List.mem_append, List.mem_singleton] at hi
    rcases hi with hi | hi
    · exact h.1 i (by simpa using hi)
    · rw [hi]; exact hitem

theorem applyKind_wordsInv (ks : List LineKind) (st : StoffleEpitome.LoopState) (k : LineKind)
    (hk : k ∈ ks) (hv : ∀ n p t, k = .verse n p t → ∃ x ∈ t, unicodeIsSpace x = false)
    (h : WordsInv ks st) : WordsInv ks (applyKind st k) := by
  obtain ⟨hpend, hmap⟩ := h
  cases k with
  | part x => exact ⟨fun _ => hk, hmap⟩
  | title m x => exact ⟨hpend, hmap⟩
  | other => exact ⟨hpend, hmap⟩
  | verse n p t =>
    have hclean := cleanWords_verseItem p t (hv n p t rfl)
    constructor
    · simp only [applyKind]
      cases hm : mapGet st.chapterMap n with
      | some ch => exact hpend
      | none => intro hne; exact absurd rfl hne
    · intro n' ch' hget
      by_cases hn : n' = n
      · subst hn
        cases hm : mapGet st.chapterMap n' with
        | some ch =>
          rw [applyKind_get_existing st n' p t ch hm] at hget
          simp only [Option.some.injEq] at hget
          subst hget
          exact goodContent_append ks _ _ (hmap n' ch hm) hclean
        | none =>
          rw [applyKind_get_new st n' p t hm] at hget
          simp only [Option.some.injEq] at hget
          subst hget
          by_cases hp : st.pendingPartMarker ≠ []
          · simp only [if_pos hp]
            refine ⟨fun i hi => ?_, fun i hi => ?_⟩
            · simp only [List.singleton_append, List.tail_cons, List.mem_singleton] at hi
              rw [hi]; exact hclean
            · simp only [List.singleton_append, List.head?_cons, Option.some.injEq] at hi
              exact Or.inr ⟨st.pendingPartMarker, hp, hpend hp, hi.symm⟩
          · simp only [if_neg hp, List.nil_append]
            refine ⟨fun i hi => (by cases hi), fun i hi => ?_⟩
            simp only [List.head?_cons, Option.some.injEq] at hi
            rw [← hi]; exact Or.inl hclean
      · rw [applyKind_get_other st _ n' (fun p' t' he => by cases he; exact hn rfl)] at hget
        exact hmap n' ch' hget

theorem run_wordsInv (ks : List LineKind) (js : List LineKind) (hjs : ∀ k ∈ js, k ∈ ks)
    (hv : ∀ k ∈ js, ∀ n p t, k = .verse n p t → ∃ x ∈ t, unicodeIsSpace x = false) :
    ∀ st, WordsInv ks st → WordsInv ks (js.foldl applyKind st) := by
  induction js with
  | nil => intro st h; exact h
  | cons k js ih =>
    intro st h
    rw [List.foldl_cons]
    exact ih (fun x hx => hjs x (List.mem_cons_of_mem _ hx))
      (fun x hx => hv x (List.mem_cons_of_mem _ hx)) _
      (applyKind_wordsInv ks st k (hjs k (List.mem_cons_self _ _))
        (hv k (List.mem_cons_self _ _)) h)

theorem stoffle_goodContent (rangeOrder : List Int → List Int) (content : List Char) :
    ∀ ch ∈ (StoffleEpitome.parseTextToJSON rangeOrder content).Chapters,
      GoodContent ((split content '\n').map classify) ch.Content := by
  intro ch hch
  unfold StoffleEpitome.parseTextToJSON at hch
  simp only [List.nil_append] at hch
  rw [stoffle_foldl _ (fun l hl => not_mem_of_mem_split hl)] at hch
  obtain ⟨n, -, hget⟩ := mem_filterMap_mapGet hch
  have hinv := run_wordsInv ((split content '\n').map classify)
    ((split content '\n').map classify) (fun k hk => hk)
    (fun k hk n p t he => by
      obtain ⟨l, -, hl⟩ := List.mem_map.1 hk
      rw [he] at hl
      obtain ⟨c, v, hparts⟩ := classify_verse_parts hl
      exact verse_text_token hparts)
    (StoffleEpitome.LoopState.mk [] [] [])
    ⟨fun h => absurd rfl h, fun n ch h => by cases h⟩
  exact hinv.2 n ch hget

/-- C22, as claimed, fails for the part marker of Mode C. On the lines `0.0 Part One`,
`1.1 πρῶτος λόγος`, `parseTextToJSON` of StoffleEpitome gives chapter 1 a first Paragraph
whose single Word is `Part One`, a surface form with a space in it. -/
theorem stoffle_part_word_has_space :
    (StoffleEpitome.parseTextToJSON (fun ks => ks)
      "0.0 Part One\n1.1 πρῶτος λόγος".toList).Chapters.map (·.Content) =
      [[ContentItem.mk [] [] [Paragraph.mk 0 [Word.mk "Part One".toList []]],
        ContentItem.mk [] [] [Paragraph.mk 1
          [Word.mk "πρῶτος".toList [], Word.mk "λόγος".toList []]]]] ∧
    ' ' ∈ "Part One".toList ∧ unicodeIsSpace ' ' = true ∧
    ¬ CleanWords (Paragraph.mk 0 [Word.mk "Part One".toList []]) := by
  decide

/-- C22, amended. Every Paragraph in the output of `parseTextToJSON` of ii_clement, of
trallians and of StoffleEpitome has at least one Word, and no Word has an empty surface
form. In the two Mode A outputs no Word holds whitespace. In the Mode C output the same is
true of every Paragraph but, possibly, the one of the first content item of a chapter: that
item is then the part-marker item, whose single Word is the whole text of a part-marker
line of the input. -/
theorem parseTextToJSON_words (rangeOrder : List Int → List Int) (content : List Char) :
    (∀ ch ∈ (IIClement.parseTextToJSON content).Chapters,
      ∀ item ∈ ch.Content, ∀ p ∈ item.Paragraph, CleanWords p) ∧
    (∀ ch ∈ (Trallians.parseTextToJSON content).Chapters,
      ∀ item ∈ ch.Content, ∀ p ∈ item.Paragraph, CleanWords p) ∧
    (∀ ch ∈ (StoffleEpitome.parseTextToJSON rangeOrder content).Chapters,
      (∀ item ∈ ch.Content, ∀ p ∈ item.Paragraph,
        p.Words ≠ [] ∧ ∀ w ∈ p.Words, w.Word ≠ []) ∧
      (∀ item ∈ ch.Content.tail, ∀ p ∈ item.Paragraph, CleanWords p) ∧
      (∀ item, ch.Content.head? = some item →
        (∀ p ∈ item.Paragraph, CleanWords p) ∨
          ∃ l ∈ split content '\n', ∃ part, classify l = .part part ∧
            item = partItem part)) := by
  refine ⟨modeA_clean _ _ _ content, modeA_clean _ _ _ content, fun ch hch => ?_⟩
  obtain ⟨htail, hhead⟩ := stoffle_goodContent rangeOrder content ch hch
  refine ⟨fun item hitem p hp => ?_, htail, fun item hitem => ?_⟩
  · cases hc : ch.Content with
    | nil => rw [hc] at hitem; cases hitem
    | cons a as =>
      rw [hc] at hitem htail hhead
      have hcl : ∀ q : Paragraph, CleanWords q → q.Words ≠ [] ∧ ∀ w ∈ q.Words, w.Word ≠ [] :=
        fun q hq => ⟨hq.1, fun w hw => (hq.2 w hw).1⟩
      rcases List.mem_cons.1 hitem with h | h
      · rcases hhead a rfl with h1 | ⟨part, hne, -, h1⟩
        · rw [h] at hp; exact hcl p (h1 p hp)
        · rw [h, h1] at hp
          simp only [partItem, List.mem_singleton] at hp
          rw [hp]
          refine ⟨by simp, fun w hw => ?_⟩
          simp only [List.mem_singleton] at hw
          rw [hw]; exact hne
      · exact hcl p (htail item (by simpa using h) p hp)
  · rcases hhead item hitem with h1 | ⟨part, -, hmem, h1⟩
    · exact Or.inl h1
    · obtain ⟨l, hl, hcl⟩ := List.mem_map.1 hmem
      exact Or.inr ⟨l, hl, part, hcl, h1⟩

/-- Witness of C22 on the lines `0.0 Part One`, `1.1 α β`, `1.2 γ`, for which the Mode C
output is written out. -/
theorem parseTextToJSON_words_witness :
    ((∀ ch ∈ (IIClement.parseTextToJSON "0.0 Part One\n1.1 α β\n1.2 γ".toList).Chapters,
        ∀ item ∈ ch.Content, ∀ p ∈ item.Paragraph, CleanWords p) ∧
      (∀ ch ∈ (Trallians.parseTextToJSON "0.0 Part One\n1.1 α β\n1.2 γ".toList).Chapters,
        ∀ item ∈ ch.Content, ∀ p ∈ item.Paragraph, CleanWords p) ∧
      (∀ ch ∈ (StoffleEpitome.parseTextToJSON (fun ks => ks)
          "0.0 Part One\n1.1 α β\n1.2 γ".toList).Chapters,
        (∀ item ∈ ch.Content, ∀ p ∈ item.Paragraph,
          p.Words ≠ [] ∧ ∀ w ∈ p.Words, w.Word ≠ []) ∧
        (∀ item ∈ ch.Content.tail, ∀ p ∈ item.Paragraph, CleanWords p) ∧
        (∀ item, ch.Content.head? = some item →
          (∀ p ∈ item.Paragraph, CleanWords p) ∨
            ∃ l ∈ split "0.0 Part One\n1.1 α β\n1.2 γ".toList '\n', ∃ part,
              classify l = .part part ∧ item = partItem part))) ∧
    (StoffleEpitome.parseTextToJSON (fun ks => ks)
      "0.0 Part One\n1.1 α β\n1.2 γ".toList).Chapters.map (·.Content) =
      [[partItem "Part One".toList,
        ContentItem.mk [] [] [Paragraph.mk 1 [Word.mk ['α'] [], Word.mk ['β'] []]],
        ContentItem.mk [] [] [Paragraph.mk 2 [Word.mk ['γ'] []]]]] ∧
    (IIClement.parseTextToJSON "0.0 Part One\n1.1 α β\n1.2 γ".toList).Chapters.map
      (·.Content) =
      [[ContentItem.mk [] [] [Paragraph.mk 0 [Word.mk "Part".toList [], Word.mk "One".toList []]],
        ContentItem.mk [] [] [Paragraph.mk 11 [Word.mk ['α'] [], Word.mk ['β'] []]],
        ContentItem.mk [] [] [Paragraph.mk 12 [Word.mk ['γ'] []]]]] :=
  ⟨parseTextToJSON_words (fun ks => ks) "0.0 Part One\n1.1 α β\n1.2 γ".toList,
    by decide, by decide⟩

end GradedReader
